import Mathlib

/-!
# The MP-UX assembler (masm): a shallow embedding of `CompilerDriver/masm.cxx`

The assembler reads a source file line by line.  Every line goes through
`masm_check_line`, `masm_check_export`, `masm_read_labels` and
`masm_read_instr`, which append to process-wide buffers; at the end of the
input the object writer of `main` serialises a header, the record table and
the code buffer.

Conventions of the embedding:

* a `std::string` is the list of its bytes (`Str`), a byte of the code buffer
  is a natural number below 256;
* the process-wide variables of `masm.cxx` are the fields of `State`;
* a function that may call `std::exit`, or whose C++ behaviour is undefined on
  some input, returns a `Res`;
* text printed on the terminal is not part of the state.
-/

namespace Masm

/-! ## Strings -/

/-- A std::string, as the list of its bytes (each written as the character of the same code). -/
abbrev Str := List Char

/-- The index operator of std::string: the position equal to the size holds the
terminating zero character. -/
def charAt (s : Str) (i : Nat) : Char := s.getD i (Char.ofNat 0)

/-- The member find of std::string, from position 0: the first index at which needle
occurs, none standing for npos. -/
def str_find : Str → Str → Option Nat
  | [], needle => if needle.isEmpty then some 0 else none
  | c :: s, needle =>
    if needle.isPrefixOf (c :: s) then some 0 else (str_find s needle).map (· + 1)

/-- The size_t sum `s.find(x) + k`.  npos is the all-ones value, so `npos + k` wraps
around to `k - 1`; an index plus k does not wrap (a string in memory is far shorter
than 2^64 bytes). -/
def pos_plus : Option Nat → Nat → Nat
  | some i, k => i + k
  | none, 0 => 2 ^ 64 - 1
  | none, k + 1 => k

/-- The member substr(pos) of std::string.  Every call site passes pos ≤ size, where
substr does not throw. -/
def substr (s : Str) (pos : Nat) : Str := s.drop pos

/-- The member erase(pos, n) of std::string. -/
def str_erase (s : Str) (pos n : Nat) : Str := s.take pos ++ s.drop (pos + n)

/-- The member erase(pos) of std::string: everything from pos on is removed. -/
def str_erase_from (s : Str) (pos : Nat) : Str := s.take pos

/-- The loop `while (s.find(c) != npos) s.erase(s.find(c), 1);`.  Each turn removes one
byte, so the size of the string is enough fuel. -/
def erase_all_loop (c : Char) : Nat → Str → Str
  | 0, s => s
  | fuel + 1, s =>
    match str_find s [c] with
    | none => s
    | some i => erase_all_loop c fuel (str_erase s i 1)

/-- The loop of `erase_all_loop`, run on a string with its own size as fuel. -/
def erase_all (c : Char) (s : Str) : Str := erase_all_loop c s.length s

/-- The function isdigit of the C locale. -/
def isdigit (c : Char) : Bool := decide (48 ≤ c.toNat) && decide (c.toNat ≤ 57)

/-- The function isalpha of the C locale. -/
def isalpha (c : Char) : Bool :=
  (decide (65 ≤ c.toNat) && decide (c.toNat ≤ 90)) ||
  (decide (97 ≤ c.toNat) && decide (c.toNat ≤ 122))

/-- The function isalnum of the C locale. -/
def isalnum (c : Char) : Bool := isalpha c || isdigit c

/-- The function isspace of the C locale: space, \t, \n, \v, \f, \r. -/
def isspace (c : Char) : Bool :=
  c.toNat == 32 || (decide (9 ≤ c.toNat) && decide (c.toNat ≤ 13))

/-- The function std::to_string on an unsigned integer: its decimal text. -/
def to_string (n : Nat) : Str := Nat.toDigits 10 n

/-- The byte stored for a character pushed into the code buffer. -/
def byteOf (c : Char) : Nat := c.toNat % 256

/-- Modelled from the spec: ParserKit::find_word, declared in C++Kit/ParserKit.hpp, which
is not among the sources.  The spec describes every use of it as containment of the
needle in the line (mnemonics are "looked up by substring containment of the mnemonic within
the line", directives are recognised "by keyword containment", registers "by literal
substring search over the line"). -/
def find_word (haystack needle : Str) : Bool := (str_find haystack needle).isSome

/-! ## The object format (`StdKit/AE.hpp`, `StdKit/PEF.hpp`) -/

def kAESymbolLen : Nat := 64
def kAEPad : Nat := 8
def kAEInvalidOpcode : Nat := 0
def kPefCode : Nat := 0xC
def kPefData : Nat := 0xD
def kPefZero : Nat := 0xE
def kPefArchRISCV : Nat := 102
def kPefArchARC : Nat := 103
def kKindRelocationByOffset : Nat := 0x23f
def kKindRelocationAtRuntime : Nat := 0x34f

/-- The struct AERecordHeader. -/
structure AERecordHeader where
  fName : Str
  fKind : Nat
  fSize : Nat
  fFlags : Nat
  fOffset : Nat
  fPad : List Nat
deriving DecidableEq, Repr

/-- The struct AEHeader. -/
structure AEHeader where
  fMagic : Str
  fArch : Nat
  fCount : Nat
  fSize : Nat
  fStartCode : Nat
  fCodeSize : Nat
  fPad : List Nat
deriving DecidableEq, Repr

/-! ## The process-wide state of `masm.cxx` -/

/-- The static variables of masm.cxx, and errno. -/
structure State where
  kOutputArch : Nat
  kLabelLevel : List Bool
  kAcceptableErrors : Nat
  kCounter : Nat
  kBytes : List Nat
  kCurrentRecord : AERecordHeader
  kRecords : List AERecordHeader
  kUndefinedSymbols : List Str
  errno : Nat
deriving DecidableEq, Repr

def kErrorLimit : Nat := 10

/-- The initial value of kCurrentRecord: an empty name, kind kPefCode, everything else zero. -/
def kCurrentRecord_init : AERecordHeader :=
  { fName := List.replicate kAESymbolLen (Char.ofNat 0), fKind := kPefCode, fSize := 0,
    fFlags := 0, fOffset := 0, fPad := List.replicate kAEPad 0 }

/-- The state in which the process starts. -/
def State.fresh : State :=
  { kOutputArch := kPefArchRISCV, kLabelLevel := [], kAcceptableErrors := 0, kCounter := 1,
    kBytes := [], kCurrentRecord := kCurrentRecord_init, kRecords := [],
    kUndefinedSymbols := [], errno := 0 }

/-- How a piece of the assembler ends: it returns a value in a new state, the process
leaves through std::exit with a status (in the state reached), or the C++ behaviour is
undefined.  The last case, stuck, is a loop of the model that used up its fuel. -/
inductive Res (α : Type) where
  | ok : α → State → Res α
  | exit : Nat → State → Res α
  | undef : Res α
  | stuck : Res α
deriving DecidableEq, Repr

/-- Sequencing: what follows runs only after a normal return. -/
def Res.bind {α β : Type} (r : Res α) (f : α → State → Res β) : Res β :=
  match r with
  | .ok a s => f a s
  | .exit c s => .exit c s
  | .undef => .undef
  | .stuck => .stuck

/-- The function detail::print_error: the message is printed, then the process exits
with status 3 when the counter is already above the limit, else the counter (a UInt32) is
incremented. -/
def print_error (_reason _file : Str) (st : State) : Res Unit :=
  if st.kAcceptableErrors > kErrorLimit then .exit 3 st
  else .ok () { st with kAcceptableErrors := (st.kAcceptableErrors + 1) % 2 ^ 32 }

/-- A run of calls of print_error, one per message, in order. -/
def print_errors : List (Str × Str) → State → Res Unit
  | [], st => .ok () st
  | m :: ms, st => (print_error m.1 m.2 st).bind fun _ s => print_errors ms s

/-! ## The opcode table (`AsmKit/Arch/NewCPU.hpp`) -/

def kAsmImmediate : Nat := 0x00
def kAsmRegToReg : Nat := 0x01
def kAsmSyscall : Nat := 0x02
def kAsmJump : Nat := 0x03

/-- The struct NCOpcode. -/
structure NCOpcode where
  fName : Str
  fOpcode : Nat
  fFunct3 : Nat
  fFunct7 : Nat
deriving DecidableEq, Repr

/-- The table kOpcodesStd, in its order. -/
def kOpcodesStd : List NCOpcode :=
  [ ⟨"nop".toList, 0b0100011, 0x0000000, kAsmImmediate⟩,
    ⟨"jb".toList, 0b1110011, 0b0000011, kAsmJump⟩,
    ⟨"jlr".toList, 0b1110011, 0b0000111, kAsmJump⟩,
    ⟨"jrl".toList, 0b1110011, 0b0001111, kAsmJump⟩,
    ⟨"jr".toList, 0b1110011, 0b0001011, kAsmJump⟩,
    ⟨"jal".toList, 0b1110011, 0b0000001, kAsmJump⟩,
    ⟨"mv".toList, 0b0100011, 0b101, kAsmRegToReg⟩,
    ⟨"psh".toList, 0b0101011, 0b0, kAsmImmediate⟩,
    ⟨"pop".toList, 0b0101011, 0b1, kAsmImmediate⟩,
    ⟨"bg".toList, 0b1100011, 0b111, kAsmRegToReg⟩,
    ⟨"bl".toList, 0b1100011, 0b011, kAsmRegToReg⟩,
    ⟨"beq".toList, 0b1100011, 0b000, kAsmRegToReg⟩,
    ⟨"bne".toList, 0b1100011, 0b001, kAsmRegToReg⟩,
    ⟨"bge".toList, 0b1100011, 0b101, kAsmRegToReg⟩,
    ⟨"ble".toList, 0b1100011, 0b100, kAsmRegToReg⟩,
    ⟨"stw".toList, 0b0100011, 0b100, kAsmImmediate⟩,
    ⟨"ldw".toList, 0b0000011, 0b100, kAsmImmediate⟩,
    ⟨"lda".toList, 0b0000011, 0b101, kAsmImmediate⟩,
    ⟨"add".toList, 0b0101011, 0b100, kAsmImmediate⟩,
    ⟨"dec".toList, 0b0101011, 0b101, kAsmImmediate⟩,
    ⟨"scall".toList, 0b1110011, 0b00, kAsmSyscall⟩,
    ⟨"sbreak".toList, 0b1110011, 0b01, kAsmSyscall⟩,
    ⟨"mh".toList, 0b1111111, 0b11, kAsmImmediate⟩ ]

def kAsmRegisterPrefix : Str := "r".toList
def kAsmRegisterLimit : Nat := 35

/-! ## `masm_check_export` -/

/-- The kind chosen by the chain of tests on the section fragments and on the start
stub; cur is the kind kCurrentRecord holds so far. -/
def section_kind (name : Str) (cur : Nat) : Nat :=
  let k :=
    if (str_find name ".text".toList).isSome then kPefCode
    else if (str_find name ".data".toList).isSome then kPefData
    else if (str_find name ".page_zero".toList).isSome then kPefZero
    else cur
  if name = "__start".toList then kPefCode else k

/-- The assignment `kRecords[kRecords.size() - 1].fSize = n`. -/
def set_last_size : List AERecordHeader → Nat → List AERecordHeader
  | [], _ => []
  | [r], n => [{ r with fSize := n }]
  | r :: r2 :: rs, n => r :: set_last_size (r2 :: rs) n

/-- The pair `memset(fName, 0, kAESymbolLen); memcpy(fName, src.c_str(), src.size());`.
A source longer than the field overruns it: undefined behaviour, none here. -/
def copy_name (src : Str) : Option Str :=
  if src.length ≤ kAESymbolLen then
    some (src ++ List.replicate (kAESymbolLen - src.length) (Char.ofNat 0))
  else none

/-- The tail shared by both paths of masm_check_export, from the back-fill of the last
record on: kind is the classified kind, stored the text copied into the name field. -/
def push_record (kind : Nat) (stored : Str) (st : State) : Res Unit :=
  let recs := if st.kRecords.isEmpty then st.kRecords
              else set_last_size st.kRecords st.kBytes.length
  match copy_name stored with
  | none => .undef
  | some nm =>
    let cur : AERecordHeader :=
      { st.kCurrentRecord with fKind := kind, fName := nm,
                               fPad := List.replicate kAEPad kAEInvalidOpcode }
    .ok () { st with kCurrentRecord := cur, kCounter := st.kCounter + 1,
                     kRecords := recs ++ [cur] }

/-- The text copied into the name field on the __import path: the decimal size of the
text that follows the keyword, the marker kUndefinedSymbol, and that text with every space
and comma turned into a dollar sign. -/
def import_record_name (line : Str) : Str :=
  let name := substr line (pos_plus (str_find line "__import".toList) 8)
  let result := to_string name.length ++ ":ld:".toList
  let name := name.map fun j => if j = ' ' ∨ j = ',' then '$' else j
  result ++ name

/-- The name on the __import path after the mangling loop; the kind is chosen on it. -/
def import_mangled_name (line : Str) : Str :=
  (substr line (pos_plus (str_find line "__import".toList) 8)).map
    fun j => if j = ' ' ∨ j = ',' then '$' else j

/-- The text copied into the name field on the __export path: the text that follows the
keyword, every space turned into a dollar sign, cut at the first comma. -/
def export_record_name (line : Str) : Str :=
  let name := substr line (pos_plus (str_find line "__export".toList) 8)
  let name := name.map fun j => if j = ' ' then '$' else j
  match str_find name [','] with
  | some i => str_erase_from name i
  | none => name

/-- The function masm_check_export. -/
def masm_check_export (line : Str) (st : State) : Res Unit :=
  if find_word line "__import".toList then
    push_record (section_kind (import_mangled_name line) st.kCurrentRecord.fKind)
      (import_record_name line) st
  else if find_word line "__export".toList then
    push_record (section_kind (export_record_name line) st.kCurrentRecord.fKind)
      (export_record_name line) st
  else .ok () st

/-! ## `masm_check_line` -/

/-- The function detail::algorithm::is_not_alnum_space. -/
def is_not_alnum_space (c : Char) : Bool :=
  !(isalpha c || isdigit c || c == ' ' || c == '\t' || c == ',' ||
    c == '(' || c == ')' || c == Char.ofNat 34 || c == Char.ofNat 39 || c == '[' ||
    c == ']' || c == '+' || c == '_')

/-- The function detail::algorithm::is_valid. -/
def is_valid (str : Str) : Bool :=
  if find_word str "__export".toList || find_word str "__import".toList then true
  else (str.find? is_not_alnum_space).isNone

/-- The list opcodes_list of masm_check_line. -/
def opcodes_list : List Str :=
  ["jb".toList, "psh".toList, "stw".toList, "ldw".toList, "lda".toList]

/-- The inner loop of the opcode check: one "malformed" message is appended for every
entry of opcodes_list that is the whole line, or that occurs in the line with a
character that is not white space right after it. -/
def malformed_loop (line : Str) : List Str → Str → Str
  | [], err_str => err_str
  | op :: ops, err_str =>
    if line = op ∨
        ((str_find line op).isSome ∧
          isspace (charAt line (pos_plus (str_find line op) op.length)) = false) then
      malformed_loop line ops
        (err_str ++ "\nmalformed ".toList ++ op ++ " instruction, here -> ".toList ++ line)
    else malformed_loop line ops err_str

/-- The outer loop of the opcode check, over the opcode table: the first entry whose name
occurs in the line ends the check. -/
def opcode_check (line : Str) : List NCOpcode → Str
  | [] => "Unknown syntax, ".toList ++ line
  | opcodes :: rest =>
    if (str_find line opcodes.fName).isSome then malformed_loop line opcodes_list []
    else opcode_check line rest

/-- The test that lets a line through unchecked: it is empty, or holds a directive, a
scope keyword, a comment mark or the word layout. -/
def is_passthrough (line : Str) : Bool :=
  line.isEmpty || find_word line "__import".toList || find_word line "__export".toList ||
    find_word line "begin".toList || find_word line "end".toList ||
    find_word line "#".toList || find_word line "layout".toList

/-- The check of the instruction format, run when the line has a comma: the diagnostic
when the check fails, none when it passes (or when there is no comma).  The position
tested is that of the first comma of the line. -/
def comma_check (line : Str) : Option Str :=
  match str_find line [','] with
  | some i =>
    if i + 1 = line.length then
      some ("\ninstruction lacks right register, here -> ".toList ++ substr line i)
    else if i + 1 > line.length then
      some ("\ninstruction not complete, here -> ".toList ++ line)
    else if (substr line (i + 1)).all fun ch => !(ch != ' ' && ch != '\t') then
      some ("\ninstruction not complete, here -> ".toList ++ line)
    else none
  | none => none

/-- The function masm_check_line: the diagnostic returned (empty when the line is
accepted) and the line as the function leaves it. -/
def masm_check_line (line0 : Str) : Str × Str :=
  let line := erase_all '\t' line0
  if is_passthrough line then
    match str_find line ['#'] with
    | some i => ([], str_erase_from line i)
    | none => ([], line)
  else if !is_valid line then
    ("Line contains non alphanumeric characters.\nhere -> ".toList ++ line, line)
  else
    match comma_check line with
    | some err_str => (err_str, line)
    | none => (opcode_check line kOpcodesStd, line)

/-! ## `masm_read_labels` -/

/-- The function masm_read_labels; pop_back on an empty vector is undefined behaviour. -/
def masm_read_labels (line : Str) (st : State) : Res Unit :=
  if find_word line "begin".toList then
    .ok () { st with kLabelLevel := st.kLabelLevel ++ [true] }
  else if find_word line "end".toList then
    match st.kLabelLevel with
    | [] => .undef
    | _ :: _ => .ok () { st with kLabelLevel := st.kLabelLevel.dropLast }
  else .ok () st

/-! ## `masm_write_number` -/

def ERANGE : Nat := 34

/-- The value errno is left at by a lookup of a file that does not exist. -/
def ENOENT : Nat := 2

/-- The value of a character as a digit, for the conversions of the C library. -/
def digit_value (c : Char) : Option Nat :=
  if isdigit c then some (c.toNat - 48)
  else if 97 ≤ c.toNat ∧ c.toNat ≤ 122 then some (c.toNat - 97 + 10)
  else if 65 ≤ c.toNat ∧ c.toNat ≤ 90 then some (c.toNat - 65 + 10)
  else none

/-- The value, in the base, of the longest run of digits of the base at the head of the
text, on top of the value acc read so far; no digit at all leaves acc. -/
def parse_digits (base : Nat) : Str → Nat → Nat
  | [], acc => acc
  | c :: s, acc =>
    match digit_value c with
    | some d => if d < base then parse_digits base s (acc * base + d) else acc
    | none => acc

/-- A text made of digit characters only (values below 16). -/
def DigitText (s : Str) : Prop := ∀ c ∈ s, ∃ d, d < 16 ∧ c = Nat.digitChar d

/-- The text pre is a numeral of n in base b: not empty, made of digits of the base, and
read back as n by parse_digits in front of any other text. -/
def IsNumeral (b n : Nat) (pre : Str) : Prop :=
  pre ≠ [] ∧ (∀ c ∈ pre, ∃ d, d < b ∧ c = Nat.digitChar d) ∧
  ∀ (acc : Nat) (rest : Str),
    parse_digits b (pre ++ rest) acc = parse_digits b rest (acc * b ^ pre.length + n)

/-- The optional prefix of a hexadecimal numeral: in base 16 the characters 0x or 0X
in front of a hexadecimal digit are skipped. -/
def skip_hex_marker (base : Nat) (s : Str) : Str :=
  match s with
  | z :: x :: d :: t =>
    if base = 16 ∧ z = '0' ∧ (x = 'x' ∨ x = 'X') ∧ (digit_value d).any (· < 16) then d :: t
    else s
  | _ => s

/-- The C library function strtoq (strtoll) with a null end pointer, for the bases 2, 10
and 16: white space is skipped, a sign is read, in base 16 a prefix 0x or 0X in front of
a hexadecimal digit is skipped, then the longest run of digits is converted; a text with
no digit gives 0.  A value outside the range of long long is clamped and errno set to
ERANGE: the second component tells so. -/
def strtoq (s : Str) (base : Nat) : Int × Bool :=
  let s1 := s.dropWhile isspace
  let neg := s1.head? = some '-'
  let s2 := if s1.head? = some '-' ∨ s1.head? = some '+' then s1.tail else s1
  let s3 := skip_hex_marker base s2
  let v := parse_digits base s3 0
  if neg then
    if v > 2 ^ 63 then (-(2 ^ 63 : Int), true) else (-(v : Int), false)
  else
    if v ≥ 2 ^ 63 then ((2 ^ 63 : Int) - 1, true) else ((v : Int), false)

/-- The state after a call of strtoq: errno is written only on overflow. -/
def after_strtoq (r : Int × Bool) (st : State) : State :=
  if r.2 then { st with errno := ERANGE } else st

/-- The union detail::number_type built from a long long: the value is converted to
UInt64 and read back as char number[8], in the byte order of the host (little endian). -/
def number_bytes (v : Int) : List Nat :=
  let raw := (v % (2 ^ 64 : Int)).toNat
  (List.range 8).map fun i => raw / 256 ^ i % 256

/-- The little-endian encoding of a number on 8 bytes, least significant byte first. -/
def le64 (n : Nat) : List Nat := (List.range 8).map fun i => n / 256 ^ i % 256

/-- The function masm_write_number.  Reading `jump_label[pos + 1]` past the terminating
zero is undefined behaviour. -/
def masm_write_number (pos : Nat) (jump_label : Str) (st : State) : Res Bool :=
  if pos + 1 > jump_label.length then .undef
  else if charAt jump_label (pos + 1) = 'x' then
    let res := strtoq (substr jump_label (pos + 2)) 2
    let st1 := after_strtoq res st
    if res.1 = 0 ∧ st1.errno ≠ 0 then .ok false st1
    else
      let num := strtoq (substr jump_label (pos + 2)) 16
      let st2 := after_strtoq num st1
      .ok true { st2 with kBytes := st2.kBytes ++ number_bytes num.1 }
  else if charAt jump_label (pos + 1) = 'b' then
    let res := strtoq (substr jump_label (pos + 2)) 2
    let st1 := after_strtoq res st
    if res.1 = 0 ∧ st1.errno ≠ 0 then .ok false st1
    else
      let num := strtoq (substr jump_label (pos + 2)) 2
      let st2 := after_strtoq num st1
      .ok true { st2 with kBytes := st2.kBytes ++ number_bytes num.1 }
  else
    let res := strtoq (substr jump_label pos) 10
    let st1 := after_strtoq res st
    if res.1 = 0 then .ok false st1
    else
      let num := strtoq (substr jump_label pos) 10
      let st2 := after_strtoq num st1
      .ok true { st2 with kBytes := st2.kBytes ++ number_bytes num.1 }

/-! ## `masm_read_instr` -/

/-- The loop over the register indices 0 .. kAsmRegisterLimit - 1: the state and the
count found_some after it. -/
def register_scan (line : Str) (st : State) : State × Nat :=
  (List.range kAsmRegisterLimit).foldl
    (fun (acc : State × Nat) reg_index =>
      if find_word line (kAsmRegisterPrefix ++ to_string reg_index) then
        ({ acc.1 with kBytes := acc.1.kBytes ++ [reg_index] }, acc.2 + 1)
      else acc)
    (st, 0)

/-- The register indices below kAsmRegisterLimit whose text (the prefix followed by the
decimal index) is found in the line, in ascending order. -/
def registers_found (line : Str) : List Nat :=
  (List.range kAsmRegisterLimit).filter fun i =>
    find_word line (kAsmRegisterPrefix ++ to_string i)

/-- The three operand-count checks that follow the register scan. -/
def register_checks (line file name : Str) (fFunct7 found_some : Nat) (st : State) :
    Res Unit :=
  (if fFunct7 ≠ kAsmImmediate ∧ found_some = 1 then
      print_error (("unrecognized register found.\ntip: each NewCPU register starts with " ++
        "\x27r\x27.\nline: ").toList ++ line) file st
    else .ok () st).bind fun _ s1 =>
  (if found_some < 1 ∧ name ≠ "psh".toList then
      print_error ("invalid combination of opcode and registers.\nline: ".toList ++ line) file s1
    else .ok () s1).bind fun _ s2 =>
  if found_some > 0 ∧ name = "pop".toList then
    print_error ("invalid combination of opcode and register for \x27pop\x27.\nline: ".toList
      ++ line) file s2
  else .ok () s2

/-- The loop that strips spaces from jump_label: it stops as soon as the first
character is alphanumeric, and otherwise erases the first space left. -/
def strip_label_loop : Nat → Str → Str
  | 0, s => s
  | fuel + 1, s =>
    match str_find s [' '] with
    | none => s
    | some i =>
      if isalnum (charAt s 0) || isdigit (charAt s 0) then s
      else strip_label_loop fuel (str_erase s i 1)

/-- The loop `while (cpy_jump_label.find(',') != npos) print_error(..)`: the label never
changes, so the loop only ends through the exit of print_error. -/
def comma_loop (cpy_jump_label : Str) : Nat → State → Res Unit
  | 0, _ => .stuck
  | fuel + 1, st =>
    if (str_find cpy_jump_label [',']).isSome then
      (print_error "internal assembler error".toList "masm".toList st).bind fun _ s =>
        comma_loop cpy_jump_label fuel s
    else .ok () st

/-- The loop that pushes the relocation text: a backslash is dropped, and so is the
character after it. -/
def push_reloc : Str → Bool → List Nat
  | [], _ => []
  | reloc_chr :: rest, ignore_back_slash =>
    if reloc_chr = '\\' then push_reloc rest true
    else if ignore_back_slash then push_reloc rest false
    else byteOf reloc_chr :: push_reloc rest false

/-- The block under the label masm_write_label. -/
def masm_write_label (cpy_jump_label : Str) (st : State) : Res Unit :=
  let cpy1 := match str_find cpy_jump_label ['\n'] with
    | some i => str_erase cpy_jump_label i 1
    | none => cpy_jump_label
  let cpy2 := match str_find cpy1 "__import".toList with
    | some i => str_erase cpy1 i 8
    | none => cpy1
  let cpy3 := erase_all ' ' cpy2
  (comma_loop cpy3 (kErrorLimit + 2) st).bind fun _ s =>
  let mld_reloc_str := to_string cpy3.length ++ ":mld_reloc:".toList ++ cpy3
  .ok () { s with kBytes := s.kBytes ++ push_reloc mld_reloc_str false }

/-- The part of the loop body that fetches the operand of psh, jb, stw, ldw or lda. -/
def read_operand (line name : Str) (st : State) : Res Unit :=
  if name = "psh".toList ∨ name = "jb".toList ∨ name = "stw".toList ∨
      name = "ldw".toList ∨ name = "lda".toList then
    let where_string :=
      if name = "stw".toList ∨ name = "ldw".toList ∨ name = "lda".toList then [',']
      else name
    let jump_label := substr line (pos_plus (str_find line where_string) where_string.length)
    let cpy_jump_label := jump_label
    let jump_label :=
      if charAt jump_label 0 = ' ' then strip_label_loop jump_label.length jump_label
      else jump_label
    (masm_write_number 0 jump_label st).bind fun written s =>
      if !written then masm_write_label cpy_jump_label s
      else if name = "jb".toList then masm_write_label cpy_jump_label s
      else .ok () s
  else if name = "jb".toList then masm_write_label [] st
  else .ok () st

/-- The body of the loop of masm_read_instr for one entry of the table. -/
def read_instr_entry (line file : Str) (opcodes : NCOpcode) (st : State) : Res Unit :=
  if find_word line opcodes.fName then
    let name := opcodes.fName
    let st1 := { st with kBytes := st.kBytes ++
      [opcodes.fOpcode, opcodes.fFunct3, opcodes.fFunct7] }
    (if opcodes.fFunct7 = kAsmRegToReg ∨ opcodes.fFunct7 = kAsmImmediate then
        let scan := register_scan line st1
        register_checks line file name opcodes.fFunct7 scan.2 scan.1
      else .ok () st1).bind fun _ s2 =>
    (read_operand line name s2).bind fun _ s3 =>
    .ok () { s3 with kBytes := s3.kBytes ++ [0] }
  else .ok () st

/-- The loop of masm_read_instr over a table. -/
def read_instr_loop (line file : Str) : List NCOpcode → State → Res Unit
  | [], st => .ok () st
  | opcodes :: rest, st =>
    (read_instr_entry line file opcodes st).bind fun _ s => read_instr_loop line file rest s

/-- The function masm_read_instr. -/
def masm_read_instr (line file : Str) (st : State) : Res Unit :=
  read_instr_loop line file kOpcodesStd st

/-! ## The driver: `main` -/

/-- The body of the compilation loop of main, for one line of the input. -/
def compile_line (line0 file : Str) (st : State) : Res Unit :=
  let checked := masm_check_line line0
  if !checked.1.isEmpty then print_error checked.1 file st
  else if find_word checked.2 "#".toList then .ok () st
  else
    (masm_check_export checked.2 st).bind fun _ s1 =>
    (masm_read_labels checked.2 s1).bind fun _ s2 =>
    masm_read_instr checked.2 file s2

/-- The compilation loop of main over the lines that std::getline delivers. -/
def compile_lines (file : Str) : List Str → State → Res Unit
  | [], st => .ok () st
  | line :: rest, st => (compile_line line file st).bind fun _ s => compile_lines file rest s

/-- What the object writer leaves in the output file: the header as patched by the
second write, the record table and the code. -/
structure ObjectFile where
  header : AEHeader
  table : List AERecordHeader
  code : List Nat
deriving DecidableEq, Repr

/-- The loop of main over kRecords: the relocation flag is or-ed in and the offset
becomes the ordinal of the record. -/
def finish_records : List AERecordHeader → Nat → List AERecordHeader
  | [], _ => []
  | r :: rest, record_count =>
    { r with fFlags := r.fFlags ||| kKindRelocationAtRuntime, fOffset := record_count } ::
      finish_records rest (record_count + 1)

/-- The loop of main over kUndefinedSymbols, which builds one record per symbol; a
symbol longer than the name field overruns it (none). -/
def undefined_records : List Str → Nat → Option (List AERecordHeader)
  | [], _ => some []
  | sym :: rest, record_count =>
    match copy_name sym, undefined_records rest (record_count + 1) with
    | some nm, some recs =>
      some ({ fName := nm, fKind := kAEInvalidOpcode, fSize := sym.length, fFlags := 0,
              fOffset := record_count, fPad := List.replicate kAEPad kAEInvalidOpcode } :: recs)
    | _, _ => none

/-- The final step of main for one input file.  The sizes of the two packed structs
depend on the integer types of C++Kit/Defines.hpp, which is not among the sources: they
are the parameters sizeofHeader and sizeofRecord.  With no record the output file is removed
and main returns -1 (none here). -/
def write_object (sizeofHeader sizeofRecord : Nat) (st : State) : Res (Option ObjectFile) :=
  let hdr : AEHeader :=
    { fMagic := ['A', 'E'], fArch := st.kOutputArch,
      fCount := st.kRecords.length + st.kUndefinedSymbols.length,
      fSize := sizeofHeader % 256, fStartCode := 0, fCodeSize := 0,
      fPad := List.replicate kAEPad kAEInvalidOpcode }
  if st.kRecords.isEmpty then .ok none st
  else
    let recs := finish_records (set_last_size st.kRecords st.kBytes.length) 0
    match undefined_records st.kUndefinedSymbols (recs.length + 1) with
    | none => .undef
    | some undefs =>
      let pos_end := sizeofHeader + (recs.length + undefs.length) * sizeofRecord
      .ok (some { header := { hdr with fStartCode := pos_end, fCodeSize := st.kBytes.length },
                  table := recs ++ undefs, code := st.kBytes })
        { st with kRecords := recs, kCounter := st.kCounter + undefs.length }

/-- The work of main on one input file: the compilation loop, then the object writer. -/
def assemble (sizeofHeader sizeofRecord : Nat) (file : Str) (lines : List Str) (st : State) :
    Res (Option ObjectFile) :=
  (compile_lines file lines st).bind fun _ s => write_object sizeofHeader sizeofRecord s

/-! ## Predicates used in the statements -/

/-- The part of the state that the instruction encoder never writes: everything but the
code buffer, the error counter and errno. -/
def record_part (s : State) :
    Nat × List Bool × Nat × AERecordHeader × List AERecordHeader × List Str :=
  (s.kOutputArch, s.kLabelLevel, s.kCounter, s.kCurrentRecord, s.kRecords, s.kUndefinedSymbols)

/-- What holds of the records in every state the compilation loop reaches from the fresh
state: every record has a 64-byte name, an 8-byte pad, no flag set and one of the three
section kinds; kCurrentRecord holds the kind of the record pushed last (Code when none was
pushed) and no flag; no undefined symbol is listed. -/
def RecordsInv (s : State) : Prop :=
  (∀ r ∈ s.kRecords, r.fName.length = kAESymbolLen ∧ r.fPad.length = kAEPad ∧ r.fFlags = 0 ∧
    (r.fKind = kPefCode ∨ r.fKind = kPefData ∨ r.fKind = kPefZero)) ∧
  s.kCurrentRecord.fKind = (s.kRecords.getLast?.map fun r => r.fKind).getD kPefCode ∧
  s.kCurrentRecord.fFlags = 0 ∧
  s.kUndefinedSymbols = []

/-- The name on which masm_check_export chooses the kind of the record: the mangled name
on the __import path, the record name on the __export path. -/
def directive_name (line : Str) : Str :=
  if find_word line "__import".toList then import_mangled_name line else export_record_name line

/-- The text masm_check_export copies into the name field of the record. -/
def directive_record_name (line : Str) : Str :=
  if find_word line "__import".toList then import_record_name line else export_record_name line

/-- The characters the line validator is said to accept once the tabs are removed: the
ASCII letters and digits, the space, the comma, the parentheses, the two quotes, the
square brackets, the plus sign and the underscore. -/
def claimed_allowed_char (c : Char) : Bool :=
  isalpha c || isdigit c || c == ' ' || c == ',' || c == '(' || c == ')' ||
    c == Char.ofNat 34 || c == Char.ofNat 39 || c == '[' || c == ']' || c == '+' || c == '_'

/-- The test of the inner loop of the opcode check for one entry of opcodes_list: the entry
is the whole line, or it occurs in the line and the character right after its first
occurrence is not white space. -/
def is_malformed (line op : Str) : Bool :=
  decide (line = op ∨
    ((str_find line op).isSome ∧
      isspace (charAt line (pos_plus (str_find line op) op.length)) = false))

/-- The message the inner loop of the opcode check appends for one entry. -/
def malformed_message (line op : Str) : Str :=
  "\nmalformed ".toList ++ op ++ " instruction, here -> ".toList ++ line

/-! ## The object writer, byte by byte -/

def kAEMagLen : Nat := 2

/-- The bytes of an integer field of w bytes, in the byte order of the host (little
endian). -/
def le_bytes (w n : Nat) : List Nat := (List.range w).map fun i => n / 256 ^ i % 256

/-- The size of the packed struct AEHeader; sizeType is the size of SizeType, declared in
C++Kit/Defines.hpp, which is not among the sources. -/
def sizeof_AEHeader (sizeType : Nat) : Nat :=
  kAEMagLen + 1 + sizeType + 1 + sizeType + sizeType + kAEPad

/-- The size of the packed struct AERecordHeader; sizeType and uintPtr are the sizes of
SizeType and UIntPtr, declared in C++Kit/Defines.hpp. -/
def sizeof_AERecordHeader (sizeType uintPtr : Nat) : Nat :=
  kAESymbolLen + sizeType + sizeType + sizeType + uintPtr + kAEPad

/-- The bytes that the operator << writes for an AEHeader: the fields of the packed
struct in their order. -/
def header_bytes (sizeType : Nat) (h : AEHeader) : List Nat :=
  h.fMagic.map byteOf ++ [h.fArch % 256] ++ le_bytes sizeType h.fCount ++ [h.fSize % 256] ++
    le_bytes sizeType h.fStartCode ++ le_bytes sizeType h.fCodeSize ++ h.fPad

/-- The bytes that the operator << writes for an AERecordHeader. -/
def record_bytes (sizeType uintPtr : Nat) (r : AERecordHeader) : List Nat :=
  r.fName.map byteOf ++ le_bytes sizeType r.fKind ++ le_bytes sizeType r.fSize ++
    le_bytes sizeType r.fFlags ++ le_bytes uintPtr r.fOffset ++ r.fPad

/-- An output file stream: the bytes of the file and the put position. -/
structure OStream where
  content : List Nat
  pos : Nat
deriving DecidableEq, Repr

/-- The member write of the stream, at a put position inside the file or at its end:
the bytes replace what was there and the position moves past them. -/
def OStream.write (f : OStream) (data : List Nat) : OStream :=
  { content := f.content.take f.pos ++ data ++ f.content.drop (f.pos + data.length),
    pos := f.pos + data.length }

/-- The member seekp of the stream. -/
def OStream.seekp (f : OStream) (p : Nat) : OStream := { f with pos := p }

/-- The final step of main for one input file, on the stream: the header is written,
then every record, then the records of the undefined symbols; the header is written
again at the start with fStartCode and fCodeSize set, and the code follows the record
table, byte by byte.  The value is the content of the output file, none when the file is
removed (no record). -/
def write_stream (sizeType uintPtr : Nat) (st : State) : Res (Option (List Nat)) :=
  let file_ptr_out : OStream := { content := [], pos := 0 }
  let pos := file_ptr_out.pos
  let hdr : AEHeader :=
    { fMagic := ['A', 'E'], fArch := st.kOutputArch,
      fCount := st.kRecords.length + st.kUndefinedSymbols.length,
      fSize := sizeof_AEHeader sizeType % 256, fStartCode := 0, fCodeSize := 0,
      fPad := List.replicate kAEPad kAEInvalidOpcode }
  let file_ptr_out := file_ptr_out.write (header_bytes sizeType hdr)
  if st.kRecords.isEmpty then .ok none st
  else
    let recs := finish_records (set_last_size st.kRecords st.kBytes.length) 0
    let file_ptr_out :=
      recs.foldl (fun o r => o.write (record_bytes sizeType uintPtr r)) file_ptr_out
    match undefined_records st.kUndefinedSymbols (recs.length + 1) with
    | none => .undef
    | some undefs =>
      let file_ptr_out :=
        undefs.foldl (fun o r => o.write (record_bytes sizeType uintPtr r)) file_ptr_out
      let pos_end := file_ptr_out.pos
      let file_ptr_out := file_ptr_out.seekp pos
      let hdr := { hdr with fStartCode := pos_end, fCodeSize := st.kBytes.length }
      let file_ptr_out := file_ptr_out.write (header_bytes sizeType hdr)
      let file_ptr_out := file_ptr_out.seekp pos_end
      let file_ptr_out := st.kBytes.foldl (fun o byte => o.write [byte]) file_ptr_out
      .ok (some file_ptr_out.content)
        { st with kRecords := recs, kCounter := st.kCounter + undefs.length }

/-- The header as the claim on the object layout describes it after the second write:
record count = records + undefined symbols, code start = header size + record count x
record size, code size = length of the code buffer. -/
def patched_header (sizeofHeader sizeofRecord : Nat) (st : State) : AEHeader :=
  { fMagic := ['A', 'E'], fArch := st.kOutputArch,
    fCount := st.kRecords.length + st.kUndefinedSymbols.length,
    fSize := sizeofHeader % 256,
    fStartCode := sizeofHeader +
      (st.kRecords.length + st.kUndefinedSymbols.length) * sizeofRecord,
    fCodeSize := st.kBytes.length,
    fPad := List.replicate kAEPad kAEInvalidOpcode }

/-! ## The loop of `main` over the command line -/

/-- One argument of the command line: its text, and the lines of the file of that name
when such a file exists. -/
structure Arg where
  text : Str
  file : Option (List Str)
deriving DecidableEq, Repr

/-- The function main from its loop over argv on: the value is the status returned and,
when an object was written, the argument it was assembled from with the object (the name
of the output file is derived from the argument with two extension macros that are not
among the sources).  A flag is an argument that starts with a dash; the first argument
that is not a flag and names an existing file is assembled, and main returns right after
writing (or removing) its object.  An argument that names no existing file is skipped; the
failed lookup of std::filesystem::exists leaves errno at ENOENT. -/
def main (sizeofHeader sizeofRecord : Nat) :
    List Arg → State → Res (Int × Option (Str × ObjectFile))
  | [], st => .ok (0, none) st
  | a :: rest, st =>
    if charAt a.text 0 = '-' then
      if a.text = "-v".toList then .ok (0, none) st
      else if a.text = "-marc".toList then
        main sizeofHeader sizeofRecord rest { st with kOutputArch := kPefArchARC }
      else main sizeofHeader sizeofRecord rest st
    else
      match a.file with
      | none => main sizeofHeader sizeofRecord rest { st with errno := ENOENT }
      | some lines =>
        (assemble sizeofHeader sizeofRecord a.text lines st).bind fun obj s =>
          match obj with
          | none => .ok (-1, none) s
          | some o => .ok (0, some (a.text, o)) s

/-! ## Lines of the register claims -/

/-- The source line "mv r<a>, r<b>", the indices written in decimal. -/
def mv_line (a b : Nat) : Str :=
  "mv r".toList ++ to_string a ++ ", r".toList ++ to_string b

/-- The register indices below kAsmRegisterLimit whose decimal text is a prefix of the
decimal text of a or of b. -/
def registers_by_text (a b : Nat) : List Nat :=
  (List.range kAsmRegisterLimit).filter fun i =>
    (to_string i).isPrefixOf (to_string a) || (to_string i).isPrefixOf (to_string b)

/-! ## The operand texts of `masm_read_instr` -/

/-- The text cpy_jump_label of masm_read_instr for psh, jb, stw, ldw and lda: what
follows the mnemonic in the line, or what follows the first comma for stw, ldw and lda. -/
def operand_copy (line name : Str) : Str :=
  let where_string :=
    if name = "stw".toList ∨ name = "ldw".toList ∨ name = "lda".toList then [',']
    else name
  substr line (pos_plus (str_find line where_string) where_string.length)

/-- The text jump_label handed to masm_write_number: the copy above after the loop that
strips spaces, run when the text starts with a space. -/
def operand_label (line name : Str) : Str :=
  if charAt (operand_copy line name) 0 = ' ' then
    strip_label_loop (operand_copy line name).length (operand_copy line name)
  else operand_copy line name

/-- The label as the block masm_write_label has it when the comma loop starts: the first
newline, the first __import and every space erased. -/
def stripped_label (cpy_jump_label : Str) : Str :=
  let cpy1 := match str_find cpy_jump_label ['\n'] with
    | some i => str_erase cpy_jump_label i 1
    | none => cpy_jump_label
  let cpy2 := match str_find cpy1 "__import".toList with
    | some i => str_erase cpy1 i 8
    | none => cpy1
  erase_all ' ' cpy2

/-- The outcomes of a piece of code that only calls print_error, started in s: it
returns with the error counter moved to some n and nothing else changed, or the process
exits with status 3 in such a state, the counter above the limit. -/
def ErrOutcome (s : State) (r : Res Unit) : Prop :=
  ∃ n, r = .ok () { s with kAcceptableErrors := n } ∨
    (r = .exit 3 { s with kAcceptableErrors := n } ∧ 11 ≤ n)

/-! ## Predicates on the records of a run -/

/-- A source line that holds a directive once its tabs are removed and it is cut at the
first comment mark: the text left contains __import or __export. -/
def directive_line (line0 : Str) : Bool :=
  let line := (erase_all '\t' line0).takeWhile fun c => c != '#'
  find_word line "__import".toList || find_word line "__export".toList

/-- What holds of the size fields in every state the compilation loop reaches: the sizes
of all records but the last are in non-decreasing order and none is above the length of
the code buffer (the last record gets its size when the next directive opens, or from the
object writer). -/
def SizesInv (s : State) : Prop :=
  (s.kRecords.dropLast.map fun r => r.fSize).Pairwise (· ≤ ·) ∧
  ∀ r ∈ s.kRecords.dropLast, r.fSize ≤ s.kBytes.length

/-- The state in which a piece of code leaves the process: the state it returns in or
the state at the exit; none when the behaviour is undefined or the fuel of the model is
used up. -/
def Res.last {α : Type} : Res α → Option State
  | .ok _ s => some s
  | .exit _ s => some s
  | .undef => none
  | .stuck => none

/-- The outcome r of a piece of code started in s leaves the list of undefined symbols
as it was, whether the code returns or the process exits. -/
def KeepsUndefined {α : Type} (s : State) (r : Res α) : Prop :=
  ∀ s1, r.last = some s1 → s1.kUndefinedSymbols = s.kUndefinedSymbols

/-! ## Lemmas on the error counter -/

theorem print_error_below (reason file : Str) (st : State) (h : st.kAcceptableErrors ≤ 10) :
    print_error reason file st =
      .ok () { st with kAcceptableErrors := st.kAcceptableErrors + 1 } := by
  have h1 : ¬ st.kAcceptableErrors > kErrorLimit := by simp [kErrorLimit]; omega
  have h2 : (st.kAcceptableErrors + 1) % 2 ^ 32 = st.kAcceptableErrors + 1 := by omega
  simp only [print_error, if_neg h1, h2]

theorem print_error_above (reason file : Str) (st : State) (h : 11 ≤ st.kAcceptableErrors) :
    print_error reason file st = .exit 3 st := by
  have h1 : st.kAcceptableErrors > kErrorLimit := by simp [kErrorLimit]; omega
  simp only [print_error, if_pos h1]

theorem print_errors_ok (msgs : List (Str × Str)) :
    ∀ st : State, st.kAcceptableErrors + msgs.length ≤ 11 →
      print_errors msgs st =
        .ok () { st with kAcceptableErrors := st.kAcceptableErrors + msgs.length } := by
  induction msgs with
  | nil => intro st _; simp [print_errors]
  | cons m ms ih =>
    intro st h
    simp only [List.length_cons] at h
    rw [print_errors, print_error_below _ _ _ (by omega)]
    simp only [Res.bind]
    rw [ih _ (by simp only []; omega)]
    simp only [List.length_cons]
    congr 2
    omega

theorem print_errors_exit (msgs : List (Str × Str)) :
    ∀ st : State, st.kAcceptableErrors ≤ 11 → 12 ≤ st.kAcceptableErrors + msgs.length →
      print_errors msgs st = .exit 3 { st with kAcceptableErrors := 11 } := by
  induction msgs with
  | nil => intro st h1 h2; simp at h2; omega
  | cons m ms ih =>
    intro st h1 h2
    simp only [List.length_cons] at h2
    rw [print_errors]
    by_cases h : st.kAcceptableErrors = 11
    · rw [print_error_above _ _ _ (by omega)]
      simp only [Res.bind]
      congr 1
      cases st
      simp_all
    · rw [print_error_below _ _ _ (by omega)]
      simp only [Res.bind]
      rw [ih _ (by simp only []; omega) (by simp only []; omega)]

/-- C1 (as the code has it): from an error counter of 0, the first 11 calls of
detail::print_error return normally, each adding one to the counter, and the 12th call
leaves the process with exit status 3, the counter standing at 11.  In the compilation
loop nothing after the line whose step exits is processed. -/
theorem print_error_budget (msgs : List (Str × Str)) (st : State)
    (h0 : st.kAcceptableErrors = 0) :
    (msgs.length ≤ 11 →
      print_errors msgs st = .ok () { st with kAcceptableErrors := msgs.length }) ∧
    (12 ≤ msgs.length →
      print_errors msgs st = .exit 3 { st with kAcceptableErrors := 11 }) ∧
    (∀ (file line : Str) (pre post : List Str) (s0 s1 s2 : State) (c : Nat),
      compile_lines file pre s0 = .ok () s1 → compile_line line file s1 = .exit c s2 →
      compile_lines file (pre ++ line :: post) s0 = .exit c s2) := by
  refine ⟨fun h => ?_, fun h => ?_, ?_⟩
  · have := print_errors_ok msgs st (by omega)
    rw [this, h0, Nat.zero_add]
  · exact print_errors_exit msgs st (by omega) (by omega)
  · intro file line pre
    induction pre with
    | nil =>
      intro post s0 s1 s2 c h1 h2
      simp only [compile_lines] at h1
      cases h1
      simp [compile_lines, h2, Res.bind]
    | cons l ls ih =>
      intro post s0 s1 s2 c h1 h2
      simp only [compile_lines, List.cons_append] at h1 ⊢
      cases hl : compile_line l file s0 with
      | ok u s => rw [hl] at h1; simp only [Res.bind] at h1 ⊢; exact ih post s s1 s2 c h1 h2
      | exit c1 s => rw [hl] at h1; simp [Res.bind] at h1
      | undef => rw [hl] at h1; simp [Res.bind] at h1
      | stuck => rw [hl] at h1; simp [Res.bind] at h1

/-- The budget theorem at twelve reports from the fresh state. -/
theorem print_error_budget_witness :
    State.fresh.kAcceptableErrors = 0 ∧
    print_errors (List.replicate 12 ("Unknown syntax, zz".toList, "a.s".toList)) State.fresh =
      .exit 3 { State.fresh with kAcceptableErrors := 11 } :=
  ⟨rfl, (print_error_budget _ State.fresh rfl).2.1 (by simp)⟩

/-- C1 as stated fails: from the fresh state the 11th call of print_error returns
normally (the counter is then 11), it does not leave the process. -/
theorem eleventh_error_returns :
    print_errors (List.replicate 11 ("Unknown syntax, zz".toList, "a.s".toList)) State.fresh =
      .ok () { State.fresh with kAcceptableErrors := 11 } := by
  decide

/-- C1 as stated fails in the driver too: after eleven rejected lines the twelfth line, a
directive, is still processed and opens a record. -/
theorem line_after_eleventh_error_processed :
    (match compile_lines "a.s".toList
        (List.replicate 11 "zz".toList ++ ["__export .text".toList]) State.fresh with
      | .ok _ s => (s.kAcceptableErrors, s.kRecords.length)
      | _ => (0, 0)) = (11, 1) := by
  decide

/-! ## Lemmas on digits and on strtoq -/

theorem digitChar_facts : ∀ d, d < 16 →
    digit_value (Nat.digitChar d) = some d ∧ isspace (Nat.digitChar d) = false ∧
    Nat.digitChar d ≠ '-' ∧ Nat.digitChar d ≠ '+' ∧ Nat.digitChar d ≠ 'x' ∧
    Nat.digitChar d ≠ 'X' := by
  decide

theorem digitChar_decimal_facts : ∀ d, d < 10 →
    Nat.digitChar d ≠ 'x' ∧ Nat.digitChar d ≠ 'b' := by
  decide

theorem parse_digits_digit (b d : Nat) (hb : b ≤ 16) (hd : d < b) (rest : Str) (acc : Nat) :
    parse_digits b (Nat.digitChar d :: rest) acc = parse_digits b rest (acc * b + d) := by
  have h := (digitChar_facts d (by omega)).1
  simp only [parse_digits, h, if_pos hd]

theorem toDigitsCore_numeral (b : Nat) (h2 : 2 ≤ b) (h16 : b ≤ 16) :
    ∀ (fuel n : Nat) (ds : Str), n < fuel →
      ∃ pre, Nat.toDigitsCore b fuel n ds = pre ++ ds ∧ IsNumeral b n pre := by
  intro fuel
  induction fuel with
  | zero => intro n ds h; omega
  | succ fuel ih =>
    intro n ds hn
    have hmod : n % b < b := Nat.mod_lt _ (by omega)
    by_cases h0 : n / b = 0
    · refine ⟨[Nat.digitChar (n % b)], ?_, by simp, ?_, ?_⟩
      · simp [Nat.toDigitsCore, h0]
      · intro c hc
        simp only [List.mem_singleton] at hc
        exact ⟨n % b, hmod, hc⟩
      · intro acc rest
        have hlt : n < b := by
          by_contra hge
          have := Nat.div_pos (Nat.le_of_not_lt hge) (by omega : 0 < b)
          omega
        rw [Nat.mod_eq_of_lt hlt]
        simp only [List.singleton_append, List.length_singleton, pow_one]
        exact parse_digits_digit b n h16 hlt rest acc
    · have hlt : n / b < fuel := by
        have : n / b < n := Nat.div_lt_self (by
          rcases Nat.eq_zero_or_pos n with h | h
          · subst h; simp at h0
          · exact h) (by omega)
        omega
      obtain ⟨pre, hpre, hne, hdig, hval⟩ := ih (n / b) (Nat.digitChar (n % b) :: ds) hlt
      refine ⟨pre ++ [Nat.digitChar (n % b)], ?_, by simp, ?_, ?_⟩
      · simp [Nat.toDigitsCore, h0, hpre]
      · intro c hc
        rcases List.mem_append.1 hc with hc | hc
        · exact hdig c hc
        · simp only [List.mem_singleton] at hc
          exact ⟨n % b, hmod, hc⟩
      · intro acc rest
        rw [List.append_assoc, hval, List.singleton_append,
          parse_digits_digit b (n % b) h16 hmod]
        congr 1
        rw [List.length_append, List.length_singleton, pow_succ]
        have := Nat.div_add_mod n b
        nlinarith [Nat.div_add_mod n b, Nat.mul_comm b (n / b)]

theorem toDigits_numeral (b n : Nat) (h2 : 2 ≤ b) (h16 : b ≤ 16) :
    IsNumeral b n (Nat.toDigits b n) := by
  obtain ⟨pre, hpre, h⟩ := toDigitsCore_numeral b h2 h16 (n + 1) n [] (by omega)
  rw [Nat.toDigits, hpre, List.append_nil]
  exact h

theorem IsNumeral.parse {b n : Nat} {pre : Str} (h : IsNumeral b n pre) :
    parse_digits b pre 0 = n := by
  have := h.2.2 0 []
  simpa [parse_digits] using this

theorem IsNumeral.digitText {b n : Nat} {pre : Str} (hb : b ≤ 16) (h : IsNumeral b n pre) :
    DigitText pre := by
  intro c hc
  obtain ⟨d, hd, rfl⟩ := h.2.1 c hc
  exact ⟨d, by omega, rfl⟩

theorem parse_digits_lt (b : Nat) (hb : 1 ≤ b) :
    ∀ (s : Str) (acc : Nat), parse_digits b s acc < (acc + 1) * b ^ s.length := by
  intro s
  induction s with
  | nil => intro acc; simp [parse_digits]
  | cons c s ih =>
    intro acc
    have hpos : 0 < b ^ s.length := pow_pos (by omega) _
    have hstop : acc < (acc + 1) * b ^ (c :: s).length := by
      rw [List.length_cons, pow_succ]
      have h1 : 1 ≤ b ^ s.length * b := Nat.mul_pos hpos (by omega)
      calc acc < (acc + 1) * 1 := by omega
        _ ≤ (acc + 1) * (b ^ s.length * b) := Nat.mul_le_mul_left _ h1
    simp only [parse_digits]
    split
    · rename_i d _
      split
      · rename_i hd
        have := ih (acc * b + d)
        rw [List.length_cons, pow_succ]
        nlinarith
      · exact hstop
    · exact hstop

theorem skip_hex_marker_digitText (base : Nat) (s : Str) (hs : DigitText s) :
    skip_hex_marker base s = s := by
  match s, hs with
  | [], _ => rfl
  | [_], _ => rfl
  | [_, _], _ => rfl
  | z :: x :: d :: t, hs =>
    obtain ⟨dx, hdx, hx⟩ := hs x (by simp)
    have hfx := digitChar_facts dx hdx
    rw [← hx] at hfx
    have hno : ¬ (base = 16 ∧ z = '0' ∧ (x = 'x' ∨ x = 'X') ∧
        (digit_value d).any (· < 16) = true) := by
      rintro ⟨-, -, h | h, -⟩
      · exact hfx.2.2.2.2.1 h
      · exact hfx.2.2.2.2.2 h
    simp only [skip_hex_marker, if_neg hno]

theorem strtoq_digitText (s : Str) (base : Nat) (hs : DigitText s) (hne : s ≠ [])
    (hv : parse_digits base s 0 < 2 ^ 63) :
    strtoq s base = (((parse_digits base s 0 : Nat) : Int), false) := by
  obtain ⟨c, t, rfl⟩ := List.exists_cons_of_ne_nil hne
  obtain ⟨d, hd, hc⟩ := hs c (by simp)
  have hf := digitChar_facts d hd
  rw [← hc] at hf
  obtain ⟨-, hsp, hm, hp, -, -⟩ := hf
  have hnot : ¬ parse_digits base (c :: t) 0 ≥ 2 ^ 63 := by omega
  simp only [strtoq, List.dropWhile, hsp, List.head?, Option.some.injEq, hm, hp, or_self,
    if_false, skip_hex_marker_digitText base (c :: t) hs, decide_False, Bool.false_eq_true,
    if_neg hnot]


theorem number_bytes_nat (n : Nat) (h : n < 2 ^ 64) : number_bytes (n : Int) = le64 n := by
  have : ((n : Int) % (2 ^ 64 : Int)).toNat = n := by omega
  simp only [number_bytes, le64, this]

theorem after_strtoq_false (v : Int) (st : State) : after_strtoq (v, false) st = st := by
  simp [after_strtoq]

theorem write_number_decimal (s : Str) (n : Nat) (st : State) (hnum : IsNumeral 10 n s)
    (h1 : 1 ≤ n) (h2 : n < 2 ^ 63) :
    masm_write_number 0 s st = .ok true { st with kBytes := st.kBytes ++ le64 n } := by
  have hq : strtoq (substr s 0) 10 = ((n : Int), false) := by
    have := strtoq_digitText s 10 (hnum.digitText (by omega)) hnum.1 (by rw [hnum.parse]; exact h2)
    rw [hnum.parse] at this
    simpa [substr] using this
  obtain ⟨c, t, rfl⟩ := List.exists_cons_of_ne_nil hnum.1
  have hlen : ¬ (0 + 1 > (c :: t).length) := by simp
  have hch : charAt (c :: t) (0 + 1) ≠ 'x' ∧ charAt (c :: t) (0 + 1) ≠ 'b' := by
    cases t with
    | nil => exact ⟨by simp [charAt], by simp [charAt]⟩
    | cons x t =>
      obtain ⟨d, hd, hx⟩ := hnum.2.1 x (by simp)
      have := digitChar_decimal_facts d hd
      rw [← hx] at this
      simpa [charAt] using this
  have hn0 : ¬ ((n : Int) = 0) := by omega
  simp only [masm_write_number, if_neg hlen, if_neg hch.1, if_neg hch.2, hq,
    after_strtoq_false, if_neg hn0, number_bytes_nat n (by omega)]

theorem write_number_prefixed (p : Char) (base : Nat) (pre : Str) (n : Nat) (st : State)
    (hp : p = 'x' ∧ base = 16 ∨ p = 'b' ∧ base = 2)
    (hnum : IsNumeral base n pre) (hlen : pre.length ≤ 63) (h2 : n < 2 ^ 63)
    (he : st.errno = 0) :
    masm_write_number 0 ('0' :: p :: pre) st =
      .ok true { st with kBytes := st.kBytes ++ le64 n } := by
  have hb16 : base ≤ 16 := by rcases hp with ⟨-, h⟩ | ⟨-, h⟩ <;> omega
  have hdt := hnum.digitText hb16
  have hv2 : parse_digits 2 pre 0 < 2 ^ 63 := by
    have := parse_digits_lt 2 (by omega) pre 0
    have hpow : 2 ^ pre.length ≤ 2 ^ 63 := Nat.pow_le_pow_right (by omega) hlen
    omega
  have hq2 := strtoq_digitText pre 2 hdt hnum.1 hv2
  have hqb := strtoq_digitText pre base hdt hnum.1 (by rw [hnum.parse]; exact h2)
  rw [hnum.parse] at hqb
  have hlen1 : ¬ (0 + 1 > ('0' :: p :: pre).length) := by simp
  have hsub : substr ('0' :: p :: pre) (0 + 2) = pre := by simp [substr]
  have hcond : ∀ v : Int, ¬ (v = 0 ∧ st.errno ≠ 0) := by
    intro v h; exact h.2 he
  rcases hp with ⟨rfl, rfl⟩ | ⟨rfl, rfl⟩
  · have hc : charAt ('0' :: 'x' :: pre) (0 + 1) = 'x' := rfl
    simp only [masm_write_number, if_neg hlen1, hc, if_true, hsub, hq2, hqb,
      after_strtoq_false, if_neg (hcond _), number_bytes_nat n (by omega)]
  · have hc : charAt ('0' :: 'b' :: pre) (0 + 1) = 'b' := rfl
    have hc2 : ¬ ('b' = 'x') := by decide
    simp only [masm_write_number, if_neg hlen1, hc, if_neg hc2, if_true, hsub, hqb,
      after_strtoq_false, if_neg (hcond _), number_bytes_nat n (by omega)]

theorem toDigits_length_le (b n e : Nat) (hb : 2 ≤ b) (he : 0 < e) (h : n < b ^ e) :
    (Nat.toDigits b n).length ≤ e :=
  Nat.toDigitsCore_length b hb (n + 1) n e h he

/-- C2 (as the code has it): for every n with 0 <= n < 2^63 and errno = 0, masm_write_number
on "0x" followed by the hex digits of n and on "0b" followed by the binary digits of n
returns true and appends the little-endian 8 bytes of n to the code buffer, leaving
everything else as it was; on the decimal text of n it does the same when n >= 1. -/
theorem write_number_forms_agree (n : Nat) (st : State) (h2 : n < 2 ^ 63)
    (he : st.errno = 0) :
    masm_write_number 0 ("0x".toList ++ Nat.toDigits 16 n) st =
      .ok true { st with kBytes := st.kBytes ++ le64 n } ∧
    masm_write_number 0 ("0b".toList ++ Nat.toDigits 2 n) st =
      .ok true { st with kBytes := st.kBytes ++ le64 n } ∧
    (1 ≤ n → masm_write_number 0 (Nat.toDigits 10 n) st =
      .ok true { st with kBytes := st.kBytes ++ le64 n }) := by
  refine ⟨?_, ?_, fun h1 => ?_⟩
  · exact write_number_prefixed 'x' 16 _ n st (Or.inl ⟨rfl, rfl⟩)
      (toDigits_numeral 16 n (by omega) (by omega))
      (le_trans (toDigits_length_le 16 n 16 (by omega) (by omega)
        (lt_of_lt_of_le h2 (by norm_num))) (by omega)) h2 he
  · exact write_number_prefixed 'b' 2 _ n st (Or.inr ⟨rfl, rfl⟩)
      (toDigits_numeral 2 n (by omega) (by omega))
      (le_trans (toDigits_length_le 2 n 63 (by omega) (by omega) h2) (by omega)) h2 he
  · exact write_number_decimal _ n st (toDigits_numeral 10 n (by omega) (by omega)) h1 h2

/-- The agreement of the three forms at n = 255, from the fresh state. -/
theorem write_number_forms_agree_witness :
    (255 < 2 ^ 63 ∧ State.fresh.errno = 0) ∧
    masm_write_number 0 "0xff".toList State.fresh =
      .ok true { State.fresh with kBytes := [255, 0, 0, 0, 0, 0, 0, 0] } ∧
    masm_write_number 0 "0b11111111".toList State.fresh =
      .ok true { State.fresh with kBytes := [255, 0, 0, 0, 0, 0, 0, 0] } ∧
    masm_write_number 0 "255".toList State.fresh =
      .ok true { State.fresh with kBytes := [255, 0, 0, 0, 0, 0, 0, 0] } :=
  ⟨⟨by norm_num, rfl⟩,
   (write_number_forms_agree 255 State.fresh (by norm_num) rfl).1,
   (write_number_forms_agree 255 State.fresh (by norm_num) rfl).2.1,
   (write_number_forms_agree 255 State.fresh (by norm_num) rfl).2.2 (by norm_num)⟩

/-- C2 as stated fails at n = 0: the decimal text "0" is refused (false is returned and
nothing is appended), while "0x0" is accepted and appends eight zero bytes. -/
theorem write_number_decimal_zero :
    masm_write_number 0 "0".toList State.fresh = .ok false State.fresh ∧
    masm_write_number 0 "0x0".toList State.fresh =
      .ok true { State.fresh with kBytes := [0, 0, 0, 0, 0, 0, 0, 0] } := by
  decide

/-! ## Lemmas on find, erase and the loops over strings -/

theorem str_find_char_none (c : Char) : ∀ s : Str, c ∉ s → str_find s [c] = none := by
  intro s
  induction s with
  | nil => intro _; simp [str_find]
  | cons a s ih =>
    intro h
    have ha : ¬ (c = a) := fun e => h (by simp [e])
    have hs : c ∉ s := fun e => h (by simp [e])
    simp [str_find, List.isPrefixOf, ha, ih hs]

theorem str_find_char_some (c : Char) :
    ∀ (s : Str) (i : Nat), str_find s [c] = some i →
      ∃ pre post, s = pre ++ c :: post ∧ c ∉ pre ∧ i = pre.length := by
  intro s
  induction s with
  | nil => intro i h; simp [str_find] at h
  | cons a s ih =>
    intro i h
    by_cases ha : c = a
    · subst ha
      simp [str_find, List.isPrefixOf] at h
      exact ⟨[], s, rfl, by simp, by simp [← h]⟩
    · have hstep : str_find (a :: s) [c] = (str_find s [c]).map (· + 1) := by
        simp [str_find, List.isPrefixOf, ha]
      rw [hstep] at h
      cases hj : str_find s [c] with
      | none => rw [hj] at h; simp at h
      | some j =>
        rw [hj] at h
        simp at h
        obtain ⟨pre, post, rfl, hpre, rfl⟩ := ih j hj
        exact ⟨a :: pre, post, rfl, by simp [ha, hpre], by simp [← h]⟩

theorem str_find_char_isSome (c : Char) (s : Str) : (str_find s [c]).isSome = true ↔ c ∈ s := by
  constructor
  · intro h
    obtain ⟨i, hi⟩ := Option.isSome_iff_exists.1 h
    obtain ⟨pre, post, rfl, -, -⟩ := str_find_char_some c s i hi
    simp
  · intro h
    by_contra hn
    induction s with
    | nil => simp at h
    | cons a s ih =>
      by_cases ha : c = a
      · subst ha; simp [str_find, List.isPrefixOf] at hn
      · have hs : c ∈ s := by simpa [ha] using h
        apply ih hs
        intro hsome
        apply hn
        obtain ⟨i, hi⟩ := Option.isSome_iff_exists.1 hsome
        simp [str_find, List.isPrefixOf, ha, hi]

theorem erase_all_loop_eq_filter (c : Char) :
    ∀ (fuel : Nat) (s : Str), s.length ≤ fuel →
      erase_all_loop c fuel s = s.filter (fun x => x != c) := by
  intro fuel
  induction fuel with
  | zero =>
    intro s h
    have : s = [] := List.eq_nil_of_length_eq_zero (by omega)
    subst this
    rfl
  | succ fuel ih =>
    intro s h
    cases hf : str_find s [c] with
    | none =>
      have hc : c ∉ s := by
        intro hm
        have := (str_find_char_isSome c s).2 hm
        simp [hf] at this
      simp only [erase_all_loop, hf]
      symm
      rw [List.filter_eq_self]
      intro a ha
      have : a ≠ c := fun e => hc (e ▸ ha)
      simpa using this
    | some i =>
      obtain ⟨pre, post, rfl, hpre, rfl⟩ := str_find_char_some c s i hf
      have hlen : (pre ++ post).length ≤ fuel := by
        simp only [List.length_append, List.length_cons] at h ⊢
        omega
      have he : str_erase (pre ++ c :: post) pre.length 1 = pre ++ post := by
        simp [str_erase, List.take_append, List.drop_append]
      simp only [erase_all_loop, hf, he, ih _ hlen]
      simp [List.filter_append, List.filter_cons]

theorem erase_all_eq_filter (c : Char) (s : Str) :
    erase_all c s = s.filter (fun x => x != c) :=
  erase_all_loop_eq_filter c s.length s (le_refl _)

theorem comma_loop_none (cpy : Str) (fuel : Nat) (st : State) (h : ',' ∉ cpy) :
    comma_loop cpy (fuel + 1) st = .ok () st := by
  have : (str_find cpy [',']).isSome = false := by
    rw [str_find_char_none ',' cpy h]; rfl
  simp [comma_loop, this]

theorem push_reloc_plain : ∀ s : Str, '\\' ∉ s → push_reloc s false = s.map byteOf := by
  intro s
  induction s with
  | nil => intro _; rfl
  | cons a s ih =>
    intro h
    have ha : ¬ (a = '\\') := fun e => h (by simp [e])
    have hs : '\\' ∉ s := fun e => h (by simp [e])
    simp [push_reloc, ha, ih hs]

theorem to_string_chars (n : Nat) : ∀ c ∈ to_string n, c ≠ '\\' ∧ c ≠ ',' ∧ c ≠ ' ' := by
  intro c hc
  obtain ⟨d, hd, rfl⟩ := (toDigits_numeral 10 n (by omega) (by omega)).2.1 c hc
  have : ∀ d, d < 10 → Nat.digitChar d ≠ '\\' ∧ Nat.digitChar d ≠ ',' ∧
      Nat.digitChar d ≠ ' ' := by decide
  exact this d hd

/-! ## Lemmas on masm_write_number and on the loop of masm_read_instr -/

theorem strtoq_zero_state (s : Str) (base : Nat) (st : State) (h : (strtoq s base).1 = 0) :
    after_strtoq (strtoq s base) st = st := by
  have h2 : (strtoq s base).2 = false := by
    revert h
    simp only [strtoq]
    split_ifs <;> simp
  simp [after_strtoq, h2]

theorem write_number_false (pos : Nat) (s : Str) (st s1 : State)
    (h : masm_write_number pos s st = .ok false s1) :
    s1 = st ∧ ∀ st2 : State, st2.errno = st.errno →
      masm_write_number pos s st2 = .ok false st2 := by
  simp only [masm_write_number] at h
  split_ifs at h with h1 h2 h3 h4 h5 h6
  · have e := strtoq_zero_state (substr s (pos + 2)) 2 st h3.1
    rw [e] at h3 h
    refine ⟨by injection h with _ h; exact h.symm, fun st2 he => ?_⟩
    have e2 := strtoq_zero_state (substr s (pos + 2)) 2 st2 h3.1
    simp only [masm_write_number, if_neg h1, if_pos h2, e2, he]
    rw [if_pos ⟨h3.1, h3.2⟩]
  · cases h
  · have e := strtoq_zero_state (substr s (pos + 2)) 2 st h5.1
    rw [e] at h5 h
    refine ⟨by injection h with _ h; exact h.symm, fun st2 he => ?_⟩
    have e2 := strtoq_zero_state (substr s (pos + 2)) 2 st2 h5.1
    simp only [masm_write_number, if_neg h1, if_neg h2, if_pos h4, e2, he]
    rw [if_pos ⟨h5.1, h5.2⟩]
  · cases h
  · have e := strtoq_zero_state (substr s pos) 10 st h6
    rw [e] at h
    refine ⟨by injection h with _ h; exact h.symm, fun st2 he => ?_⟩
    have e2 := strtoq_zero_state (substr s pos) 10 st2 h6
    simp only [masm_write_number, if_neg h1, if_neg h2, if_neg h4, e2, if_pos h6]
  · cases h

theorem read_instr_entry_skip (line file : Str) (op : NCOpcode) (st : State)
    (h : find_word line op.fName = false) : read_instr_entry line file op st = .ok () st := by
  simp [read_instr_entry, h]

theorem read_instr_loop_filter (line file : Str) :
    ∀ (ops : List NCOpcode) (st : State),
      read_instr_loop line file ops st =
        read_instr_loop line file (ops.filter fun op => find_word line op.fName) st := by
  intro ops
  induction ops with
  | nil => intro st; rfl
  | cons op ops ih =>
    intro st
    by_cases h : find_word line op.fName = true
    · simp only [List.filter_cons, h, if_true, read_instr_loop]
      congr 1
      funext _ s
      exact ih s
    · simp only [List.filter_cons, h, if_false, read_instr_loop, read_instr_entry_skip line file op st (by simpa using h),
        Res.bind]
      exact ih st

theorem filter_only_name (line nm : Str) (ops : List NCOpcode)
    (hnm : find_word line nm = true)
    (hother : ∀ op ∈ ops, op.fName ≠ nm → find_word line op.fName = false) :
    (ops.filter fun op => find_word line op.fName) =
      ops.filter fun op => decide (op.fName = nm) := by
  apply List.filter_congr
  intro op hop
  by_cases h : op.fName = nm
  · simp [h, hnm]
  · simp [h, hother op hop h]

theorem jb_entry_only :
    (kOpcodesStd.filter fun op => decide (op.fName = "jb".toList)) =
      [⟨"jb".toList, 0x73, 0x03, 0x03⟩] := by
  decide

theorem str_find_shift_none (c : Char) (s needle : Str) (h : str_find s needle = none)
    (hp : needle.isPrefixOf (c :: s) = false) : str_find (c :: s) needle = none := by
  simp [str_find, hp, h]

theorem read_operand_jb_symbolic (L : Str) (st s1 : State)
    (hrej : masm_write_number 0 (strip_label_loop (' ' :: L).length (' ' :: L)) st =
      .ok false s1)
    (hnl : '\n' ∉ L) (hcomma : ',' ∉ L) (hbs : '\\' ∉ L)
    (himp : str_find L "__import".toList = none) :
    read_operand ("jb ".toList ++ L) "jb".toList st =
      .ok () { st with kBytes := st.kBytes ++
        (to_string (L.filter fun x => x != ' ').length ++ ":mld_reloc:".toList ++
          L.filter fun x => x != ' ').map byteOf } := by
  obtain ⟨rfl, -⟩ := write_number_false _ _ _ _ hrej
  have hname : ("jb".toList = "psh".toList ∨ "jb".toList = "jb".toList ∨
      "jb".toList = "stw".toList ∨ "jb".toList = "ldw".toList ∨
      "jb".toList = "lda".toList) := by decide
  have hwhere : ¬ ("jb".toList = "stw".toList ∨ "jb".toList = "ldw".toList ∨
      "jb".toList = "lda".toList) := by decide
  have hfind : str_find ("jb ".toList ++ L) "jb".toList = some 0 := by
    simp [str_find, List.isPrefixOf]
  have hsub : substr ("jb ".toList ++ L) (pos_plus (some 0) "jb".toList.length) = ' ' :: L := by
    simp [substr, pos_plus]
  have hc0 : charAt (' ' :: L) 0 = ' ' := rfl
  have hfilter : erase_all ' ' (' ' :: L) = L.filter fun x => x != ' ' := by
    rw [erase_all_eq_filter]; simp
  have hnl2 : str_find (' ' :: L) ['\n'] = none :=
    str_find_char_none _ _ (by simp [hnl])
  have himp2 : str_find (' ' :: L) "__import".toList = none :=
    str_find_shift_none _ _ _ himp (by simp [List.isPrefixOf])
  have hcomma2 : ',' ∉ L.filter fun x => x != ' ' := by
    intro h; exact hcomma (List.mem_filter.1 h).1
  have hbs2 : '\\' ∉ to_string (L.filter fun x => x != ' ').length ++ ":mld_reloc:".toList ++
      L.filter fun x => x != ' ' := by
    intro h
    rcases List.mem_append.1 h with h | h
    · rcases List.mem_append.1 h with h | h
      · exact (to_string_chars _ _ h).1 rfl
      · revert h; decide
    · exact hbs (List.mem_filter.1 h).1
  unfold read_operand
  rw [if_pos hname, if_neg hwhere]
  simp only [hfind, hsub, hc0, if_true, hrej,
    Res.bind, Bool.not_false, masm_write_label, hnl2, himp2, hfilter,
    comma_loop_none _ _ _ hcomma2, push_reloc_plain _ hbs2]


/-- C3 (as the code has it): for every label L such that the line "jb L" contains no other
table mnemonic, L is rejected by the number parser, and L holds no newline, no comma, no
backslash and no "__import", masm_read_instr appends exactly the header 0x73, 0x03,
0x03, then the bytes of the decimal length of L without its spaces, of ":mld_reloc:" and
of L without its spaces, then one zero byte; the rest of the state is unchanged. -/
theorem jb_relocation_token (L file : Str) (st s1 : State)
    (hother : ∀ op ∈ kOpcodesStd, op.fName ≠ "jb".toList →
      find_word ("jb ".toList ++ L) op.fName = false)
    (hrej : masm_write_number 0 (strip_label_loop (' ' :: L).length (' ' :: L)) st =
      .ok false s1)
    (hnl : '\n' ∉ L) (hcomma : ',' ∉ L) (hbs : '\\' ∉ L)
    (himp : str_find L "__import".toList = none) :
    masm_read_instr ("jb ".toList ++ L) file st =
      .ok () { st with kBytes := st.kBytes ++ [0x73, 0x03, 0x03] ++
        (to_string (L.filter fun x => x != ' ').length ++ ":mld_reloc:".toList ++
          L.filter fun x => x != ' ').map byteOf ++ [0] } := by
  have hjb : find_word ("jb ".toList ++ L) "jb".toList = true := by
    simp [find_word, str_find, List.isPrefixOf]
  have hrej1 := (write_number_false _ _ _ _ hrej).2
    { st with kBytes := st.kBytes ++ [0x73, 0x03, 0x03] } rfl
  have hop := read_operand_jb_symbolic L _ _ hrej1 hnl hcomma hbs himp
  have hclass : ¬ (0x03 = kAsmRegToReg ∨ 0x03 = kAsmImmediate) := by decide
  rw [masm_read_instr, read_instr_loop_filter,
    filter_only_name _ "jb".toList _ hjb hother, jb_entry_only]
  simp only [read_instr_loop, read_instr_entry, hjb, if_true, if_neg hclass, Res.bind, hop]

/-- The relocation theorem on the line "jb foo", from the fresh state. -/
theorem jb_relocation_token_witness :
    ((∀ op ∈ kOpcodesStd, op.fName ≠ "jb".toList →
        find_word "jb foo".toList op.fName = false) ∧
      masm_write_number 0 "foo".toList State.fresh = .ok false State.fresh ∧
      '\n' ∉ "foo".toList ∧ ',' ∉ "foo".toList ∧ '\\' ∉ "foo".toList ∧
      str_find "foo".toList "__import".toList = none) ∧
    masm_read_instr "jb foo".toList "a.s".toList State.fresh =
      .ok () { State.fresh with kBytes :=
        [0x73, 0x03, 0x03] ++ "3:mld_reloc:foo".toList.map byteOf ++ [0] } :=
  ⟨⟨by decide, by decide, by decide, by decide, by decide, by decide⟩,
   jb_relocation_token "foo".toList "a.s".toList State.fresh State.fresh (by decide)
     (by decide) (by decide) (by decide) (by decide) (by decide)⟩

/-- C3 as stated fails on a label that holds the keyword: for "jb __importfoo" the token
is built from "foo" (3:mld_reloc:foo), not from the label with its spaces removed. -/
theorem jb_label_with_import_keyword :
    ((∀ op ∈ kOpcodesStd, op.fName ≠ "jb".toList →
        find_word "jb __importfoo".toList op.fName = false) ∧
      masm_write_number 0 "__importfoo".toList State.fresh = .ok false State.fresh) ∧
    masm_read_instr "jb __importfoo".toList "a.s".toList State.fresh =
      .ok () { State.fresh with kBytes :=
        [0x73, 0x03, 0x03] ++ "3:mld_reloc:foo".toList.map byteOf ++ [0] } ∧
    masm_read_instr "jb __importfoo".toList "a.s".toList State.fresh ≠
      .ok () { State.fresh with kBytes :=
        [0x73, 0x03, 0x03] ++ "11:mld_reloc:__importfoo".toList.map byteOf ++ [0] } := by
  decide

/-! ## Lemmas on the register scan -/

theorem register_scan_fold (line : Str) :
    ∀ (l : List Nat) (acc : State × Nat),
      l.foldl
        (fun (acc : State × Nat) reg_index =>
          if find_word line (kAsmRegisterPrefix ++ to_string reg_index) then
            ({ acc.1 with kBytes := acc.1.kBytes ++ [reg_index] }, acc.2 + 1)
          else acc) acc =
      ({ acc.1 with kBytes := (acc.1.kBytes ++
          l.filter (fun i => find_word line (kAsmRegisterPrefix ++ to_string i))) },
        acc.2 + (l.filter fun i => find_word line (kAsmRegisterPrefix ++ to_string i)).length) := by
  intro l
  induction l with
  | nil => intro acc; simp
  | cons i l ih =>
    intro acc
    by_cases h : find_word line (kAsmRegisterPrefix ++ to_string i) = true
    · simp only [List.foldl_cons, h, if_true, ih, List.filter_cons, List.length_cons,
        List.append_assoc, List.singleton_append]
      congr 1
      omega
    · simp only [List.foldl_cons, h, if_false, ih, List.filter_cons]
      simp

theorem register_scan_eq (line : Str) (st : State) :
    register_scan line st =
      ({ st with kBytes := st.kBytes ++ registers_found line },
        (registers_found line).length) := by
  rw [register_scan, register_scan_fold]
  simp [registers_found]

theorem table_names_unique : ∀ op ∈ kOpcodesStd,
    (kOpcodesStd.filter fun o => decide (o.fName = op.fName)) = [op] := by
  decide

theorem regtoreg_names : ∀ op ∈ kOpcodesStd, op.fFunct7 = kAsmRegToReg →
    ¬ (op.fName = "psh".toList ∨ op.fName = "jb".toList ∨ op.fName = "stw".toList ∨
        op.fName = "ldw".toList ∨ op.fName = "lda".toList) ∧
      op.fName ≠ "jb".toList ∧ op.fName ≠ "psh".toList ∧ op.fName ≠ "pop".toList := by
  decide


theorem registers_found_count (line : Str) (idx : Nat) :
    (registers_found line).count idx =
      if idx < kAsmRegisterLimit ∧ find_word line (kAsmRegisterPrefix ++ to_string idx) = true
      then 1 else 0 := by
  have hnd : (registers_found line).Nodup := (List.nodup_range _).filter _
  by_cases h : idx < kAsmRegisterLimit ∧
      find_word line (kAsmRegisterPrefix ++ to_string idx) = true
  · rw [if_pos h]
    exact List.count_eq_one_of_mem hnd
      (List.mem_filter.2 ⟨List.mem_range.2 h.1, h.2⟩)
  · rw [if_neg h]
    apply List.count_eq_zero_of_not_mem
    intro hm
    have := List.mem_filter.1 hm
    exact h ⟨List.mem_range.1 this.1, this.2⟩

theorem register_checks_regtoreg (line file name : Str) (k : Nat) (s : State)
    (hpsh : name ≠ "psh".toList) (hpop : name ≠ "pop".toList)
    (herr : s.kAcceptableErrors ≤ 10) :
    register_checks line file name kAsmRegToReg k s =
      .ok () { s with kAcceptableErrors := s.kAcceptableErrors + (if k ≤ 1 then 1 else 0) } := by
  have himm : kAsmRegToReg ≠ kAsmImmediate := by decide
  have c3 : ¬ (k > 0 ∧ name = "pop".toList) := fun h => hpop h.2
  rcases Nat.lt_or_ge k 1 with h0 | h1
  · have c1 : ¬ (kAsmRegToReg ≠ kAsmImmediate ∧ k = 1) := by omega
    have c2 : k < 1 ∧ name ≠ "psh".toList := ⟨h0, hpsh⟩
    have c4 : k ≤ 1 := by omega
    simp only [register_checks, if_neg c1, if_pos c2, if_neg c3, Res.bind,
      print_error_below _ _ _ herr, if_pos c4]
  · rcases Nat.eq_or_lt_of_le h1 with e1 | h2
    · have c1 : kAsmRegToReg ≠ kAsmImmediate ∧ k = 1 := ⟨himm, e1.symm⟩
      have c2 : ¬ (k < 1 ∧ name ≠ "psh".toList) := by omega
      have c4 : k ≤ 1 := by omega
      simp only [register_checks, if_pos c1, if_neg c2, if_neg c3, Res.bind,
        print_error_below _ _ _ herr, if_pos c4]
    · have c1 : ¬ (kAsmRegToReg ≠ kAsmImmediate ∧ k = 1) := by omega
      have c2 : ¬ (k < 1 ∧ name ≠ "psh".toList) := by omega
      have c4 : ¬ (k ≤ 1) := by omega
      simp only [register_checks, if_neg c1, if_neg c2, if_neg c3, Res.bind, if_neg c4,
        Nat.add_zero]

/-- C4 (as the code has it): on a line whose only table mnemonic is one of the
RegisterToRegister class, masm_read_instr appends the header, then one byte idx for every
index idx in 0..34 whose text r<idx> is found in the line (anywhere, also inside a longer
token such as r12 or r35), in ascending order, then the zero byte; each such idx is
appended exactly once and no other register byte is.  With fewer than two bytes found
one error is reported. -/
theorem register_bytes (line file : Str) (op : NCOpcode) (st : State)
    (hop : op ∈ kOpcodesStd) (hclass : op.fFunct7 = kAsmRegToReg)
    (hfound : find_word line op.fName = true)
    (hother : ∀ o ∈ kOpcodesStd, o.fName ≠ op.fName → find_word line o.fName = false)
    (herr : st.kAcceptableErrors ≤ 10) :
    masm_read_instr line file st =
      .ok () { st with
        kBytes := st.kBytes ++ [op.fOpcode, op.fFunct3, op.fFunct7] ++
          registers_found line ++ [0],
        kAcceptableErrors :=
          st.kAcceptableErrors + (if (registers_found line).length ≤ 1 then 1 else 0) } ∧
    ∀ idx, (registers_found line).count idx =
      if idx < 35 ∧ find_word line ("r".toList ++ to_string idx) = true then 1 else 0 := by
  refine ⟨?_, fun idx => registers_found_count line idx⟩
  obtain ⟨hfive, hjb, hpsh, hpop⟩ := regtoreg_names op hop hclass
  have hcl : op.fFunct7 = kAsmRegToReg ∨ op.fFunct7 = kAsmImmediate := Or.inl hclass
  have himm : op.fFunct7 ≠ kAsmImmediate := by rw [hclass]; decide
  rw [masm_read_instr, read_instr_loop_filter,
    filter_only_name _ op.fName _ hfound hother, table_names_unique op hop]
  simp only [read_instr_loop, read_instr_entry, hfound, if_true, if_pos hcl,
    register_scan_eq]
  rw [hclass, register_checks_regtoreg line file op.fName (registers_found line).length
    { st with kBytes := st.kBytes ++ [op.fOpcode, op.fFunct3, kAsmRegToReg] ++
        registers_found line } hpsh hpop herr]
  simp only [Res.bind, read_operand, if_neg hfive, if_neg hjb, List.append_assoc]


/-- The register theorem on the line "mv r1, r2", from the fresh state. -/
theorem register_bytes_witness :
    ((⟨"mv".toList, 0x23, 0x05, 0x01⟩ : NCOpcode) ∈ kOpcodesStd ∧
      (0x01 : Nat) = kAsmRegToReg ∧ find_word "mv r1, r2".toList "mv".toList = true ∧
      (∀ o ∈ kOpcodesStd, o.fName ≠ "mv".toList → find_word "mv r1, r2".toList o.fName = false) ∧
      State.fresh.kAcceptableErrors ≤ 10) ∧
    masm_read_instr "mv r1, r2".toList "a.s".toList State.fresh =
      .ok () { State.fresh with kBytes := [0x23, 0x05, 0x01, 1, 2, 0] } :=
  ⟨⟨by decide, by decide, by decide, by decide, by decide⟩,
   (register_bytes "mv r1, r2".toList "a.s".toList ⟨"mv".toList, 0x23, 0x05, 0x01⟩ State.fresh
     (by decide) (by decide) (by decide) (by decide) (by decide)).1⟩

/-- C4 as stated fails: "mv r12, r3" has two register tokens and gets three register
bytes (1, 3, 12: r1 is found inside r12); in "mv r35, r0" the token r35 brings in the
byte 3; "mv r3, r3" has two register tokens and gets one register byte. -/
theorem register_bytes_differ_from_tokens :
    masm_read_instr "mv r12, r3".toList "a.s".toList State.fresh =
      .ok () { State.fresh with kBytes := [0x23, 0x05, 0x01, 1, 3, 12, 0] } ∧
    masm_read_instr "mv r35, r0".toList "a.s".toList State.fresh =
      .ok () { State.fresh with kBytes := [0x23, 0x05, 0x01, 0, 3, 0] } ∧
    masm_read_instr "mv r3, r3".toList "a.s".toList State.fresh =
      .ok () { State.fresh with kBytes := [0x23, 0x05, 0x01, 3, 0], kAcceptableErrors := 1 } := by
  decide

/-! ## What one turn of the loop of masm_read_instr appends -/

theorem print_error_bytes (reason file : Str) (s s1 : State)
    (h : print_error reason file s = .ok () s1) : s1.kBytes = s.kBytes := by
  simp only [print_error] at h
  split_ifs at h
  cases h
  rfl

theorem register_checks_bytes (line file name : Str) (f k : Nat) (s s1 : State)
    (h : register_checks line file name f k s = .ok () s1) : s1.kBytes = s.kBytes := by
  simp only [register_checks] at h
  have step : ∀ (c : Prop) [Decidable c] (r : Str) (a b : State),
      (if c then print_error r file a else .ok () a) = .ok () b → b.kBytes = a.kBytes := by
    intro c _ r a b hab
    split_ifs at hab
    · exact print_error_bytes _ _ _ _ hab
    · cases hab; rfl
  cases h1 : (if f ≠ kAsmImmediate ∧ k = 1 then
      print_error (("unrecognized register found.\ntip: each NewCPU register starts with " ++
        "\x27r\x27.\nline: ").toList ++ line) file s else .ok () s) with
  | ok u a =>
    rw [h1] at h
    simp only [Res.bind] at h
    cases h2 : (if k < 1 ∧ name ≠ "psh".toList then
        print_error ("invalid combination of opcode and registers.\nline: ".toList ++ line)
          file a else .ok () a) with
    | ok u2 b =>
      rw [h2] at h
      simp only [Res.bind] at h
      rw [step _ _ _ _ h, step _ _ _ _ h2, step _ _ _ _ h1]
    | exit c b => rw [h2] at h; simp [Res.bind] at h
    | undef => rw [h2] at h; simp [Res.bind] at h
    | stuck => rw [h2] at h; simp [Res.bind] at h
  | exit c a => rw [h1] at h; simp [Res.bind] at h
  | undef => rw [h1] at h; simp [Res.bind] at h
  | stuck => rw [h1] at h; simp [Res.bind] at h

theorem write_number_bytes (pos : Nat) (lbl : Str) (s s1 : State) (b : Bool)
    (h : masm_write_number pos lbl s = .ok b s1) : ∃ m, s1.kBytes = s.kBytes ++ m := by
  have hs : ∀ r : Int × Bool, (after_strtoq r s).kBytes = s.kBytes := by
    intro r; simp only [after_strtoq]; split_ifs <;> rfl
  have hs2 : ∀ (r q : Int × Bool),
      (after_strtoq r (after_strtoq q s)).kBytes = s.kBytes := by
    intro r q; simp only [after_strtoq]; split_ifs <;> rfl
  simp only [masm_write_number] at h
  split_ifs at h <;> cases h
  · exact ⟨[], by simp [hs]⟩
  · exact ⟨_, congrArg (· ++ _) (hs2 _ _)⟩
  · exact ⟨[], by simp [hs]⟩
  · exact ⟨_, congrArg (· ++ _) (hs2 _ _)⟩
  · exact ⟨[], by simp [hs]⟩
  · exact ⟨_, congrArg (· ++ _) (hs2 _ _)⟩

theorem comma_loop_bytes (cpy : Str) :
    ∀ (fuel : Nat) (s s1 : State), comma_loop cpy fuel s = .ok () s1 → s1.kBytes = s.kBytes := by
  intro fuel
  induction fuel with
  | zero => intro s s1 h; simp [comma_loop] at h
  | succ fuel ih =>
    intro s s1 h
    simp only [comma_loop] at h
    split_ifs at h
    · cases hp : print_error "internal assembler error".toList "masm".toList s with
      | ok u a =>
        rw [hp] at h
        simp only [Res.bind] at h
        rw [ih _ _ h, print_error_bytes _ _ _ _ hp]
      | exit c a => rw [hp] at h; simp [Res.bind] at h
      | undef => rw [hp] at h; simp [Res.bind] at h
      | stuck => rw [hp] at h; simp [Res.bind] at h
    · cases h; rfl

theorem write_label_bytes (cpy : Str) (s s1 : State)
    (h : masm_write_label cpy s = .ok () s1) : ∃ m, s1.kBytes = s.kBytes ++ m := by
  simp only [masm_write_label] at h
  generalize hc : comma_loop _ _ s = r at h
  cases r with
  | ok u a =>
    simp only [Res.bind] at h
    cases h
    exact ⟨_, congrArg (· ++ _) (comma_loop_bytes _ _ _ _ hc)⟩
  | exit c a => simp [Res.bind] at h
  | undef => simp [Res.bind] at h
  | stuck => simp [Res.bind] at h

theorem operand_tail_bytes (lbl cpy name : Str) (s s1 : State)
    (h : ((masm_write_number 0 lbl s).bind fun written s =>
        if !written then masm_write_label cpy s
        else if name = "jb".toList then masm_write_label cpy s
        else .ok () s) = .ok () s1) :
    ∃ m, s1.kBytes = s.kBytes ++ m := by
  cases hw : masm_write_number 0 lbl s with
  | ok b a =>
    obtain ⟨m1, hm1⟩ := write_number_bytes _ _ _ _ _ hw
    rw [hw] at h
    simp only [Res.bind] at h
    have hl : ∀ t, masm_write_label cpy a = .ok () t → ∃ m, t.kBytes = s.kBytes ++ m := by
      intro t ht
      obtain ⟨m2, hm2⟩ := write_label_bytes _ _ _ ht
      exact ⟨m1 ++ m2, by rw [hm2, hm1, List.append_assoc]⟩
    cases b with
    | false => exact hl _ (by simpa using h)
    | true =>
      simp only [Bool.not_true, Bool.false_eq_true, if_false] at h
      by_cases hj : name = "jb".toList
      · rw [if_pos hj] at h
        exact hl _ h
      · rw [if_neg hj] at h
        cases h
        exact ⟨m1, hm1⟩
  | exit c a => rw [hw] at h; simp [Res.bind] at h
  | undef => rw [hw] at h; simp [Res.bind] at h
  | stuck => rw [hw] at h; simp [Res.bind] at h

theorem read_operand_bytes (line name : Str) (s s1 : State)
    (h : read_operand line name s = .ok () s1) : ∃ m, s1.kBytes = s.kBytes ++ m := by
  unfold read_operand at h
  by_cases h1 : name = "psh".toList ∨ name = "jb".toList ∨ name = "stw".toList ∨
      name = "ldw".toList ∨ name = "lda".toList
  · rw [if_pos h1] at h
    exact operand_tail_bytes _ _ _ _ _ h
  · rw [if_neg h1] at h
    by_cases h2 : name = "jb".toList
    · rw [if_pos h2] at h
      exact write_label_bytes _ _ _ h
    · rw [if_neg h2] at h
      cases h
      exact ⟨[], by simp⟩

theorem read_instr_entry_bytes (line file : Str) (op : NCOpcode) (s s1 : State)
    (hf : find_word line op.fName = true)
    (h : read_instr_entry line file op s = .ok () s1) :
    ∃ mid, s1.kBytes = s.kBytes ++ [op.fOpcode, op.fFunct3, op.fFunct7] ++ mid ++ [0] := by
  simp only [read_instr_entry, hf, if_true] at h
  generalize hr : (if op.fFunct7 = kAsmRegToReg ∨ op.fFunct7 = kAsmImmediate then _ else _) = r
    at h
  cases r with
  | ok u a =>
    have ha : ∃ m, a.kBytes = s.kBytes ++ [op.fOpcode, op.fFunct3, op.fFunct7] ++ m := by
      split_ifs at hr
      · rw [register_scan_eq] at hr
        exact ⟨registers_found line, by rw [register_checks_bytes _ _ _ _ _ _ _ hr]⟩
      · cases hr
        exact ⟨[], by simp⟩
    obtain ⟨m1, hm1⟩ := ha
    simp only [Res.bind] at h
    generalize ho : read_operand line op.fName a = r2 at h
    cases r2 with
    | ok u2 b =>
      obtain ⟨m2, hm2⟩ := read_operand_bytes _ _ _ _ ho
      simp only at h
      cases h
      exact ⟨m1 ++ m2, by simp only [hm2, hm1, List.append_assoc]⟩
    | exit c b => simp at h
    | undef => simp at h
    | stuck => simp at h
  | exit c a => simp [Res.bind] at h
  | undef => simp [Res.bind] at h
  | stuck => simp [Res.bind] at h


/-- C5 (as the code has it): the loop of masm_read_instr does not stop at the first
match.  For every line it runs the turn of every entry of kOpcodesStd whose name occurs
in the line, in table order, and each such turn that returns appends the 3-byte header of
its entry, the operand bytes, and a zero terminator.  So "bge r1, r2" gets the encoding
of bg and then that of bge, and "jrl" the encoding of jrl and then that of jr. -/
theorem read_instr_every_match (line file : Str) (st : State) :
    masm_read_instr line file st =
      read_instr_loop line file (kOpcodesStd.filter fun op => find_word line op.fName) st ∧
    (∀ (op : NCOpcode) (s s1 : State), find_word line op.fName = true →
      read_instr_entry line file op s = .ok () s1 →
      ∃ mid, s1.kBytes = s.kBytes ++ [op.fOpcode, op.fFunct3, op.fFunct7] ++ mid ++ [0]) ∧
    masm_read_instr "bge r1, r2".toList file State.fresh =
      .ok () { State.fresh with kBytes :=
        [0x63, 0x07, 0x01, 1, 2, 0] ++ [0x63, 0x05, 0x01, 1, 2, 0] } ∧
    masm_read_instr "jrl".toList file State.fresh =
      .ok () { State.fresh with kBytes := [0x73, 0x0f, 0x03, 0] ++ [0x73, 0x0b, 0x03, 0] } := by
  refine ⟨read_instr_loop_filter line file kOpcodesStd st,
    fun op s s1 hf h => read_instr_entry_bytes line file op s s1 hf h, ?_, ?_⟩
  · rw [masm_read_instr, read_instr_loop_filter]
    have : (kOpcodesStd.filter fun op => find_word "bge r1, r2".toList op.fName) =
        [⟨"bg".toList, 0x63, 0x07, 0x01⟩, ⟨"bge".toList, 0x63, 0x05, 0x01⟩] := by decide
    rw [this]
    rfl
  · rw [masm_read_instr, read_instr_loop_filter]
    have : (kOpcodesStd.filter fun op => find_word "jrl".toList op.fName) =
        [⟨"jrl".toList, 0x73, 0x0f, 0x03⟩, ⟨"jr".toList, 0x73, 0x0b, 0x03⟩] := by decide
    rw [this]
    rfl

/-- C5 as stated fails: "bge r1, r2" gets two headers and two terminators (bg, then bge),
"jrl" gets two as well (jrl, then jr), and so does a line with two separate mnemonics. -/
theorem read_instr_two_matches :
    masm_read_instr "bge r1, r2".toList "a.s".toList State.fresh =
      .ok () { State.fresh with kBytes :=
        [0x63, 0x07, 0x01, 1, 2, 0, 0x63, 0x05, 0x01, 1, 2, 0] } ∧
    masm_read_instr "jrl".toList "a.s".toList State.fresh =
      .ok () { State.fresh with kBytes := [0x73, 0x0f, 0x03, 0, 0x73, 0x0b, 0x03, 0] } ∧
    masm_read_instr "scall sbreak".toList "a.s".toList State.fresh =
      .ok () { State.fresh with kBytes := [0x73, 0x00, 0x02, 0, 0x73, 0x01, 0x02, 0] } := by
  decide

/-! ## masm_check_export -/

theorem set_last_size_eq (n : Nat) :
    ∀ (recs : List AERecordHeader) (hne : recs ≠ []),
      set_last_size recs n = recs.dropLast ++ [{ recs.getLast hne with fSize := n }] := by
  intro recs
  induction recs with
  | nil => intro h; exact absurd rfl h
  | cons r rs ih =>
    intro hne
    cases rs with
    | nil => rfl
    | cons r2 rs =>
      simp only [set_last_size, List.dropLast_cons₂, List.cons_append, List.getLast_cons_cons]
      rw [ih (by simp)]

theorem push_record_ok (kind : Nat) (stored : Str) (st : State)
    (hfit : stored.length ≤ kAESymbolLen) (hne : st.kRecords ≠ []) :
    ∃ r : AERecordHeader,
      push_record kind stored st =
        .ok () { st with
          kCurrentRecord := r, kCounter := st.kCounter + 1,
          kRecords := st.kRecords.dropLast ++
            [{ st.kRecords.getLast hne with fSize := st.kBytes.length }] ++ [r] } := by
  have he : st.kRecords.isEmpty = false := by
    cases h : st.kRecords with
    | nil => exact absurd h hne
    | cons a l => rfl
  refine ⟨{ st.kCurrentRecord with
    fKind := kind,
    fName := stored ++ List.replicate (kAESymbolLen - stored.length) (Char.ofNat 0),
    fPad := List.replicate kAEPad kAEInvalidOpcode }, ?_⟩
  simp only [push_record, copy_name, if_pos hfit, he, Bool.false_eq_true, if_false,
    set_last_size_eq _ _ hne, List.append_assoc]

/-- C6: in a state whose record list is not empty, masm_check_export on a line with
__import or __export (whose record name fits the 64-byte name field) returns normally,
sets the size of the previously last record to the current total length of the code
buffer, appends exactly one new record after it, and leaves the code buffer unchanged. -/
theorem check_export_backfill (line : Str) (st : State)
    (hdir : find_word line "__import".toList = true ∨ find_word line "__export".toList = true)
    (hne : st.kRecords ≠ [])
    (hfit : (if find_word line "__import".toList = true then import_record_name line
      else export_record_name line).length ≤ kAESymbolLen) :
    ∃ r : AERecordHeader,
      masm_check_export line st =
        .ok () { st with
          kCurrentRecord := r, kCounter := st.kCounter + 1,
          kRecords := st.kRecords.dropLast ++
            [{ st.kRecords.getLast hne with fSize := st.kBytes.length }] ++ [r] } := by
  by_cases hi : find_word line "__import".toList = true
  · rw [if_pos hi] at hfit
    simp only [masm_check_export, hi, if_true]
    exact push_record_ok _ _ st hfit hne
  · have he : find_word line "__export".toList = true := by
      rcases hdir with h | h
      · exact absurd h hi
      · exact h
    rw [if_neg hi] at hfit
    simp only [masm_check_export, hi, he, if_true, Bool.false_eq_true, if_false]
    exact push_record_ok _ _ st hfit hne


/-- The back-fill theorem on a state with three bytes of code and one open record. -/
theorem check_export_backfill_witness :
    ((find_word "__export .data".toList "__import".toList = true ∨
        find_word "__export .data".toList "__export".toList = true) ∧
      { State.fresh with kBytes := [1, 2, 3], kRecords := [kCurrentRecord_init] }.kRecords ≠ [] ∧
      (if find_word "__export .data".toList "__import".toList = true
        then import_record_name "__export .data".toList
        else export_record_name "__export .data".toList).length ≤ kAESymbolLen) ∧
    ∃ r : AERecordHeader,
      masm_check_export "__export .data".toList
          { State.fresh with kBytes := [1, 2, 3], kRecords := [kCurrentRecord_init] } =
        .ok () { State.fresh with
          kBytes := [1, 2, 3], kCurrentRecord := r, kCounter := 2,
          kRecords := [{ kCurrentRecord_init with fSize := 3 }, r] } :=
  ⟨⟨by decide, by decide, by decide⟩,
   check_export_backfill "__export .data".toList
     { State.fresh with kBytes := [1, 2, 3], kRecords := [kCurrentRecord_init] }
     (by decide) (by decide) (by decide)⟩

/-! ## The driver -/

/-- C7: from the fresh state, the source made of the line "__export .text __start" and
the line "scall" assembles to an object whose header has the magic bytes A, E, record
count 1 and code size 4, whose code is the header of scall and a zero byte, and whose
record table is the single record of kind Code (0xC) and size 4. -/
theorem minimal_program (sizeofHeader sizeofRecord : Nat) (file : Str) :
    ∃ s : State,
      assemble sizeofHeader sizeofRecord file
          ["__export .text __start".toList, "scall".toList] State.fresh =
        .ok (some
          { header :=
              { fMagic := ['A', 'E'], fArch := kPefArchRISCV, fCount := 1,
                fSize := sizeofHeader % 256, fStartCode := sizeofHeader + 1 * sizeofRecord,
                fCodeSize := 4, fPad := List.replicate 8 0 },
            table :=
              [{ fName := "$.text$__start".toList ++ List.replicate 50 (Char.ofNat 0),
                 fKind := kPefCode, fSize := 4, fFlags := 0x34f, fOffset := 0,
                 fPad := List.replicate 8 0 }],
            code := [0x73, 0x00, 0x02, 0] }) s :=
  ⟨_, rfl⟩

/-! ## masm_check_line -/

theorem opcode_check_unknown (line : Str) :
    ∀ ops : List NCOpcode, (∀ op ∈ ops, str_find line op.fName = none) →
      opcode_check line ops = "Unknown syntax, ".toList ++ line := by
  intro ops
  induction ops with
  | nil => intro _; rfl
  | cons op ops ih =>
    intro h
    have h1 : str_find line op.fName = none := h op (by simp)
    simp only [opcode_check, h1, Option.isSome_none, Bool.false_eq_true, if_false]
    exact ih fun o ho => h o (by simp [ho])

theorem is_valid_of_chars (line : Str) (h : ∀ c ∈ line, is_not_alnum_space c = false) :
    is_valid line = true := by
  have : line.find? is_not_alnum_space = none := by
    rw [List.find?_eq_none]
    intro c hc
    simp [h c hc]
  simp only [is_valid, this]
  split_ifs <;> rfl

/-- C8: let line be the input line once masm_check_line has removed its tabs.  If line is
not empty, is not a passthrough line, uses only allowed characters, passes the comma check
and contains no name of kOpcodesStd, then masm_check_line returns the diagnostic
"Unknown syntax, " followed by line (which is not empty), and the step of the driver for
that line, while the error counter is at most the limit, adds exactly one to the error
counter and changes nothing else: code buffer, record list and scope stack are as before. -/
theorem unknown_mnemonic_rejected (line0 file : Str) (st : State)
    (hpass : is_passthrough (erase_all '\t' line0) = false)
    (hchars : ∀ c ∈ erase_all '\t' line0, is_not_alnum_space c = false)
    (hcomma : comma_check (erase_all '\t' line0) = none)
    (hops : ∀ op ∈ kOpcodesStd, str_find (erase_all '\t' line0) op.fName = none)
    (herr : st.kAcceptableErrors ≤ kErrorLimit) :
    masm_check_line line0 =
      ("Unknown syntax, ".toList ++ erase_all '\t' line0, erase_all '\t' line0) ∧
    (masm_check_line line0).1 ≠ [] ∧
    compile_line line0 file st =
      .ok () { st with kAcceptableErrors := st.kAcceptableErrors + 1 } := by
  have hcheck : masm_check_line line0 =
      ("Unknown syntax, ".toList ++ erase_all '\t' line0, erase_all '\t' line0) := by
    simp only [masm_check_line, hpass, Bool.false_eq_true, if_false,
      is_valid_of_chars _ hchars, Bool.not_true, hcomma, opcode_check_unknown _ _ hops]
  have hne : ("Unknown syntax, ".toList ++ erase_all '\t' line0).isEmpty = false := rfl
  refine ⟨hcheck, ?_, ?_⟩
  · rw [hcheck]
    intro h
    have h2 : "Unknown syntax, ".toList ++ erase_all '\t' line0 = [] := h
    rw [h2] at hne
    exact absurd hne (by decide)
  · simp only [compile_line, hcheck, hne, Bool.not_false, if_true]
    exact print_error_below _ _ _ herr

/-- The rejection theorem on the line "zz", from the fresh state. -/
theorem unknown_mnemonic_rejected_witness :
    (is_passthrough (erase_all '\t' "zz".toList) = false ∧
      (∀ c ∈ erase_all '\t' "zz".toList, is_not_alnum_space c = false) ∧
      comma_check (erase_all '\t' "zz".toList) = none ∧
      (∀ op ∈ kOpcodesStd, str_find (erase_all '\t' "zz".toList) op.fName = none) ∧
      State.fresh.kAcceptableErrors ≤ kErrorLimit) ∧
    masm_check_line "zz".toList = ("Unknown syntax, zz".toList, "zz".toList) ∧
    compile_line "zz".toList "a.s".toList State.fresh =
      .ok () { State.fresh with kAcceptableErrors := 1 } :=
  ⟨⟨by decide, by decide, by decide, by decide, by decide⟩,
   (unknown_mnemonic_rejected "zz".toList "a.s".toList State.fresh
      (by decide) (by decide) (by decide) (by decide) (by decide)).1,
   (unknown_mnemonic_rejected "zz".toList "a.s".toList State.fresh
      (by decide) (by decide) (by decide) (by decide) (by decide)).2.2⟩

/-- C9 at the line "jb 0x10": the operand is accepted by the number parser and its 8
bytes are appended, and the relocation token 4:mld_reloc:0x10 is appended all the same,
before the zero byte.  The line "psh 0x10" gets the 8 bytes and the zero byte only. -/
theorem jb_literal_also_emits_token :
    masm_write_number 0 "0x10".toList State.fresh =
      .ok true { State.fresh with kBytes := [16, 0, 0, 0, 0, 0, 0, 0] } ∧
    masm_read_instr "jb 0x10".toList "a.s".toList State.fresh =
      .ok () { State.fresh with kBytes :=
        [0x73, 0x03, 0x03] ++ [16, 0, 0, 0, 0, 0, 0, 0] ++
          "4:mld_reloc:0x10".toList.map byteOf ++ [0] } ∧
    masm_read_instr "psh 0x10".toList "a.s".toList State.fresh =
      .ok () { State.fresh with kBytes :=
        [0x2b, 0x00, 0x00] ++ [16, 0, 0, 0, 0, 0, 0, 0] ++ [0] } := by
  decide

/-- C10: on a line that holds "__import", with rest the text after the first occurrence
of the keyword, masm_check_export (when the mangled name fits the 64 bytes of the name
field) pushes one record whose name is the decimal length of rest, then ":ld:", then rest
with every space and every comma replaced by a dollar sign, padded with zero bytes to 64
bytes.  The length is that of rest as extracted, leading space included. -/
theorem import_mangling (pre rest : Str) (st : State)
    (hfirst : str_find (pre ++ "__import".toList ++ rest) "__import".toList = some pre.length)
    (hfit : (to_string rest.length ++ ":ld:".toList ++
      rest.map fun j => if j = ' ' ∨ j = ',' then '$' else j).length ≤ 64) :
    ∃ r : AERecordHeader,
      masm_check_export (pre ++ "__import".toList ++ rest) st =
        .ok () { st with
          kCurrentRecord := r, kCounter := st.kCounter + 1,
          kRecords := (if st.kRecords.isEmpty then st.kRecords
            else set_last_size st.kRecords st.kBytes.length) ++ [r] } ∧
      r.fName =
        (to_string rest.length ++ ":ld:".toList ++
          rest.map fun j => if j = ' ' ∨ j = ',' then '$' else j) ++
        List.replicate
          (64 - (to_string rest.length ++ ":ld:".toList ++
            rest.map fun j => if j = ' ' ∨ j = ',' then '$' else j).length) (Char.ofNat 0) := by
  have hw : find_word (pre ++ "__import".toList ++ rest) "__import".toList = true := by
    rw [find_word, hfirst]; rfl
  have hsub : substr (pre ++ "__import".toList ++ rest) (pos_plus (some pre.length) 8) =
      rest := by
    simp [substr, pos_plus, List.drop_append]
  have hname : import_record_name (pre ++ "__import".toList ++ rest) =
      to_string rest.length ++ ":ld:".toList ++
        rest.map fun j => if j = ' ' ∨ j = ',' then '$' else j := by
    simp only [import_record_name, hfirst, hsub]
  have hfit2 : (import_record_name (pre ++ "__import".toList ++ rest)).length ≤
      kAESymbolLen := by
    rw [hname]; exact hfit
  refine ⟨{ st.kCurrentRecord with
    fKind := section_kind (import_mangled_name (pre ++ "__import".toList ++ rest))
      st.kCurrentRecord.fKind,
    fName := import_record_name (pre ++ "__import".toList ++ rest) ++
      List.replicate (kAESymbolLen - (import_record_name
        (pre ++ "__import".toList ++ rest)).length) (Char.ofNat 0),
    fPad := List.replicate kAEPad kAEInvalidOpcode }, ?_, ?_⟩
  · simp only [masm_check_export, hw, if_true, push_record, copy_name, if_pos hfit2]
  · simp only [hname, kAESymbolLen]

/-- The mangling theorem on the line "__import foo", from the fresh state. -/
theorem import_mangling_witness :
    (str_find ([] ++ "__import".toList ++ " foo".toList) "__import".toList =
        some ([] : Str).length ∧
      (to_string " foo".toList.length ++ ":ld:".toList ++
        " foo".toList.map fun j => if j = ' ' ∨ j = ',' then '$' else j).length ≤ 64) ∧
    ∃ r : AERecordHeader,
      masm_check_export "__import foo".toList State.fresh =
        .ok () { State.fresh with kCurrentRecord := r, kCounter := 2, kRecords := [r] } ∧
      r.fName = "4:ld:$foo".toList ++ List.replicate 55 (Char.ofNat 0) :=
  ⟨⟨by decide, by decide⟩,
   import_mangling [] " foo".toList State.fresh (by decide) (by decide)⟩

/-! ## The names and kinds of the records -/

theorem cut_at_comma (s : Str) :
    (match str_find s [','] with
      | some i => str_erase_from s i
      | none => s) = s.takeWhile fun c => c != ',' := by
  cases h : str_find s [','] with
  | none =>
    have hc : ',' ∉ s := by
      intro hm
      have := (str_find_char_isSome ',' s).2 hm
      simp [h] at this
    symm
    rw [List.takeWhile_eq_self_iff]
    intro c hcs
    have : c ≠ ',' := fun e => hc (e ▸ hcs)
    simpa using this
  | some i =>
    obtain ⟨pre, post, rfl, hpre, rfl⟩ := str_find_char_some ',' s i h
    have h1 : (pre ++ ',' :: post).takeWhile (fun c => c != ',') = pre := by
      rw [List.takeWhile_append_of_pos]
      · simp
      · intro c hcs
        have : c ≠ ',' := fun e => hpre (e ▸ hcs)
        simpa using this
    simp [str_erase_from, h1]

/-- C11: on a line that holds "__export" and not "__import", with rest the text after the
first occurrence of the keyword, masm_check_export (when the name fits the 64 bytes of the
name field) pushes one record whose name is rest with every space replaced by a dollar
sign, cut at the first comma (the comma and what follows it removed), padded with zero
bytes to 64 bytes. -/
theorem export_naming (pre rest : Str) (st : State)
    (hnoimp : find_word (pre ++ "__export".toList ++ rest) "__import".toList = false)
    (hfirst : str_find (pre ++ "__export".toList ++ rest) "__export".toList = some pre.length)
    (hfit : ((rest.map fun j => if j = ' ' then '$' else j).takeWhile
      fun c => c != ',').length ≤ 64) :
    ∃ r : AERecordHeader,
      masm_check_export (pre ++ "__export".toList ++ rest) st =
        .ok () { st with
          kCurrentRecord := r, kCounter := st.kCounter + 1,
          kRecords := (if st.kRecords.isEmpty then st.kRecords
            else set_last_size st.kRecords st.kBytes.length) ++ [r] } ∧
      r.fName =
        ((rest.map fun j => if j = ' ' then '$' else j).takeWhile fun c => c != ',') ++
        List.replicate
          (64 - ((rest.map fun j => if j = ' ' then '$' else j).takeWhile
            fun c => c != ',').length) (Char.ofNat 0) := by
  have hw : find_word (pre ++ "__export".toList ++ rest) "__export".toList = true := by
    rw [find_word, hfirst]; rfl
  have hsub : substr (pre ++ "__export".toList ++ rest) (pos_plus (some pre.length) 8) =
      rest := by
    simp [substr, pos_plus, List.drop_append]
  have hname : export_record_name (pre ++ "__export".toList ++ rest) =
      (rest.map fun j => if j = ' ' then '$' else j).takeWhile fun c => c != ',' := by
    simp only [export_record_name, hfirst, hsub]
    exact cut_at_comma _
  have hfit2 : (export_record_name (pre ++ "__export".toList ++ rest)).length ≤
      kAESymbolLen := by
    rw [hname]; exact hfit
  refine ⟨{ st.kCurrentRecord with
    fKind := section_kind (export_record_name (pre ++ "__export".toList ++ rest))
      st.kCurrentRecord.fKind,
    fName := export_record_name (pre ++ "__export".toList ++ rest) ++
      List.replicate (kAESymbolLen - (export_record_name
        (pre ++ "__export".toList ++ rest)).length) (Char.ofNat 0),
    fPad := List.replicate kAEPad kAEInvalidOpcode }, ?_, ?_⟩
  · simp only [masm_check_export, hnoimp, hw, if_true, Bool.false_eq_true, if_false, push_record,
      copy_name, if_pos hfit2]
  · simp only [hname, kAESymbolLen]

/-- The naming theorem on the line "__export .text", from the fresh state. -/
theorem export_naming_witness :
    (find_word ([] ++ "__export".toList ++ " .text".toList) "__import".toList = false ∧
      str_find ([] ++ "__export".toList ++ " .text".toList) "__export".toList =
        some ([] : Str).length ∧
      ((" .text".toList.map fun j => if j = ' ' then '$' else j).takeWhile
        fun c => c != ',').length ≤ 64) ∧
    ∃ r : AERecordHeader,
      masm_check_export "__export .text".toList State.fresh =
        .ok () { State.fresh with kCurrentRecord := r, kCounter := 2, kRecords := [r] } ∧
      r.fName = "$.text".toList ++ List.replicate 58 (Char.ofNat 0) :=
  ⟨⟨by decide, by decide, by decide⟩,
   export_naming [] " .text".toList State.fresh (by decide) (by decide) (by decide)⟩

/-! ## What the instruction encoder leaves alone -/

theorem print_error_frame (reason file : Str) (s s1 : State)
    (h : print_error reason file s = .ok () s1) : record_part s1 = record_part s := by
  simp only [print_error] at h
  split_ifs at h
  cases h
  rfl

theorem register_checks_frame (line file name : Str) (f k : Nat) (s s1 : State)
    (h : register_checks line file name f k s = .ok () s1) :
    record_part s1 = record_part s := by
  simp only [register_checks] at h
  have step : ∀ (c : Prop) [Decidable c] (r : Str) (a b : State),
      (if c then print_error r file a else .ok () a) = .ok () b →
        record_part b = record_part a := by
    intro c _ r a b hab
    split_ifs at hab
    · exact print_error_frame _ _ _ _ hab
    · cases hab; rfl
  cases h1 : (if f ≠ kAsmImmediate ∧ k = 1 then
      print_error (("unrecognized register found.\ntip: each NewCPU register starts with " ++
        "\x27r\x27.\nline: ").toList ++ line) file s else .ok () s) with
  | ok u a =>
    rw [h1] at h
    simp only [Res.bind] at h
    cases h2 : (if k < 1 ∧ name ≠ "psh".toList then
        print_error ("invalid combination of opcode and registers.\nline: ".toList ++ line)
          file a else .ok () a) with
    | ok u2 b =>
      rw [h2] at h
      simp only [Res.bind] at h
      rw [step _ _ _ _ h, step _ _ _ _ h2, step _ _ _ _ h1]
    | exit c b => rw [h2] at h; simp [Res.bind] at h
    | undef => rw [h2] at h; simp [Res.bind] at h
    | stuck => rw [h2] at h; simp [Res.bind] at h
  | exit c a => rw [h1] at h; simp [Res.bind] at h
  | undef => rw [h1] at h; simp [Res.bind] at h
  | stuck => rw [h1] at h; simp [Res.bind] at h

theorem write_number_frame (pos : Nat) (lbl : Str) (s s1 : State) (b : Bool)
    (h : masm_write_number pos lbl s = .ok b s1) : record_part s1 = record_part s := by
  have hs : ∀ r : Int × Bool, record_part (after_strtoq r s) = record_part s := by
    intro r; simp only [after_strtoq]; split_ifs <;> rfl
  have hs2 : ∀ (r q : Int × Bool),
      record_part (after_strtoq r (after_strtoq q s)) = record_part s := by
    intro r q; simp only [after_strtoq]; split_ifs <;> rfl
  simp only [masm_write_number] at h
  split_ifs at h <;> cases h
  · exact hs _
  · exact hs2 _ _
  · exact hs _
  · exact hs2 _ _
  · exact hs _
  · exact hs2 _ _

theorem comma_loop_frame (cpy : Str) :
    ∀ (fuel : Nat) (s s1 : State), comma_loop cpy fuel s = .ok () s1 →
      record_part s1 = record_part s := by
  intro fuel
  induction fuel with
  | zero => intro s s1 h; simp [comma_loop] at h
  | succ fuel ih =>
    intro s s1 h
    simp only [comma_loop] at h
    split_ifs at h
    · cases hp : print_error "internal assembler error".toList "masm".toList s with
      | ok u a =>
        rw [hp] at h
        simp only [Res.bind] at h
        rw [ih _ _ h, print_error_frame _ _ _ _ hp]
      | exit c a => rw [hp] at h; simp [Res.bind] at h
      | undef => rw [hp] at h; simp [Res.bind] at h
      | stuck => rw [hp] at h; simp [Res.bind] at h
    · cases h; rfl

theorem write_label_frame (cpy : Str) (s s1 : State)
    (h : masm_write_label cpy s = .ok () s1) : record_part s1 = record_part s := by
  simp only [masm_write_label] at h
  generalize hc : comma_loop _ _ s = r at h
  cases r with
  | ok u a =>
    simp only [Res.bind] at h
    cases h
    exact (rfl : record_part _ = record_part a).trans (comma_loop_frame _ _ _ _ hc)
  | exit c a => simp [Res.bind] at h
  | undef => simp [Res.bind] at h
  | stuck => simp [Res.bind] at h

theorem operand_tail_frame (lbl cpy name : Str) (s s1 : State)
    (h : ((masm_write_number 0 lbl s).bind fun written s =>
        if !written then masm_write_label cpy s
        else if name = "jb".toList then masm_write_label cpy s
        else .ok () s) = .ok () s1) :
    record_part s1 = record_part s := by
  cases hw : masm_write_number 0 lbl s with
  | ok b a =>
    have hm1 := write_number_frame _ _ _ _ _ hw
    rw [hw] at h
    simp only [Res.bind] at h
    have hl : ∀ t, masm_write_label cpy a = .ok () t → record_part t = record_part s := by
      intro t ht
      rw [write_label_frame _ _ _ ht, hm1]
    cases b with
    | false => exact hl _ (by simpa using h)
    | true =>
      simp only [Bool.not_true, Bool.false_eq_true, if_false] at h
      by_cases hj : name = "jb".toList
      · rw [if_pos hj] at h
        exact hl _ h
      · rw [if_neg hj] at h
        cases h
        exact hm1
  | exit c a => rw [hw] at h; simp [Res.bind] at h
  | undef => rw [hw] at h; simp [Res.bind] at h
  | stuck => rw [hw] at h; simp [Res.bind] at h

theorem read_operand_frame (line name : Str) (s s1 : State)
    (h : read_operand line name s = .ok () s1) : record_part s1 = record_part s := by
  unfold read_operand at h
  by_cases h1 : name = "psh".toList ∨ name = "jb".toList ∨ name = "stw".toList ∨
      name = "ldw".toList ∨ name = "lda".toList
  · rw [if_pos h1] at h
    exact operand_tail_frame _ _ _ _ _ h
  · rw [if_neg h1] at h
    by_cases h2 : name = "jb".toList
    · rw [if_pos h2] at h
      exact write_label_frame _ _ _ h
    · rw [if_neg h2] at h
      cases h
      rfl

theorem read_instr_entry_frame (line file : Str) (op : NCOpcode) (s s1 : State)
    (h : read_instr_entry line file op s = .ok () s1) :
    record_part s1 = record_part s := by
  by_cases hf : find_word line op.fName = true
  · simp only [read_instr_entry, hf, if_true] at h
    generalize hr : (if op.fFunct7 = kAsmRegToReg ∨ op.fFunct7 = kAsmImmediate then _ else _) = r
      at h
    cases r with
    | ok u a =>
      have ha : record_part a = record_part s := by
        split_ifs at hr
        · rw [register_scan_eq] at hr
          rw [register_checks_frame _ _ _ _ _ _ _ hr]
          rfl
        · cases hr
          rfl
      simp only [Res.bind] at h
      generalize ho : read_operand line op.fName a = r2 at h
      cases r2 with
      | ok u2 b =>
        have hb := read_operand_frame _ _ _ _ ho
        simp only at h
        cases h
        exact hb.trans ha
      | exit c b => simp at h
      | undef => simp at h
      | stuck => simp at h
    | exit c a => simp [Res.bind] at h
    | undef => simp [Res.bind] at h
    | stuck => simp [Res.bind] at h
  · rw [read_instr_entry_skip line file op s (by simpa using hf)] at h
    cases h
    rfl

theorem read_instr_loop_frame (line file : Str) :
    ∀ (ops : List NCOpcode) (s s1 : State), read_instr_loop line file ops s = .ok () s1 →
      record_part s1 = record_part s := by
  intro ops
  induction ops with
  | nil => intro s s1 h; cases h; rfl
  | cons op ops ih =>
    intro s s1 h
    simp only [read_instr_loop] at h
    cases he : read_instr_entry line file op s with
    | ok u a =>
      rw [he] at h
      simp only [Res.bind] at h
      rw [ih _ _ h, read_instr_entry_frame _ _ _ _ _ he]
    | exit c a => rw [he] at h; simp [Res.bind] at h
    | undef => rw [he] at h; simp [Res.bind] at h
    | stuck => rw [he] at h; simp [Res.bind] at h

theorem masm_read_instr_frame (line file : Str) (s s1 : State)
    (h : masm_read_instr line file s = .ok () s1) : record_part s1 = record_part s :=
  read_instr_loop_frame line file kOpcodesStd s s1 h

/-! ## The invariant of the records -/

theorem set_last_size_mem (n : Nat) :
    ∀ (recs : List AERecordHeader) (r : AERecordHeader), r ∈ set_last_size recs n →
      ∃ r0 ∈ recs, r.fName = r0.fName ∧ r.fKind = r0.fKind ∧ r.fFlags = r0.fFlags ∧
        r.fOffset = r0.fOffset ∧ r.fPad = r0.fPad := by
  intro recs
  induction recs with
  | nil => intro r h; simp [set_last_size] at h
  | cons a l ih =>
    intro r h
    cases l with
    | nil =>
      simp only [set_last_size, List.mem_singleton] at h
      subst h
      exact ⟨a, by simp, rfl, rfl, rfl, rfl, rfl⟩
    | cons b l =>
      simp only [set_last_size, List.mem_cons] at h
      rcases h with h | h
      · subst h
        exact ⟨r, by simp, rfl, rfl, rfl, rfl, rfl⟩
      · obtain ⟨r0, hr0, h5⟩ := ih r (by simpa [List.mem_cons] using h)
        exact ⟨r0, List.mem_cons_of_mem _ hr0, h5⟩

theorem section_kind_cases (name : Str) (cur : Nat)
    (hcur : cur = kPefCode ∨ cur = kPefData ∨ cur = kPefZero) :
    section_kind name cur = kPefCode ∨ section_kind name cur = kPefData ∨
      section_kind name cur = kPefZero := by
  simp only [section_kind]
  split_ifs <;> simp [hcur]

theorem current_kind_cases (s : State) (h : RecordsInv s) :
    s.kCurrentRecord.fKind = kPefCode ∨ s.kCurrentRecord.fKind = kPefData ∨
      s.kCurrentRecord.fKind = kPefZero := by
  obtain ⟨hall, hcur, -, -⟩ := h
  rw [hcur]
  cases hl : s.kRecords.getLast? with
  | none => exact Or.inl rfl
  | some r => exact (hall r (List.mem_of_getLast?_eq_some hl)).2.2.2

/-- What masm_check_export does when the record name fits the name field. -/
theorem check_export_eq (line : Str) (s : State)
    (hdir : find_word line "__import".toList = true ∨ find_word line "__export".toList = true)
    (hfit : (directive_record_name line).length ≤ kAESymbolLen) :
    masm_check_export line s =
      .ok () { s with
        kCurrentRecord :=
          { s.kCurrentRecord with
            fKind := section_kind (directive_name line) s.kCurrentRecord.fKind,
            fName := directive_record_name line ++
              List.replicate (kAESymbolLen - (directive_record_name line).length) (Char.ofNat 0),
            fPad := List.replicate kAEPad kAEInvalidOpcode },
        kCounter := s.kCounter + 1,
        kRecords := (if s.kRecords.isEmpty then s.kRecords
            else set_last_size s.kRecords s.kBytes.length) ++
          [{ s.kCurrentRecord with
            fKind := section_kind (directive_name line) s.kCurrentRecord.fKind,
            fName := directive_record_name line ++
              List.replicate (kAESymbolLen - (directive_record_name line).length) (Char.ofNat 0),
            fPad := List.replicate kAEPad kAEInvalidOpcode }] } := by
  by_cases hi : find_word line "__import".toList = true
  · simp only [directive_record_name, hi, if_true] at hfit
    simp only [masm_check_export, directive_name, directive_record_name, hi, if_true,
      push_record, copy_name, if_pos hfit]
  · have he : find_word line "__export".toList = true := by
      rcases hdir with h | h
      · exact absurd h hi
      · exact h
    simp only [directive_record_name, hi, Bool.false_eq_true, if_false] at hfit
    simp only [masm_check_export, directive_name, directive_record_name, hi, he, if_true,
      Bool.false_eq_true, if_false, push_record, copy_name, if_pos hfit]

theorem check_export_ok_fit (line : Str) (s s1 : State)
    (hdir : find_word line "__import".toList = true ∨ find_word line "__export".toList = true)
    (h : masm_check_export line s = .ok () s1) :
    (directive_record_name line).length ≤ kAESymbolLen := by
  by_contra hn
  by_cases hi : find_word line "__import".toList = true
  · simp only [directive_record_name, hi, if_true] at hn
    simp only [masm_check_export, hi, if_true, push_record, copy_name, if_neg hn] at h
    cases h
  · have he : find_word line "__export".toList = true := by
      rcases hdir with h | h
      · exact absurd h hi
      · exact h
    simp only [directive_record_name, hi, Bool.false_eq_true, if_false] at hn
    simp only [masm_check_export, hi, he, if_true, Bool.false_eq_true, if_false, push_record,
      copy_name, if_neg hn] at h
    cases h

theorem RecordsInv_push (line : Str) (s : State) (hinv : RecordsInv s)
    (hfit : (directive_record_name line).length ≤ kAESymbolLen) :
    RecordsInv { s with
        kCurrentRecord :=
          { s.kCurrentRecord with
            fKind := section_kind (directive_name line) s.kCurrentRecord.fKind,
            fName := directive_record_name line ++
              List.replicate (kAESymbolLen - (directive_record_name line).length) (Char.ofNat 0),
            fPad := List.replicate kAEPad kAEInvalidOpcode },
        kCounter := s.kCounter + 1,
        kRecords := (if s.kRecords.isEmpty then s.kRecords
            else set_last_size s.kRecords s.kBytes.length) ++
          [{ s.kCurrentRecord with
            fKind := section_kind (directive_name line) s.kCurrentRecord.fKind,
            fName := directive_record_name line ++
              List.replicate (kAESymbolLen - (directive_record_name line).length) (Char.ofNat 0),
            fPad := List.replicate kAEPad kAEInvalidOpcode }] } := by
  have hk := section_kind_cases (directive_name line) _ (current_kind_cases s hinv)
  obtain ⟨hall, hcur, hfl, hun⟩ := hinv
  refine ⟨?_, ?_, hfl, hun⟩
  · intro r hr
    simp only [List.mem_append, List.mem_singleton] at hr
    rcases hr with hr | hr
    · have hold : ∃ r0 ∈ s.kRecords, r.fName = r0.fName ∧ r.fKind = r0.fKind ∧
          r.fFlags = r0.fFlags ∧ r.fOffset = r0.fOffset ∧ r.fPad = r0.fPad := by
        split_ifs at hr
        · exact ⟨r, hr, rfl, rfl, rfl, rfl, rfl⟩
        · exact set_last_size_mem _ _ _ hr
      obtain ⟨r0, hr0, h1, h2, h3, -, h5⟩ := hold
      have := hall r0 hr0
      rw [h1, h2, h3, h5]
      exact this
    · subst hr
      refine ⟨?_, ?_, hfl, hk⟩
      · simp only [List.length_append, List.length_replicate]
        omega
      · simp [kAEPad]
  · simp

theorem RecordsInv_of_part (s s1 : State) (h : record_part s1 = record_part s)
    (hinv : RecordsInv s) : RecordsInv s1 := by
  simp only [record_part, Prod.mk.injEq] at h
  obtain ⟨-, -, -, h4, h5, h6⟩ := h
  simpa only [RecordsInv, h4, h5, h6] using hinv

theorem RecordsInv_check_export (line : Str) (s s1 : State) (hinv : RecordsInv s)
    (h : masm_check_export line s = .ok () s1) : RecordsInv s1 := by
  by_cases hdir : find_word line "__import".toList = true ∨
      find_word line "__export".toList = true
  · have hfit := check_export_ok_fit line s s1 hdir h
    rw [check_export_eq line s hdir hfit] at h
    cases h
    exact RecordsInv_push line s hinv hfit
  · have h1 : find_word line "__import".toList = false := by
      simpa using fun e => hdir (Or.inl e)
    have h2 : find_word line "__export".toList = false := by
      simpa using fun e => hdir (Or.inr e)
    simp only [masm_check_export, h1, h2, Bool.false_eq_true, if_false] at h
    cases h
    exact hinv

theorem RecordsInv_read_labels (line : Str) (s s1 : State) (hinv : RecordsInv s)
    (h : masm_read_labels line s = .ok () s1) : RecordsInv s1 := by
  simp only [masm_read_labels] at h
  split_ifs at h
  · cases h; exact hinv
  · cases hl : s.kLabelLevel with
    | nil => rw [hl] at h; simp at h
    | cons a l => rw [hl] at h; simp only at h; cases h; exact hinv
  · cases h; exact hinv

theorem RecordsInv_compile_line (line file : Str) (s s1 : State) (hinv : RecordsInv s)
    (h : compile_line line file s = .ok () s1) : RecordsInv s1 := by
  simp only [compile_line] at h
  split_ifs at h
  · exact RecordsInv_of_part _ _ (print_error_frame _ _ _ _ h) hinv
  · cases h; exact hinv
  · cases h1 : masm_check_export (masm_check_line line).2 s with
    | ok u a =>
      rw [h1] at h
      simp only [Res.bind] at h
      have ia := RecordsInv_check_export _ _ _ hinv h1
      cases h2 : masm_read_labels (masm_check_line line).2 a with
      | ok u2 b =>
        rw [h2] at h
        simp only at h
        exact RecordsInv_of_part _ _ (masm_read_instr_frame _ _ _ _ h)
          (RecordsInv_read_labels _ _ _ ia h2)
      | exit c b => rw [h2] at h; simp at h
      | undef => rw [h2] at h; simp at h
      | stuck => rw [h2] at h; simp at h
    | exit c a => rw [h1] at h; simp [Res.bind] at h
    | undef => rw [h1] at h; simp [Res.bind] at h
    | stuck => rw [h1] at h; simp [Res.bind] at h

theorem RecordsInv_compile_lines (file : Str) :
    ∀ (lines : List Str) (s s1 : State), RecordsInv s →
      compile_lines file lines s = .ok () s1 → RecordsInv s1 := by
  intro lines
  induction lines with
  | nil => intro s s1 hinv h; cases h; exact hinv
  | cons l ls ih =>
    intro s s1 hinv h
    simp only [compile_lines] at h
    cases h1 : compile_line l file s with
    | ok u a =>
      rw [h1] at h
      simp only [Res.bind] at h
      exact ih a s1 (RecordsInv_compile_line _ _ _ _ hinv h1) h
    | exit c a => rw [h1] at h; simp [Res.bind] at h
    | undef => rw [h1] at h; simp [Res.bind] at h
    | stuck => rw [h1] at h; simp [Res.bind] at h

theorem RecordsInv_fresh : RecordsInv State.fresh := by
  refine ⟨?_, rfl, rfl, rfl⟩
  intro r hr
  simp [State.fresh] at hr

theorem section_kind_chain (name : Str) (cur : Nat) :
    section_kind name cur =
      if (str_find name ".text".toList).isSome then kPefCode
      else if (str_find name ".data".toList).isSome then kPefData
      else if (str_find name ".page_zero".toList).isSome then kPefZero
      else if name = "__start".toList then kPefCode
      else cur := by
  by_cases hs : name = "__start".toList
  · subst hs
    have h1 : (str_find "__start".toList ".text".toList).isSome = false := by decide
    have h2 : (str_find "__start".toList ".data".toList).isSome = false := by decide
    have h3 : (str_find "__start".toList ".page_zero".toList).isSome = false := by decide
    simp only [section_kind, h1, h2, h3, Bool.false_eq_true, if_false, if_true]
  · simp only [section_kind, if_neg hs]

/-- C12: in every state s that the compilation loop reaches from the fresh state,
masm_check_export on a line with __import or __export (whose record name fits the name
field) pushes one record, and the kind of that record is Code if the mangled name
contains ".text", otherwise Data if it contains ".data", otherwise Zero if it contains
".page_zero", otherwise Code if the name is "__start", and otherwise the kind of the
record pushed last, Code when there is none.  Every record of the list then has kind
Code, Data or Zero. -/
theorem kind_classification (file : Str) (lines : List Str) (line : Str) (s : State)
    (hreach : compile_lines file lines State.fresh = .ok () s)
    (hdir : find_word line "__import".toList = true ∨ find_word line "__export".toList = true)
    (hfit : (directive_record_name line).length ≤ kAESymbolLen) :
    ∃ (r : AERecordHeader) (s1 : State),
      masm_check_export line s = .ok () s1 ∧
      s1.kRecords = (if s.kRecords.isEmpty then s.kRecords
        else set_last_size s.kRecords s.kBytes.length) ++ [r] ∧
      r.fKind =
        (if (str_find (directive_name line) ".text".toList).isSome then kPefCode
        else if (str_find (directive_name line) ".data".toList).isSome then kPefData
        else if (str_find (directive_name line) ".page_zero".toList).isSome then kPefZero
        else if directive_name line = "__start".toList then kPefCode
        else (s.kRecords.getLast?.map fun p => p.fKind).getD kPefCode) ∧
      ∀ q ∈ s1.kRecords, q.fKind = kPefCode ∨ q.fKind = kPefData ∨ q.fKind = kPefZero := by
  have hinv := RecordsInv_compile_lines file lines _ _ RecordsInv_fresh hreach
  have hpush := RecordsInv_push line s hinv hfit
  refine ⟨_, _, check_export_eq line s hdir hfit, rfl, ?_, ?_⟩
  · show section_kind (directive_name line) s.kCurrentRecord.fKind = _
    rw [section_kind_chain, hinv.2.1]
  · intro q hq
    exact (hpush.1 q hq).2.2.2

/-- The classification theorem on the line "__export .data", in the fresh state. -/
theorem kind_classification_witness :
    (compile_lines "a.s".toList [] State.fresh = .ok () State.fresh ∧
      (find_word "__export .data".toList "__import".toList = true ∨
        find_word "__export .data".toList "__export".toList = true) ∧
      (directive_record_name "__export .data".toList).length ≤ kAESymbolLen) ∧
    ∃ (r : AERecordHeader) (s1 : State),
      masm_check_export "__export .data".toList State.fresh = .ok () s1 ∧
      s1.kRecords = [] ++ [r] ∧
      r.fKind = kPefData ∧
      ∀ q ∈ s1.kRecords, q.fKind = kPefCode ∨ q.fKind = kPefData ∨ q.fKind = kPefZero :=
  ⟨⟨rfl, by decide, by decide⟩,
   kind_classification "a.s".toList [] "__export .data".toList State.fresh rfl
     (by decide) (by decide)⟩

/-- C13 on the source made of the lines "__export .data" and "__export __start" (and on
the same with "__import __start"): the name compared with "__start" is "$__start", the
space after the keyword having become a dollar sign, so the record of the second line
keeps the kind Data (0xD) of the first. -/
theorem start_symbol_keeps_prior_kind :
    (match compile_lines "a.s".toList
        ["__export .data".toList, "__export __start".toList] State.fresh with
      | .ok _ s => s.kRecords.map fun r => (r.fName.takeWhile fun c => c != Char.ofNat 0, r.fKind)
      | _ => []) = [("$.data".toList, 0xD), ("$__start".toList, 0xD)] ∧
    (match compile_lines "a.s".toList
        ["__export .data".toList, "__import __start".toList] State.fresh with
      | .ok _ s => s.kRecords.map fun r => (r.fName.takeWhile fun c => c != Char.ofNat 0, r.fKind)
      | _ => []) = [("$.data".toList, 0xD), ("8:ld:$__start".toList, 0xD)] ∧
    directive_name "__export __start".toList = "$__start".toList ∧
    directive_name "__import __start".toList = "$__start".toList := by
  decide

/-! ## Lemmas on the line validator -/

theorem str_find_split (c : Char) (post : Str) :
    ∀ pre : Str, c ∉ pre → str_find (pre ++ c :: post) [c] = some pre.length := by
  intro pre
  induction pre with
  | nil => intro _; simp [str_find, List.isPrefixOf]
  | cons a pre ih =>
    intro h
    have ha : ¬ (c = a) := fun e => h (by simp [e])
    have hp : c ∉ pre := fun e => h (by simp [e])
    simp [str_find, List.isPrefixOf, ha, ih hp]

theorem cut_at_char (c : Char) (s : Str) :
    (match str_find s [c] with
      | some i => str_erase_from s i
      | none => s) = s.takeWhile fun x => x != c := by
  cases h : str_find s [c] with
  | none =>
    have hc : c ∉ s := by
      intro hm
      have := (str_find_char_isSome c s).2 hm
      simp [h] at this
    symm
    rw [List.takeWhile_eq_self_iff]
    intro x hx
    have : x ≠ c := fun e => hc (e ▸ hx)
    simpa using this
  | some i =>
    obtain ⟨pre, post, rfl, hpre, rfl⟩ := str_find_char_some c s i h
    have h1 : (pre ++ c :: post).takeWhile (fun x => x != c) = pre := by
      rw [List.takeWhile_append_of_pos]
      · simp
      · intro x hx
        have : x ≠ c := fun e => hpre (e ▸ hx)
        simpa using this
    simp [str_erase_from, h1]

theorem str_find_isSome_of_infix (needle post : Str) :
    ∀ pre : Str, (str_find (pre ++ needle ++ post) needle).isSome = true := by
  intro pre
  induction pre with
  | nil =>
    cases hn : needle with
    | nil =>
      cases post with
      | nil => simp [str_find]
      | cons a l => simp [str_find, List.isPrefixOf]
    | cons a l =>
      have hp : (a :: l).isPrefixOf (a :: l ++ post) = true := by
        rw [List.isPrefixOf_iff_prefix]
        exact List.prefix_append _ _
      simp only [List.nil_append, List.cons_append, str_find]
      rw [if_pos (by simp)]
      rfl
  | cons a pre ih =>
    simp only [List.cons_append, str_find]
    split_ifs
    · rfl
    · simpa [List.append_assoc] using ih

theorem str_find_infix_of_isSome (needle : Str) :
    ∀ s : Str, (str_find s needle).isSome = true →
      ∃ pre post, s = pre ++ needle ++ post := by
  intro s
  induction s with
  | nil =>
    intro h
    simp only [str_find] at h
    split_ifs at h with he
    · exact ⟨[], [], by simp [List.isEmpty_iff.1 he]⟩
    · simp at h
  | cons a s ih =>
    intro h
    simp only [str_find] at h
    split_ifs at h with hp
    · rw [List.isPrefixOf_iff_prefix] at hp
      obtain ⟨t, ht⟩ := hp
      exact ⟨[], t, by simp [ht]⟩
    · have h2 : (str_find s needle).isSome = true := by
        cases hs : str_find s needle with
        | none => rw [hs] at h; simp at h
        | some i => rfl
      obtain ⟨pre, post, hs⟩ := ih h2
      exact ⟨a :: pre, post, by simp [hs]⟩

theorem find_word_filter (c : Char) (kw s : Str) (hc : c ∉ kw)
    (h : find_word s kw = true) : find_word (s.filter fun x => x != c) kw = true := by
  obtain ⟨pre, post, rfl⟩ := str_find_infix_of_isSome kw s h
  have hk : kw.filter (fun x => x != c) = kw := by
    rw [List.filter_eq_self]
    intro x hx
    have : x ≠ c := fun e => hc (e ▸ hx)
    simpa using this
  simp only [List.filter_append, hk]
  exact str_find_isSome_of_infix kw _ _

theorem malformed_loop_eq (line : Str) :
    ∀ (ops : List Str) (err_str : Str),
      malformed_loop line ops err_str =
        err_str ++ ((ops.filter fun op => is_malformed line op).map
          (malformed_message line)).flatten := by
  intro ops
  induction ops with
  | nil => intro e; simp [malformed_loop]
  | cons op ops ih =>
    intro e
    by_cases h : line = op ∨ ((str_find line op).isSome ∧
        isspace (charAt line (pos_plus (str_find line op) op.length)) = false)
    · have hm : is_malformed line op = true := by simp only [is_malformed, h, decide_True]
      simp only [malformed_loop, if_pos h, ih, List.filter_cons, hm, if_true, List.map_cons,
        List.flatten_cons, malformed_message, List.append_assoc]
    · have hm : is_malformed line op = false := by simp only [is_malformed, h, decide_False]
      simp only [malformed_loop, if_neg h, ih, List.filter_cons, hm, Bool.false_eq_true,
        if_false]

theorem opcode_check_found (line : Str) :
    ∀ ops : List NCOpcode, (∃ op ∈ ops, (str_find line op.fName).isSome = true) →
      opcode_check line ops = malformed_loop line opcodes_list [] := by
  intro ops
  induction ops with
  | nil => intro h; obtain ⟨op, hop, -⟩ := h; simp at hop
  | cons o ops ih =>
    intro h
    by_cases ho : (str_find line o.fName).isSome = true
    · simp only [opcode_check, ho, if_true]
    · simp only [opcode_check, ho, Bool.false_eq_true, if_false]
      apply ih
      obtain ⟨op, hop, hf⟩ := h
      rcases List.mem_cons.1 hop with e | e
      · subst e; exact absurd hf ho
      · exact ⟨op, e, hf⟩

theorem opcode_check_cases (line : Str) :
    ∀ ops : List NCOpcode,
      opcode_check line ops = "Unknown syntax, ".toList ++ line ∨
      opcode_check line ops = malformed_loop line opcodes_list [] := by
  intro ops
  induction ops with
  | nil => exact Or.inl rfl
  | cons o ops ih =>
    by_cases ho : (str_find line o.fName).isSome = true
    · right; simp only [opcode_check, ho, if_true]
    · simp only [opcode_check, ho, Bool.false_eq_true, if_false]
      exact ih

theorem mem_erase_all_tab (line0 : Str) (c : Char) (h : c ∈ erase_all '\t' line0) :
    c ≠ '\t' := by
  rw [erase_all_eq_filter] at h
  simpa using (List.mem_filter.1 h).2

theorem not_alnum_space_stripped (c : Char) (h : c ≠ '\t') :
    is_not_alnum_space c = !claimed_allowed_char c := by
  have ht : (c == '\t') = false := by simpa using h
  simp only [is_not_alnum_space, claimed_allowed_char, ht, Bool.or_false]

theorem stripped_chars_allowed (line0 : Str)
    (h : ∀ c ∈ erase_all '\t' line0, claimed_allowed_char c = true) :
    ∀ c ∈ erase_all '\t' line0, is_not_alnum_space c = false := by
  intro c hc
  rw [not_alnum_space_stripped c (mem_erase_all_tab line0 c hc), h c hc]
  rfl

theorem comma_check_split (pre post : Str) (hpre : ',' ∉ pre) :
    comma_check (pre ++ ',' :: post) =
      if post = [] then
        some ("\ninstruction lacks right register, here -> ".toList ++ ',' :: post)
      else if post.all fun ch => !(ch != ' ' && ch != '\t') then
        some ("\ninstruction not complete, here -> ".toList ++ (pre ++ ',' :: post))
      else none := by
  have hlen : (pre ++ ',' :: post).length = pre.length + 1 + post.length := by
    simp only [List.length_append, List.length_cons]; omega
  have hs1 : substr (pre ++ ',' :: post) (pre.length + 1) = post := by
    simp [substr]
  have hs0 : substr (pre ++ ',' :: post) pre.length = ',' :: post := by
    simp [substr]
  simp only [comma_check, str_find_split ',' post pre hpre, hlen, hs1, hs0]
  by_cases hp : post = []
  · subst hp
    simp
  · have hpl : 0 < post.length := List.length_pos.2 hp
    have h1 : ¬ (pre.length + 1 = pre.length + 1 + post.length) := by omega
    have h2 : ¬ (pre.length + 1 > pre.length + 1 + post.length) := by omega
    rw [if_neg h1, if_neg h2, if_neg hp]

/-- C14 (as the code has it): the comma check looks at the first comma of the line.  For a
line that, once its tabs are removed, is not a passthrough line, is made of allowed
characters only and has its first comma after pre and in front of post, masm_check_line
returns a diagnostic that is not empty whenever post holds nothing but spaces; when post
holds another character the comma check passes and the line goes on to the opcode check,
whatever follows the last comma. -/
theorem comma_check_first_comma (line0 pre post : Str)
    (hpass : is_passthrough (erase_all '\t' line0) = false)
    (hchars : ∀ c ∈ erase_all '\t' line0, claimed_allowed_char c = true)
    (hsplit : erase_all '\t' line0 = pre ++ ',' :: post) (hpre : ',' ∉ pre) :
    ((∀ c ∈ post, c = ' ') → (masm_check_line line0).1 ≠ []) ∧
    ((∃ c ∈ post, c ≠ ' ') →
      masm_check_line line0 =
        (opcode_check (erase_all '\t' line0) kOpcodesStd, erase_all '\t' line0)) := by
  have hvalid := is_valid_of_chars _ (stripped_chars_allowed line0 hchars)
  have hcc := comma_check_split pre post hpre
  rw [← hsplit] at hcc
  constructor
  · intro hblank
    have hall : (post.all fun ch => !(ch != ' ' && ch != '\t')) = true := by
      rw [List.all_eq_true]
      intro c hc
      simp [hblank c hc]
    by_cases hp : post = []
    · rw [if_pos hp] at hcc
      simp only [masm_check_line, hpass, Bool.false_eq_true, if_false, hvalid, Bool.not_true,
        hcc]
      simp
    · rw [if_neg hp, if_pos hall] at hcc
      simp only [masm_check_line, hpass, Bool.false_eq_true, if_false, hvalid, Bool.not_true,
        hcc]
      simp
  · rintro ⟨c, hc, hne⟩
    have hp : post ≠ [] := List.ne_nil_of_mem hc
    have hct : c ≠ '\t' :=
      mem_erase_all_tab line0 c (by rw [hsplit]; simp [hc])
    have hall : ¬ ((post.all fun ch => !(ch != ' ' && ch != '\t')) = true) := by
      rw [List.all_eq_true]
      intro h
      have := h c hc
      simp [hne, hct] at this
    rw [if_neg hp, if_neg hall] at hcc
    simp only [masm_check_line, hpass, Bool.false_eq_true, if_false, hvalid, Bool.not_true, hcc]

/-- The comma theorem on the line "mv r1, ", whose only comma is followed by a space. -/
theorem comma_check_first_comma_witness :
    (is_passthrough (erase_all '\t' "mv r1, ".toList) = false ∧
      (∀ c ∈ erase_all '\t' "mv r1, ".toList, claimed_allowed_char c = true) ∧
      erase_all '\t' "mv r1, ".toList = "mv r1".toList ++ ',' :: " ".toList ∧
      ',' ∉ "mv r1".toList ∧ ∀ c ∈ " ".toList, c = ' ') ∧
    (masm_check_line "mv r1, ".toList).1 ≠ [] :=
  ⟨⟨by decide, by decide, by decide, by decide, by decide⟩,
   (comma_check_first_comma "mv r1, ".toList "mv r1".toList " ".toList
      (by decide) (by decide) (by decide) (by decide)).1 (by decide)⟩

/-- C14 as stated fails: on "mv r1, r2," nothing follows the last comma, and the line is
accepted (the diagnostic is empty). -/
theorem trailing_comma_accepted :
    masm_check_line "mv r1, r2,".toList = ([], "mv r1, r2,".toList) := by
  decide

theorem malformed_loop_head (line : Str) :
    (malformed_loop line opcodes_list []).head? ≠ some 'L' := by
  rw [malformed_loop_eq]
  generalize (opcodes_list.filter fun op => is_malformed line op) = l
  cases l with
  | nil => simp
  | cons a l => simp [malformed_message]

theorem opcode_check_head (line : Str) :
    (opcode_check line kOpcodesStd).head? ≠ some 'L' := by
  rcases opcode_check_cases line kOpcodesStd with h | h
  · rw [h]; simp
  · rw [h]; exact malformed_loop_head line

theorem comma_check_head (line err : Str) (h : comma_check line = some err) :
    err.head? ≠ some 'L' := by
  simp only [comma_check] at h
  split at h
  · split_ifs at h <;> (cases h; simp)
  · cases h

/-- C15: let line be the input line with its tabs removed, and suppose it contains none
of __import, __export, begin, end, # and layout.  If line holds a character other than an
ASCII letter, a digit, a space, a comma, a parenthesis, a quote, a square bracket, a plus
sign or an underscore, masm_check_line returns exactly "Line contains non alphanumeric
characters.\nhere -> " followed by line; if it holds no such character, that diagnostic is
not what masm_check_line returns. -/
theorem charset_gate (line0 : Str)
    (hkw : find_word (erase_all '\t' line0) "__import".toList = false ∧
      find_word (erase_all '\t' line0) "__export".toList = false ∧
      find_word (erase_all '\t' line0) "begin".toList = false ∧
      find_word (erase_all '\t' line0) "end".toList = false ∧
      find_word (erase_all '\t' line0) "#".toList = false ∧
      find_word (erase_all '\t' line0) "layout".toList = false) :
    ((∃ c ∈ erase_all '\t' line0, claimed_allowed_char c = false) →
      masm_check_line line0 =
        ("Line contains non alphanumeric characters.\nhere -> ".toList ++ erase_all '\t' line0,
          erase_all '\t' line0)) ∧
    ((∀ c ∈ erase_all '\t' line0, claimed_allowed_char c = true) →
      (masm_check_line line0).1 ≠
        "Line contains non alphanumeric characters.\nhere -> ".toList ++
          erase_all '\t' line0) := by
  obtain ⟨k1, k2, k3, k4, k5, k6⟩ := hkw
  have hpt : is_passthrough (erase_all '\t' line0) = (erase_all '\t' line0).isEmpty := by
    simp only [is_passthrough, k1, k2, k3, k4, k5, k6, Bool.or_false]
  constructor
  · rintro ⟨c, hc, hbad⟩
    have hne : (erase_all '\t' line0).isEmpty = false := by
      cases h : erase_all '\t' line0 with
      | nil => rw [h] at hc; simp at hc
      | cons a l => rfl
    have hnv : is_valid (erase_all '\t' line0) = false := by
      have hb : is_not_alnum_space c = true := by
        rw [not_alnum_space_stripped c (mem_erase_all_tab line0 c hc), hbad]; rfl
      have hf : ((erase_all '\t' line0).find? is_not_alnum_space).isNone = false := by
        cases hfind : (erase_all '\t' line0).find? is_not_alnum_space with
        | none =>
          rw [List.find?_eq_none] at hfind
          exact absurd hb (hfind c hc)
        | some x => rfl
      simp only [is_valid, k1, k2, Bool.or_false, Bool.false_eq_true, if_false, hf]
    simp only [masm_check_line, hpt, hne, Bool.false_eq_true, if_false, hnv, Bool.not_false,
      if_true]
  · intro hall heq
    have hhead : (masm_check_line line0).1.head? = some 'L' := by rw [heq]; rfl
    by_cases hemp : (erase_all '\t' line0).isEmpty = true
    · have hnil : (masm_check_line line0).1 = [] := by
        simp only [masm_check_line, hpt, hemp, if_true]
        split <;> rfl
      rw [hnil] at hhead
      simp at hhead
    · have hvalid := is_valid_of_chars _ (stripped_chars_allowed line0 hall)
      have hemp2 : (erase_all '\t' line0).isEmpty = false := by simpa using hemp
      simp only [masm_check_line, hpt, hemp2, Bool.false_eq_true, if_false, hvalid,
        Bool.not_true] at hhead
      cases hcc : comma_check (erase_all '\t' line0) with
      | none =>
        rw [hcc] at hhead
        exact opcode_check_head _ hhead
      | some err =>
        rw [hcc] at hhead
        exact comma_check_head _ _ hcc hhead

/-- The gate theorem on the line "mv r1; r2", which holds a semicolon. -/
theorem charset_gate_witness :
    (find_word (erase_all '\t' "mv r1; r2".toList) "__import".toList = false ∧
      find_word (erase_all '\t' "mv r1; r2".toList) "__export".toList = false ∧
      find_word (erase_all '\t' "mv r1; r2".toList) "begin".toList = false ∧
      find_word (erase_all '\t' "mv r1; r2".toList) "end".toList = false ∧
      find_word (erase_all '\t' "mv r1; r2".toList) "#".toList = false ∧
      find_word (erase_all '\t' "mv r1; r2".toList) "layout".toList = false) ∧
    (∃ c ∈ erase_all '\t' "mv r1; r2".toList, claimed_allowed_char c = false) ∧
    masm_check_line "mv r1; r2".toList =
      ("Line contains non alphanumeric characters.\nhere -> mv r1; r2".toList,
        "mv r1; r2".toList) :=
  ⟨by decide, ⟨';', by decide, by decide⟩,
   (charset_gate "mv r1; r2".toList (by decide)).1 ⟨';', by decide, by decide⟩⟩

theorem str_find_self (s : Str) : str_find s s = some 0 := by
  cases s with
  | nil => rfl
  | cons c s =>
    have hp : (c :: s).isPrefixOf (c :: s) = true := by
      rw [List.isPrefixOf_iff_prefix]
    simp only [str_find, hp, if_true]

theorem charAt_end (s : Str) : charAt s s.length = Char.ofNat 0 := by
  simp [charAt, List.getD_eq_default]

theorem opcodes_list_in_table : ∀ m ∈ opcodes_list, ∃ op ∈ kOpcodesStd, op.fName = m := by
  decide

/-- C16 (as the code has it): let line be the input line with its tabs removed, not a
passthrough line, made of allowed characters, passing the comma check, and containing the
mnemonic m, one of jb, psh, stw, ldw, lda, first at position i.  Then masm_check_line
returns the "malformed" messages, one after the other, of the mnemonics of that list that
the test of the code singles out, and m is singled out exactly when the character right
after its first occurrence is not white space (the end of the line counts as such a
character): a mnemonic followed by white space gets no malformed message. -/
theorem malformed_adjacency (line0 m : Str) (i : Nat)
    (hpass : is_passthrough (erase_all '\t' line0) = false)
    (hchars : ∀ c ∈ erase_all '\t' line0, claimed_allowed_char c = true)
    (hcomma : comma_check (erase_all '\t' line0) = none)
    (hm : m ∈ opcodes_list)
    (hfound : str_find (erase_all '\t' line0) m = some i) :
    (masm_check_line line0).1 =
      ((opcodes_list.filter fun op => is_malformed (erase_all '\t' line0) op).map
        (malformed_message (erase_all '\t' line0))).flatten ∧
    (m ∈ (opcodes_list.filter fun op => is_malformed (erase_all '\t' line0) op) ↔
      isspace (charAt (erase_all '\t' line0) (i + m.length)) = false) := by
  have hvalid := is_valid_of_chars _ (stripped_chars_allowed line0 hchars)
  constructor
  · obtain ⟨op, hop, hname⟩ := opcodes_list_in_table m hm
    have hex : ∃ op ∈ kOpcodesStd,
        (str_find (erase_all '\t' line0) op.fName).isSome = true :=
      ⟨op, hop, by rw [hname, hfound]; rfl⟩
    simp only [masm_check_line, hpass, Bool.false_eq_true, if_false, hvalid, Bool.not_true,
      hcomma, opcode_check_found _ _ hex, malformed_loop_eq, List.nil_append]
  · rw [List.mem_filter]
    simp only [hm, true_and, is_malformed, hfound, Option.isSome_some, pos_plus,
      decide_eq_true_eq]
    constructor
    · rintro (h | h)
      · rw [h] at hfound
        rw [str_find_self] at hfound
        cases hfound
        rw [h, Nat.zero_add, charAt_end]
        rfl
      · exact h
    · intro h
      exact Or.inr h

/-- The adjacency theorem on the line "jbfoo", where jb is followed by a letter. -/
theorem malformed_adjacency_witness :
    (is_passthrough (erase_all '\t' "jbfoo".toList) = false ∧
      (∀ c ∈ erase_all '\t' "jbfoo".toList, claimed_allowed_char c = true) ∧
      comma_check (erase_all '\t' "jbfoo".toList) = none ∧
      "jb".toList ∈ opcodes_list ∧
      str_find (erase_all '\t' "jbfoo".toList) "jb".toList = some 0) ∧
    (masm_check_line "jbfoo".toList).1 =
      "\nmalformed jb instruction, here -> jbfoo".toList :=
  ⟨⟨by decide, by decide, by decide, by decide, by decide⟩,
   (malformed_adjacency "jbfoo".toList "jb".toList 0 (by decide) (by decide) (by decide)
      (by decide) (by decide)).1⟩

/-- C16 as stated fails: in "jb foo" the mnemonic is followed by a space and no malformed
diagnostic is returned; in "jbfoo" a letter directly follows it and the malformed
diagnostic is returned. -/
theorem malformed_is_the_other_way :
    masm_check_line "jb foo".toList = ([], "jb foo".toList) ∧
    masm_check_line "jbfoo".toList =
      ("\nmalformed jb instruction, here -> jbfoo".toList, "jbfoo".toList) := by
  decide

theorem is_passthrough_strip (line0 : Str) (h : is_passthrough line0 = true) :
    is_passthrough (erase_all '\t' line0) = true := by
  rw [erase_all_eq_filter]
  simp only [is_passthrough, Bool.or_eq_true] at h ⊢
  rcases h with (((((h | h) | h) | h) | h) | h) | h
  · have : line0 = [] := List.isEmpty_iff.1 h
    subst this
    exact Or.inl (Or.inl (Or.inl (Or.inl (Or.inl (Or.inl rfl)))))
  · exact Or.inl (Or.inl (Or.inl (Or.inl (Or.inl (Or.inr
      (find_word_filter '\t' _ _ (by decide) h))))))
  · exact Or.inl (Or.inl (Or.inl (Or.inl (Or.inr
      (find_word_filter '\t' _ _ (by decide) h)))))
  · exact Or.inl (Or.inl (Or.inl (Or.inr (find_word_filter '\t' _ _ (by decide) h))))
  · exact Or.inl (Or.inl (Or.inr (find_word_filter '\t' _ _ (by decide) h)))
  · exact Or.inl (Or.inr (find_word_filter '\t' _ _ (by decide) h))
  · exact Or.inr (find_word_filter '\t' _ _ (by decide) h)

theorem check_line_passthrough (line0 : Str)
    (h : is_passthrough (erase_all '\t' line0) = true) :
    masm_check_line line0 = ([], (erase_all '\t' line0).takeWhile fun c => c != '#') := by
  rw [← cut_at_char '#' (erase_all '\t' line0)]
  simp only [masm_check_line, h, if_true]
  split <;> rfl

theorem check_line_other (line0 : Str)
    (h : is_passthrough (erase_all '\t' line0) = false) :
    (masm_check_line line0).2 = erase_all '\t' line0 := by
  simp only [masm_check_line, h, Bool.false_eq_true, if_false]
  split_ifs
  · rfl
  · split <;> rfl

/-- C17: for every line that is empty or contains __import, __export, begin, end, # or
layout, masm_check_line returns the empty diagnostic and leaves behind the input with all
its tabs removed and then cut at the first # (the whole of it when there is none).  For
every input line, the line left behind contains no tab, and when the diagnostic returned
is empty it contains no #. -/
theorem passthrough_and_truncation (line0 : Str) :
    (is_passthrough line0 = true →
      masm_check_line line0 =
        ([], (line0.filter fun c => c != '\t').takeWhile fun c => c != '#')) ∧
    '\t' ∉ (masm_check_line line0).2 ∧
    ((masm_check_line line0).1 = [] → '#' ∉ (masm_check_line line0).2) := by
  refine ⟨fun h => ?_, ?_, ?_⟩
  · rw [check_line_passthrough line0 (is_passthrough_strip line0 h), erase_all_eq_filter]
  · intro hm
    cases hp : is_passthrough (erase_all '\t' line0) with
    | true =>
      rw [check_line_passthrough line0 hp] at hm
      exact mem_erase_all_tab line0 _ ((List.takeWhile_sublist _).subset hm) rfl
    | false =>
      rw [check_line_other line0 hp] at hm
      exact mem_erase_all_tab line0 _ hm rfl
  · intro _ hm
    cases hp : is_passthrough (erase_all '\t' line0) with
    | true =>
      rw [check_line_passthrough line0 hp] at hm
      have := List.mem_takeWhile_imp hm
      simp at this
    | false =>
      rw [check_line_other line0 hp] at hm
      have hfw : find_word (erase_all '\t' line0) "#".toList = false := by
        simp only [is_passthrough, Bool.or_eq_false_iff] at hp
        exact hp.1.2
      have := (str_find_char_isSome '#' (erase_all '\t' line0)).2 hm
      have hfw2 : (str_find (erase_all '\t' line0) ['#']).isSome = false := hfw
      rw [hfw2] at this
      cases this

/-- The truncation theorem on a line with a tab, a directive and a comment. -/
theorem passthrough_and_truncation_witness :
    is_passthrough "\t__export .text # code".toList = true ∧
    masm_check_line "\t__export .text # code".toList = ([], "__export .text ".toList) :=
  ⟨by decide, (passthrough_and_truncation "\t__export .text # code".toList).1 (by decide)⟩

/-! ## The object writer -/

theorem le_bytes_length (w n : Nat) : (le_bytes w n).length = w := by
  simp [le_bytes]

theorem header_bytes_length (w : Nat) (h : AEHeader) (hm : h.fMagic.length = kAEMagLen)
    (hp : h.fPad.length = kAEPad) : (header_bytes w h).length = sizeof_AEHeader w := by
  simp only [header_bytes, sizeof_AEHeader, List.length_append, List.length_map, hm, hp,
    le_bytes_length, List.length_singleton]

theorem record_bytes_length (w p : Nat) (r : AERecordHeader)
    (h : r.fName.length = kAESymbolLen ∧ r.fPad.length = kAEPad) :
    (record_bytes w p r).length = sizeof_AERecordHeader w p := by
  simp only [record_bytes, sizeof_AERecordHeader, List.length_append, List.length_map, h.1, h.2,
    le_bytes_length]

theorem write_at_end (f : OStream) (data : List Nat) (h : f.pos = f.content.length) :
    f.write data = { content := f.content ++ data, pos := f.content.length + data.length } := by
  simp [OStream.write, h]

theorem foldl_write_chunks {α : Type} (ser : α → List Nat) :
    ∀ (rs : List α) (C : List Nat),
      rs.foldl (fun (o : OStream) r => o.write (ser r)) { content := C, pos := C.length } =
        { content := C ++ (rs.map ser).flatten,
          pos := (C ++ (rs.map ser).flatten).length } := by
  intro rs
  induction rs with
  | nil => intro C; simp
  | cons r rs ih =>
    intro C
    have h1 : ({ content := C, pos := C.length } : OStream).write (ser r) =
        { content := C ++ ser r, pos := (C ++ ser r).length } := by
      simp [OStream.write]
    simp only [List.foldl_cons, h1, ih, List.map_cons, List.flatten_cons, List.append_assoc]

theorem foldl_write_bytes (bytes C : List Nat) :
    bytes.foldl (fun (o : OStream) b => o.write [b]) { content := C, pos := C.length } =
      { content := C ++ bytes, pos := (C ++ bytes).length } := by
  have := foldl_write_chunks (fun b : Nat => [b]) bytes C
  have hfl : ∀ l : List Nat, (l.map fun b => [b]).flatten = l := by
    intro l
    induction l with
    | nil => rfl
    | cons a l ih => simp [ih]
  rw [hfl] at this
  exact this

theorem flatten_length_const {α : Type} (ser : α → List Nat) (n : Nat) :
    ∀ rs : List α, (∀ r ∈ rs, (ser r).length = n) →
      ((rs.map ser).flatten).length = rs.length * n := by
  intro rs
  induction rs with
  | nil => intro _; simp
  | cons r rs ih =>
    intro h
    simp only [List.map_cons, List.flatten_cons, List.length_append, List.length_cons,
      h r (by simp), ih (fun x hx => h x (by simp [hx]))]
    rw [Nat.add_mul, Nat.one_mul, Nat.add_comm]

theorem finish_records_length :
    ∀ (recs : List AERecordHeader) (k : Nat), (finish_records recs k).length = recs.length := by
  intro recs
  induction recs with
  | nil => intro k; rfl
  | cons r rs ih => intro k; simp [finish_records, ih]

theorem finish_records_mem :
    ∀ (recs : List AERecordHeader) (k : Nat) (r : AERecordHeader), r ∈ finish_records recs k →
      ∃ r0 ∈ recs, r.fName = r0.fName ∧ r.fPad = r0.fPad ∧ r.fKind = r0.fKind ∧
        r.fSize = r0.fSize := by
  intro recs
  induction recs with
  | nil => intro k r h; simp [finish_records] at h
  | cons a rs ih =>
    intro k r h
    simp only [finish_records, List.mem_cons] at h
    rcases h with h | h
    · subst h
      exact ⟨a, by simp, rfl, rfl, rfl, rfl⟩
    · obtain ⟨r0, hr0, h4⟩ := ih _ r h
      exact ⟨r0, List.mem_cons_of_mem _ hr0, h4⟩

theorem set_last_size_length (n : Nat) :
    ∀ recs : List AERecordHeader, (set_last_size recs n).length = recs.length := by
  intro recs
  induction recs with
  | nil => rfl
  | cons a l ih =>
    cases l with
    | nil => rfl
    | cons b l => simp only [set_last_size, List.length_cons] at ih ⊢; rw [ih]

theorem undefined_records_some :
    ∀ (syms : List Str) (k : Nat), (∀ sym ∈ syms, sym.length ≤ kAESymbolLen) →
      ∃ undefs, undefined_records syms k = some undefs ∧ undefs.length = syms.length ∧
        ∀ r ∈ undefs, r.fName.length = kAESymbolLen ∧ r.fPad.length = kAEPad := by
  intro syms
  induction syms with
  | nil => intro k _; exact ⟨[], rfl, rfl, by simp⟩
  | cons sym syms ih =>
    intro k h
    have hs : sym.length ≤ kAESymbolLen := h sym (by simp)
    obtain ⟨u, hu, hlen, hwf⟩ := ih (k + 1) (fun x hx => h x (by simp [hx]))
    refine ⟨
      { fName := sym ++ List.replicate (kAESymbolLen - sym.length) (Char.ofNat 0),
        fKind := kAEInvalidOpcode, fSize := sym.length, fFlags := 0, fOffset := k,
        fPad := List.replicate kAEPad kAEInvalidOpcode } :: u,
      by simp only [undefined_records, copy_name, if_pos hs, hu], by simp [hlen], ?_⟩
    intro r hr
    simp only [List.mem_cons] at hr
    rcases hr with hr | hr
    · subst hr
      refine ⟨?_, by simp [kAEPad]⟩
      simp only [List.length_append, List.length_replicate]
      omega
    · exact hwf r hr


theorem write_object_eq (sh sr : Nat) (st : State) (undefs : List AERecordHeader)
    (hne : st.kRecords ≠ [])
    (hu : undefined_records st.kUndefinedSymbols (st.kRecords.length + 1) = some undefs)
    (hul : undefs.length = st.kUndefinedSymbols.length) :
    write_object sh sr st =
      .ok (some
        { header := patched_header sh sr st,
          table := finish_records (set_last_size st.kRecords st.kBytes.length) 0 ++ undefs,
          code := st.kBytes })
        { st with
          kRecords := finish_records (set_last_size st.kRecords st.kBytes.length) 0,
          kCounter := st.kCounter + undefs.length } := by
  have hemp : st.kRecords.isEmpty = false := by
    cases h : st.kRecords with
    | nil => exact absurd h hne
    | cons a l => rfl
  have hrl : (finish_records (set_last_size st.kRecords st.kBytes.length) 0).length =
      st.kRecords.length := by
    rw [finish_records_length, set_last_size_length]
  simp only [write_object, hemp, Bool.false_eq_true, if_false, hrl, hu, hul, patched_header]

theorem write_stream_eq (w p : Nat) (st : State) (undefs : List AERecordHeader)
    (hne : st.kRecords ≠ [])
    (hwf : ∀ r ∈ st.kRecords, r.fName.length = kAESymbolLen ∧ r.fPad.length = kAEPad)
    (hu : undefined_records st.kUndefinedSymbols (st.kRecords.length + 1) = some undefs)
    (hul : undefs.length = st.kUndefinedSymbols.length)
    (huwf : ∀ r ∈ undefs, r.fName.length = kAESymbolLen ∧ r.fPad.length = kAEPad) :
    write_stream w p st =
      .ok (some (header_bytes w
          (patched_header (sizeof_AEHeader w) (sizeof_AERecordHeader w p) st) ++
        (((finish_records (set_last_size st.kRecords st.kBytes.length) 0).map
          (record_bytes w p)).flatten ++
        ((undefs.map (record_bytes w p)).flatten ++ st.kBytes))))
        { st with
          kRecords := finish_records (set_last_size st.kRecords st.kBytes.length) 0,
          kCounter := st.kCounter + undefs.length } := by
  have hemp : st.kRecords.isEmpty = false := by
    cases h : st.kRecords with
    | nil => exact absurd h hne
    | cons a l => rfl
  have hrl : (finish_records (set_last_size st.kRecords st.kBytes.length) 0).length =
      st.kRecords.length := by
    rw [finish_records_length, set_last_size_length]
  have hrwf : ∀ r ∈ finish_records (set_last_size st.kRecords st.kBytes.length) 0,
      (record_bytes w p r).length = sizeof_AERecordHeader w p := by
    intro r hr
    obtain ⟨r1, hr1, hn1, hp1, -, -⟩ := finish_records_mem _ _ r hr
    obtain ⟨r0, hr0, hn0, -, -, -, hp0⟩ := set_last_size_mem _ _ r1 hr1
    apply record_bytes_length
    rw [hn1, hn0, hp1, hp0]
    exact hwf r0 hr0
  have huw : ∀ r ∈ undefs, (record_bytes w p r).length = sizeof_AERecordHeader w p :=
    fun r hr => record_bytes_length w p r (huwf r hr)
  have hH : ∀ a b : Nat, (header_bytes w
      { fMagic := ['A', 'E'], fArch := st.kOutputArch,
        fCount := st.kRecords.length + st.kUndefinedSymbols.length,
        fSize := sizeof_AEHeader w % 256, fStartCode := a, fCodeSize := b,
        fPad := List.replicate kAEPad kAEInvalidOpcode }).length = sizeof_AEHeader w :=
    fun a b => header_bytes_length w _ rfl (by simp)
  have e1 : ∀ H : List Nat,
      ({ content := [], pos := 0 } : OStream).write H = { content := H, pos := H.length } := by
    intro H; simp [OStream.write]
  have e4 : ∀ (H0 H1 T : List Nat) (q : Nat), H0.length = H1.length →
      (({ content := H0 ++ T, pos := q } : OStream).seekp 0).write H1 =
        { content := H1 ++ T, pos := H1.length } := by
    intro H0 H1 T q h
    simp [OStream.write, OStream.seekp, ← h]
  have e5 : ∀ (H T B : List Nat) (q : Nat), H.length = sizeof_AEHeader w →
      B.foldl (fun o byte => o.write [byte])
          (({ content := H ++ T, pos := q } : OStream).seekp (sizeof_AEHeader w + T.length)) =
        { content := H ++ T ++ B, pos := (H ++ T ++ B).length } := by
    intro H T B q h
    have : (({ content := H ++ T, pos := q } : OStream).seekp (sizeof_AEHeader w + T.length)) =
        { content := H ++ T, pos := (H ++ T).length } := by
      simp [OStream.seekp, h]
    rw [this]
    exact foldl_write_bytes B _
  have hend : ∀ H : List Nat, H.length = sizeof_AEHeader w →
      (H ++ (((finish_records (set_last_size st.kRecords st.kBytes.length) 0).map
          (record_bytes w p)).flatten ++ (undefs.map (record_bytes w p)).flatten)).length =
      sizeof_AEHeader w +
        (st.kRecords.length + st.kUndefinedSymbols.length) * sizeof_AERecordHeader w p := by
    intro H h
    simp only [List.length_append, h, flatten_length_const _ _ _ hrwf,
      flatten_length_const _ _ _ huw, hrl, hul]
    rw [Nat.add_mul]
  simp only [write_stream, hemp, Bool.false_eq_true, if_false, hrl, hu, e1,
    foldl_write_chunks, List.append_assoc, hend _ (hH 0 0),
    e4 _ _ _ _ ((hH 0 0).trans (hH _ _).symm)]
  have hT : sizeof_AEHeader w +
      (st.kRecords.length + st.kUndefinedSymbols.length) * sizeof_AERecordHeader w p =
      sizeof_AEHeader w +
        (((finish_records (set_last_size st.kRecords st.kBytes.length) 0).map
          (record_bytes w p)).flatten ++ (undefs.map (record_bytes w p)).flatten).length := by
    simp only [List.length_append, flatten_length_const _ _ _ hrwf,
      flatten_length_const _ _ _ huw, hrl, hul]
    rw [Nat.add_mul]
  rw [hT, e5 _ _ _ _ (hH _ _), ← hT]
  simp only [patched_header, List.append_assoc]


/-- C18: for every state with a record list that is not empty (the name and pad fields of
its records having their declared sizes, and no undefined symbol being longer than the
name field), the object writer leaves in the file the bytes of the patched header, then
those of the records in list order, then those of the records of the undefined symbols,
then the code buffer.  The header carries record count = records + undefined symbols,
code start = header size + record count x record size, code size = length of the code
buffer; the file is code start + code size bytes long and its bytes from code start on
are the code buffer. -/
theorem object_file_layout (w p : Nat) (st : State)
    (hne : st.kRecords ≠ [])
    (hwf : ∀ r ∈ st.kRecords, r.fName.length = kAESymbolLen ∧ r.fPad.length = kAEPad)
    (hsym : ∀ sym ∈ st.kUndefinedSymbols, sym.length ≤ kAESymbolLen) :
    ∃ (undefs : List AERecordHeader) (file : List Nat) (s1 : State),
      undefined_records st.kUndefinedSymbols (st.kRecords.length + 1) = some undefs ∧
      write_object (sizeof_AEHeader w) (sizeof_AERecordHeader w p) st =
        .ok (some
          { header := patched_header (sizeof_AEHeader w) (sizeof_AERecordHeader w p) st,
            table := finish_records (set_last_size st.kRecords st.kBytes.length) 0 ++ undefs,
            code := st.kBytes }) s1 ∧
      write_stream w p st = .ok (some file) s1 ∧
      file = header_bytes w (patched_header (sizeof_AEHeader w) (sizeof_AERecordHeader w p) st) ++
        ((finish_records (set_last_size st.kRecords st.kBytes.length) 0).map
          (record_bytes w p)).flatten ++
        (undefs.map (record_bytes w p)).flatten ++ st.kBytes ∧
      (patched_header (sizeof_AEHeader w) (sizeof_AERecordHeader w p) st).fCount =
        st.kRecords.length + st.kUndefinedSymbols.length ∧
      (patched_header (sizeof_AEHeader w) (sizeof_AERecordHeader w p) st).fStartCode =
        sizeof_AEHeader w +
          (st.kRecords.length + st.kUndefinedSymbols.length) * sizeof_AERecordHeader w p ∧
      (patched_header (sizeof_AEHeader w) (sizeof_AERecordHeader w p) st).fCodeSize =
        st.kBytes.length ∧
      file.length =
        (patched_header (sizeof_AEHeader w) (sizeof_AERecordHeader w p) st).fStartCode +
        (patched_header (sizeof_AEHeader w) (sizeof_AERecordHeader w p) st).fCodeSize ∧
      (file.drop (patched_header (sizeof_AEHeader w) (sizeof_AERecordHeader w p) st).fStartCode).take
        (patched_header (sizeof_AEHeader w) (sizeof_AERecordHeader w p) st).fCodeSize =
          st.kBytes := by
  obtain ⟨undefs, hu, hul, huwf⟩ :=
    undefined_records_some st.kUndefinedSymbols (st.kRecords.length + 1) hsym
  have hrl : (finish_records (set_last_size st.kRecords st.kBytes.length) 0).length =
      st.kRecords.length := by
    rw [finish_records_length, set_last_size_length]
  have hrwf : ∀ r ∈ finish_records (set_last_size st.kRecords st.kBytes.length) 0,
      (record_bytes w p r).length = sizeof_AERecordHeader w p := by
    intro r hr
    obtain ⟨r1, hr1, hn1, hp1, -, -⟩ := finish_records_mem _ _ r hr
    obtain ⟨r0, hr0, hn0, -, -, -, hp0⟩ := set_last_size_mem _ _ r1 hr1
    apply record_bytes_length
    rw [hn1, hn0, hp1, hp0]
    exact hwf r0 hr0
  have huw : ∀ r ∈ undefs, (record_bytes w p r).length = sizeof_AERecordHeader w p :=
    fun r hr => record_bytes_length w p r (huwf r hr)
  have hH : (header_bytes w
      (patched_header (sizeof_AEHeader w) (sizeof_AERecordHeader w p) st)).length =
      sizeof_AEHeader w := header_bytes_length w _ rfl (by simp [patched_header])
  have hpre : (header_bytes w
        (patched_header (sizeof_AEHeader w) (sizeof_AERecordHeader w p) st) ++
      ((finish_records (set_last_size st.kRecords st.kBytes.length) 0).map
        (record_bytes w p)).flatten ++
      (undefs.map (record_bytes w p)).flatten).length =
      sizeof_AEHeader w +
        (st.kRecords.length + st.kUndefinedSymbols.length) * sizeof_AERecordHeader w p := by
    simp only [List.length_append, hH, flatten_length_const _ _ _ hrwf,
      flatten_length_const _ _ _ huw, hrl, hul]
    rw [Nat.add_mul, Nat.add_assoc]
  refine ⟨undefs, _, _, hu, write_object_eq _ _ st undefs hne hu hul, ?_, rfl, rfl, rfl, rfl,
    ?_, ?_⟩
  · rw [write_stream_eq w p st undefs hne hwf hu hul huwf]
    simp only [List.append_assoc]
  · rw [List.length_append, hpre]
    rfl
  · show (List.drop (sizeof_AEHeader w +
        (st.kRecords.length + st.kUndefinedSymbols.length) * sizeof_AERecordHeader w p) _).take
          st.kBytes.length = st.kBytes
    rw [← hpre, List.drop_left, List.take_length]

/-- The layout theorem on the state left by the lines "__export .text" and "scall", with
8-byte integers. -/
theorem object_file_layout_witness :
    ({ State.fresh with kBytes := [0x73, 0, 2, 0], kRecords := [kCurrentRecord_init] }.kRecords
        ≠ [] ∧
      (∀ r ∈ { State.fresh with
            kBytes := [0x73, 0, 2, 0], kRecords := [kCurrentRecord_init] }.kRecords,
        r.fName.length = kAESymbolLen ∧ r.fPad.length = kAEPad) ∧
      ∀ sym ∈ { State.fresh with
            kBytes := [0x73, 0, 2, 0], kRecords := [kCurrentRecord_init] }.kUndefinedSymbols,
        sym.length ≤ kAESymbolLen) ∧
    ∃ (undefs : List AERecordHeader) (file : List Nat) (s1 : State),
      undefined_records [] 2 = some undefs ∧
      write_object 36 104
          { State.fresh with kBytes := [0x73, 0, 2, 0], kRecords := [kCurrentRecord_init] } =
        .ok (some
          { header := patched_header 36 104
              { State.fresh with kBytes := [0x73, 0, 2, 0], kRecords := [kCurrentRecord_init] },
            table := [{ kCurrentRecord_init with fSize := 4, fFlags := 0x34f }] ++ undefs,
            code := [0x73, 0, 2, 0] }) s1 ∧
      write_stream 8 8
          { State.fresh with kBytes := [0x73, 0, 2, 0], kRecords := [kCurrentRecord_init] } =
        .ok (some file) s1 ∧
      file.length = 140 + 4 ∧ (file.drop 140).take 4 = [0x73, 0, 2, 0] :=
  ⟨⟨by decide, by decide, by decide⟩,
   (object_file_layout 8 8
      { State.fresh with kBytes := [0x73, 0, 2, 0], kRecords := [kCurrentRecord_init] }
      (by decide) (by decide) (by decide)).imp fun _ h => h.imp fun _ h => h.imp fun _ h =>
        ⟨h.1, h.2.1, h.2.2.1, h.2.2.2.2.2.2.2.1, h.2.2.2.2.2.2.2.2⟩⟩

theorem finish_records_getElem? :
    ∀ (recs : List AERecordHeader) (k i : Nat),
      (finish_records recs k)[i]? =
        (recs[i]?).map fun r =>
          { r with fFlags := r.fFlags ||| kKindRelocationAtRuntime, fOffset := k + i } := by
  intro recs
  induction recs with
  | nil => intro k i; simp [finish_records]
  | cons a rs ih =>
    intro k i
    cases i with
    | zero => simp [finish_records]
    | succ i =>
      simp only [finish_records, List.getElem?_cons_succ, ih]
      congr 1
      funext r
      congr 1
      omega

theorem set_last_size_getElem? (n : Nat) :
    ∀ (recs : List AERecordHeader) (i : Nat),
      (set_last_size recs n)[i]? =
        (recs[i]?).map fun r => if i + 1 = recs.length then { r with fSize := n } else r := by
  intro recs
  induction recs with
  | nil => intro i; simp [set_last_size]
  | cons a l ih =>
    intro i
    cases l with
    | nil =>
      cases i with
      | zero => simp [set_last_size]
      | succ i => simp [set_last_size]
    | cons b l =>
      cases i with
      | zero => simp [set_last_size]
      | succ i =>
        simp only [set_last_size, List.getElem?_cons_succ, ih, List.length_cons]
        congr 1
        funext r
        simp

/-- C19: for every state with n >= 1 records (no undefined symbol being longer than the
name field), the object writer returns, and the i-th record of the table it writes
(0-based, in list order) is the i-th record of the list with its offset field set to i
and with 0x34f or-ed into its flags field; the size field of the last one is the length
of the code buffer.  In a state reached by the compilation loop from the fresh state the
flags field of every written record is 0x34f. -/
theorem record_ordinals_and_flags (sh sr : Nat) (st : State)
    (hne : st.kRecords ≠ [])
    (hsym : ∀ sym ∈ st.kUndefinedSymbols, sym.length ≤ kAESymbolLen) :
    ∃ (undefs : List AERecordHeader) (s1 : State),
      write_object sh sr st =
        .ok (some
          { header := patched_header sh sr st,
            table := finish_records (set_last_size st.kRecords st.kBytes.length) 0 ++ undefs,
            code := st.kBytes }) s1 ∧
      (∀ (i : Nat) (r0 : AERecordHeader), st.kRecords[i]? = some r0 →
        ∃ r, (finish_records (set_last_size st.kRecords st.kBytes.length) 0 ++ undefs)[i]? =
            some r ∧
          r.fOffset = i ∧ r.fFlags = r0.fFlags ||| 0x34f ∧ r.fName = r0.fName ∧
          r.fKind = r0.fKind ∧ (i + 1 = st.kRecords.length → r.fSize = st.kBytes.length)) ∧
      (∀ (file : Str) (lines : List Str), compile_lines file lines State.fresh = .ok () st →
        ∀ r ∈ finish_records (set_last_size st.kRecords st.kBytes.length) 0,
          r.fFlags = 0x34f) := by
  obtain ⟨undefs, hu, hul, -⟩ :=
    undefined_records_some st.kUndefinedSymbols (st.kRecords.length + 1) hsym
  refine ⟨undefs, _, write_object_eq sh sr st undefs hne hu hul, ?_, ?_⟩
  · intro i r0 hi
    have hlt : i < st.kRecords.length := by
      rcases Nat.lt_or_ge i st.kRecords.length with h | h
      · exact h
      · rw [List.getElem?_eq_none h] at hi
        cases hi
    have hlt2 : i < (finish_records (set_last_size st.kRecords st.kBytes.length) 0).length := by
      rw [finish_records_length, set_last_size_length]; exact hlt
    rw [List.getElem?_append_left hlt2, finish_records_getElem?, set_last_size_getElem?, hi]
    simp only [Option.map_some']
    refine ⟨_, rfl, ?_, ?_, ?_, ?_, ?_⟩
    · simp
    · split_ifs <;> simp [kKindRelocationAtRuntime]
    · split_ifs <;> rfl
    · split_ifs <;> rfl
    · intro h
      simp [h]
  · intro file lines hreach r hr
    have hinv := RecordsInv_compile_lines file lines _ _ RecordsInv_fresh hreach
    obtain ⟨i, hi⟩ := List.getElem?_of_mem hr
    rw [finish_records_getElem?, set_last_size_getElem?] at hi
    cases h0 : st.kRecords[i]? with
    | none => rw [h0] at hi; simp at hi
    | some r0 =>
      rw [h0] at hi
      have hfl : r0.fFlags = 0 := (hinv.1 r0 (List.getElem?_mem h0)).2.2.1
      simp only [Option.map_some', Option.some.injEq] at hi
      rw [← hi]
      split_ifs <;> simp [hfl, kKindRelocationAtRuntime]

/-- The theorem on the two records left by "__export .text", "scall", "__export .data". -/
theorem record_ordinals_and_flags_witness :
    ({ State.fresh with
          kBytes := [0x73, 0, 2, 0],
          kRecords := [kCurrentRecord_init, { kCurrentRecord_init with fKind := kPefData }]
        }.kRecords ≠ [] ∧
      ∀ sym ∈ { State.fresh with
          kBytes := [0x73, 0, 2, 0],
          kRecords := [kCurrentRecord_init, { kCurrentRecord_init with fKind := kPefData }]
        }.kUndefinedSymbols, sym.length ≤ kAESymbolLen) ∧
    ∃ (undefs : List AERecordHeader) (s1 : State),
      write_object 36 104
          { State.fresh with
            kBytes := [0x73, 0, 2, 0],
            kRecords := [kCurrentRecord_init, { kCurrentRecord_init with fKind := kPefData }] } =
        .ok (some
          { header := patched_header 36 104
              { State.fresh with
                kBytes := [0x73, 0, 2, 0],
                kRecords :=
                  [kCurrentRecord_init, { kCurrentRecord_init with fKind := kPefData }] },
            table :=
              [{ kCurrentRecord_init with fFlags := 0x34f, fOffset := 0 },
               { kCurrentRecord_init with
                 fKind := kPefData, fSize := 4, fFlags := 0x34f, fOffset := 1 }] ++ undefs,
            code := [0x73, 0, 2, 0] }) s1 :=
  ⟨⟨by decide, by decide⟩,
   (record_ordinals_and_flags 36 104
      { State.fresh with
        kBytes := [0x73, 0, 2, 0],
        kRecords := [kCurrentRecord_init, { kCurrentRecord_init with fKind := kPefData }] }
      (by decide) (by decide)).imp fun _ h => h.imp fun _ h => h.1⟩

/-! ## The command line -/

/-- C20 (as the code has it): main assembles the first argument that is not a flag and
names an existing file, and returns right after the object of that file is written or
removed: the result does not depend on the arguments that follow it, so a second input
file is never read and none of its lines reaches the code buffer or the record list. -/
theorem main_first_file_only (sh sr : Nat) (a : Arg) (rest : List Arg) (lines : List Str)
    (st : State) (hflag : charAt a.text 0 ≠ '-') (hfile : a.file = some lines) :
    main sh sr (a :: rest) st = main sh sr [a] st ∧
    main sh sr (a :: rest) st =
      (assemble sh sr a.text lines st).bind fun obj s =>
        match obj with
        | none => .ok (-1, none) s
        | some o => .ok (0, some (a.text, o)) s := by
  constructor
  · simp only [main, if_neg hflag, hfile]
  · simp only [main, if_neg hflag, hfile]

/-- The theorem on two input files that each hold a directive and an instruction. -/
theorem main_first_file_only_witness :
    (charAt "a.s".toList 0 ≠ '-' ∧
      (⟨"a.s".toList, some ["__export .text".toList, "scall".toList]⟩ : Arg).file =
        some ["__export .text".toList, "scall".toList]) ∧
    main 36 104
        [⟨"a.s".toList, some ["__export .text".toList, "scall".toList]⟩,
         ⟨"b.s".toList, some ["__export .data".toList, "sbreak".toList]⟩] State.fresh =
      main 36 104 [⟨"a.s".toList, some ["__export .text".toList, "scall".toList]⟩] State.fresh :=
  ⟨⟨by decide, rfl⟩,
   (main_first_file_only 36 104 ⟨"a.s".toList, some ["__export .text".toList, "scall".toList]⟩
      [⟨"b.s".toList, some ["__export .data".toList, "sbreak".toList]⟩]
      ["__export .text".toList, "scall".toList] State.fresh (by decide) rfl).1⟩

/-- C20 as stated fails: with two existing input files, each with a directive and an
instruction, main returns 0 with the one record and the four bytes of the first file; the
directive and the instruction of the second file are not there. -/
theorem second_file_not_processed :
    (match main 36 104
        [⟨"a.s".toList, some ["__export .text".toList, "scall".toList]⟩,
         ⟨"b.s".toList, some ["__export .data".toList, "sbreak".toList]⟩] State.fresh with
      | .ok v s => (v.1, s.kRecords.map (fun r => r.fKind), s.kBytes)
      | _ => (1, [], [])) = (0, [kPefCode], [0x73, 0x00, 0x02, 0]) := by
  decide

/-! ## Operand-count errors (C21) -/

/-- On a line where a single table entry is found, masm_read_instr is the turn of
that entry. -/
theorem read_instr_single (line file : Str) (op : NCOpcode) (st : State)
    (hop : op ∈ kOpcodesStd) (hfound : find_word line op.fName = true)
    (hother : ∀ o ∈ kOpcodesStd, o.fName ≠ op.fName → find_word line o.fName = false) :
    masm_read_instr line file st = read_instr_entry line file op st := by
  rw [masm_read_instr, read_instr_loop_filter,
    filter_only_name _ op.fName _ hfound hother, table_names_unique op hop]
  simp only [read_instr_loop]
  cases read_instr_entry line file op st <;> simp [Res.bind]

/-- The turn of a register-to-register entry found in the line, while the error
counter is within the limit. -/
theorem read_instr_entry_regtoreg (line file : Str) (op : NCOpcode) (st : State)
    (hop : op ∈ kOpcodesStd) (hclass : op.fFunct7 = kAsmRegToReg)
    (hfound : find_word line op.fName = true) (herr : st.kAcceptableErrors ≤ 10) :
    read_instr_entry line file op st =
      .ok () { st with
        kBytes := st.kBytes ++ [op.fOpcode, op.fFunct3, op.fFunct7] ++
          registers_found line ++ [0],
        kAcceptableErrors :=
          st.kAcceptableErrors + (if (registers_found line).length ≤ 1 then 1 else 0) } := by
  obtain ⟨hfive, hjb, hpsh, hpop⟩ := regtoreg_names op hop hclass
  have hcl : op.fFunct7 = kAsmRegToReg ∨ op.fFunct7 = kAsmImmediate := Or.inl hclass
  simp only [read_instr_entry, hfound, if_true, if_pos hcl, register_scan_eq]
  rw [hclass, register_checks_regtoreg line file op.fName (registers_found line).length
    { st with kBytes := st.kBytes ++ [op.fOpcode, op.fFunct3, kAsmRegToReg] ++
        registers_found line } hpsh hpop herr]
  simp only [Res.bind, read_operand, if_neg hfive, if_neg hjb, List.append_assoc]

/-- The turn of a register-to-register entry found in the line with one register found,
when the error counter is already above the limit: the report of the one-register check
exits the process, after the header and the register byte. -/
theorem read_instr_entry_regtoreg_exit (line file : Str) (op : NCOpcode) (st : State)
    (r : Nat) (hclass : op.fFunct7 = kAsmRegToReg)
    (hfound : find_word line op.fName = true) (hone : registers_found line = [r])
    (habove : 11 ≤ st.kAcceptableErrors) :
    read_instr_entry line file op st =
      .exit 3 { st with kBytes := st.kBytes ++ [op.fOpcode, op.fFunct3, op.fFunct7, r] } := by
  have hcl : op.fFunct7 = kAsmRegToReg ∨ op.fFunct7 = kAsmImmediate := Or.inl hclass
  have c1 : kAsmRegToReg ≠ kAsmImmediate ∧ [r].length = 1 := ⟨by decide, rfl⟩
  have hs : 11 ≤ ({ st with kBytes := st.kBytes ++ [op.fOpcode, op.fFunct3, kAsmRegToReg, r] } :
      State).kAcceptableErrors := habove
  simp only [read_instr_entry, hfound, if_true, if_pos hcl, register_scan_eq, hone]
  rw [hclass]
  simp only [register_checks, if_pos c1, print_error_above _ _ _ hs, Res.bind,
    List.append_assoc, List.cons_append, List.nil_append]

/-- C21 fails on the code as it is written for every line and every state.  The line
"mv r5 beq" passes masm_check_line and holds one register name, yet masm_read_instr
reports two errors and appends two encodings (ten bytes), one for mv and one for beq,
the loop over the table having no break; so does "bge r1", in which bg is found as well
as bge.  And with the error counter at 11 the report on "mv r5" exits the process with
status 3 after the header and the register byte: no terminator is appended. -/
theorem one_register_two_entries :
    masm_check_line "mv r5 beq".toList = ([], "mv r5 beq".toList) ∧
    registers_found "mv r5 beq".toList = [5] ∧
    masm_read_instr "mv r5 beq".toList "a.s".toList State.fresh =
      .ok () { State.fresh with
        kBytes := [0x23, 0x05, 0x01, 0x05, 0x00, 0x63, 0x00, 0x01, 0x05, 0x00],
        kAcceptableErrors := 2 } ∧
    masm_read_instr "bge r1".toList "a.s".toList State.fresh =
      .ok () { State.fresh with
        kBytes := [0x63, 0x07, 0x01, 0x01, 0x00, 0x63, 0x05, 0x01, 0x01, 0x00],
        kAcceptableErrors := 2 } ∧
    masm_read_instr "mv r5".toList "a.s".toList { State.fresh with kAcceptableErrors := 11 } =
      .exit 3 { State.fresh with
        kBytes := [0x23, 0x05, 0x01, 0x05], kAcceptableErrors := 11 } := by
  decide

/-- C21 as amended: operand-count errors report and do not stop the encoding, within the
error budget and entry by entry.  For a register-to-register mnemonic of the table found
in the line, when exactly one register name is found, the turn of that entry in the loop
of masm_read_instr returns normally when the error counter is at most 10, adding exactly
one to the counter and appending the three header bytes, the register byte and the zero
terminator; with the counter above 10 the report exits the process with status 3 after
the header and the register byte.  When the line holds no other table mnemonic this turn
is the whole of masm_read_instr. -/
theorem one_register_reported (line file : Str) (op : NCOpcode) (st : State) (r : Nat)
    (hop : op ∈ kOpcodesStd) (hclass : op.fFunct7 = kAsmRegToReg)
    (hfound : find_word line op.fName = true)
    (hone : registers_found line = [r]) :
    (st.kAcceptableErrors ≤ 10 →
      read_instr_entry line file op st =
        .ok () { st with
          kBytes := st.kBytes ++ [op.fOpcode, op.fFunct3, op.fFunct7, r, 0],
          kAcceptableErrors := st.kAcceptableErrors + 1 }) ∧
    (11 ≤ st.kAcceptableErrors →
      read_instr_entry line file op st =
        .exit 3 { st with
          kBytes := st.kBytes ++ [op.fOpcode, op.fFunct3, op.fFunct7, r] }) ∧
    ((∀ o ∈ kOpcodesStd, o.fName ≠ op.fName → find_word line o.fName = false) →
      masm_read_instr line file st = read_instr_entry line file op st) := by
  refine ⟨fun herr => ?_,
    fun habove => read_instr_entry_regtoreg_exit line file op st r hclass hfound hone habove,
    fun hother => read_instr_single line file op st hop hfound hother⟩
  have h := read_instr_entry_regtoreg line file op st hop hclass hfound herr
  rw [hone] at h
  simp only [List.length_singleton, le_refl, if_true, List.append_assoc, List.cons_append,
    List.nil_append] at h
  exact h

/-- The line "mv r5", the only table mnemonic in it being mv: one register, one error,
bytes 0x23 0x05 0x01 0x05 0x00 from the fresh state. -/
theorem one_register_reported_witness :
    ((⟨"mv".toList, 0x23, 0x05, 0x01⟩ : NCOpcode) ∈ kOpcodesStd ∧
      (0x01 : Nat) = kAsmRegToReg ∧ find_word "mv r5".toList "mv".toList = true ∧
      registers_found "mv r5".toList = [5] ∧
      State.fresh.kAcceptableErrors ≤ 10 ∧
      (∀ o ∈ kOpcodesStd, o.fName ≠ "mv".toList → find_word "mv r5".toList o.fName = false)) ∧
    masm_read_instr "mv r5".toList "a.s".toList State.fresh =
      .ok () { State.fresh with
        kBytes := [0x23, 0x05, 0x01, 0x05, 0x00], kAcceptableErrors := 1 } :=
  ⟨⟨by decide, by decide, by decide, by decide, by decide, by decide⟩,
   ((one_register_reported "mv r5".toList "a.s".toList ⟨"mv".toList, 0x23, 0x05, 0x01⟩
     State.fresh 5 (by decide) (by decide) (by decide) (by decide)).2.2 (by decide)).trans
   ((one_register_reported "mv r5".toList "a.s".toList ⟨"mv".toList, 0x23, 0x05, 0x01⟩
     State.fresh 5 (by decide) (by decide) (by decide) (by decide)).1 (by decide))⟩

/-! ## Labels and the number parser (C22) -/

/-- A text that starts with a letter or an underscore holds no decimal number: strtoq
gives 0 and leaves errno alone. -/
theorem strtoq_label (c : Char) (rest : Str) (hc : isalpha c = true ∨ c = '_') :
    strtoq (c :: rest) 10 = (0, false) := by
  have hsp : isspace c = false := by
    rcases hc with h | h
    · simp only [isalpha, Bool.or_eq_true, Bool.and_eq_true, decide_eq_true_eq] at h
      simp only [isspace, Bool.or_eq_false_iff, Bool.and_eq_false_iff, beq_eq_false_iff_ne,
        decide_eq_false_iff_not]
      omega
    · subst h; decide
  have hm : c ≠ '-' := by
    rcases hc with h | h
    · intro e; subst e; revert h; decide
    · subst h; decide
  have hp : c ≠ '+' := by
    rcases hc with h | h
    · intro e; subst e; revert h; decide
    · subst h; decide
  have hd : parse_digits 10 (c :: rest) 0 = 0 := by
    rcases hc with h | h
    · simp only [isalpha, Bool.or_eq_true, Bool.and_eq_true, decide_eq_true_eq] at h
      have hnd : isdigit c = false := by
        simp only [isdigit, Bool.and_eq_false_iff, decide_eq_false_iff_not]
        omega
      by_cases hl : 97 ≤ c.toNat ∧ c.toNat ≤ 122
      · have : ¬ (c.toNat - 97 + 10 < 10) := by omega
        simp [parse_digits, digit_value, hnd, hl, this]
      · have hu : 65 ≤ c.toNat ∧ c.toNat ≤ 90 := by omega
        have : ¬ (c.toNat - 65 + 10 < 10) := by omega
        simp [parse_digits, digit_value, hnd, hl, hu, this]
    · subst h
      have hv : digit_value '_' = none := by decide
      simp [parse_digits, hv]
  have hskip : skip_hex_marker 10 (c :: rest) = c :: rest := by
    unfold skip_hex_marker
    split
    · simp
    · rfl
  simp [strtoq, List.dropWhile, hsp, hm, hp, hskip, hd]

/-- What does hold of labels: a text that starts with a letter or an underscore and whose
second character is neither x nor b is refused by the number parser, in any state, and
the state is left as it was. -/
theorem write_number_label_refused (c : Char) (rest : Str) (st : State)
    (hc : isalpha c = true ∨ c = '_')
    (hx : charAt (c :: rest) 1 ≠ 'x') (hb : charAt (c :: rest) 1 ≠ 'b') :
    masm_write_number 0 (c :: rest) st = .ok false st := by
  have hlen : ¬ (0 + 1 > (c :: rest).length) := by simp
  have hx1 : ¬ charAt (c :: rest) (0 + 1) = 'x' := hx
  have hb1 : ¬ charAt (c :: rest) (0 + 1) = 'b' := hb
  simp only [masm_write_number, if_neg hlen, if_neg hx1, if_neg hb1, substr, List.drop_zero,
    strtoq_label c rest hc, after_strtoq, if_true]
  simp

/-- C22 fails on the code: masm_write_number reads the character at position 1 without a
look at the one at position 0.  The label "ab1" takes the base 2 branch in every state and
is written as the number 1; "abc" and "exit" take the base 2 and base 16 branches and, with
errno clear, are written as the number 0.  So "psh abc" is encoded with 8 literal bytes
and no relocation token, where "psh foo" gets the token. -/
theorem label_parsed_as_number :
    (∀ st : State, masm_write_number 0 "ab1".toList st =
      .ok true { st with kBytes := st.kBytes ++ [1, 0, 0, 0, 0, 0, 0, 0] }) ∧
    masm_write_number 0 "abc".toList State.fresh =
      .ok true { State.fresh with kBytes := [0, 0, 0, 0, 0, 0, 0, 0] } ∧
    masm_write_number 0 "exit".toList State.fresh =
      .ok true { State.fresh with kBytes := [0, 0, 0, 0, 0, 0, 0, 0] } ∧
    masm_read_instr "psh abc".toList "a.s".toList State.fresh =
      .ok () { State.fresh with kBytes :=
        [0x2b, 0x00, 0x00] ++ [0, 0, 0, 0, 0, 0, 0, 0] ++ [0] } ∧
    masm_read_instr "psh ab1".toList "a.s".toList State.fresh =
      .ok () { State.fresh with kBytes :=
        [0x2b, 0x00, 0x00] ++ [1, 0, 0, 0, 0, 0, 0, 0] ++ [0] } ∧
    masm_read_instr "psh foo".toList "a.s".toList State.fresh =
      .ok () { State.fresh with kBytes :=
        [0x2b, 0x00, 0x00] ++ "3:mld_reloc:foo".toList.map byteOf ++ [0] } := by
  refine ⟨fun st => ?_, by decide, by decide, by decide, by decide, by decide⟩
  have h1 : strtoq (substr "ab1".toList (0 + 2)) 2 = (1, false) := by decide
  have h2 : ¬ (0 + 1 > "ab1".toList.length) := by decide
  have h3 : ¬ charAt "ab1".toList (0 + 1) = 'x' := by decide
  have h4 : charAt "ab1".toList (0 + 1) = 'b' := by decide
  have h5 : number_bytes 1 = [1, 0, 0, 0, 0, 0, 0, 0] := by decide
  have h6 : ¬ ((1 : Int) = 0 ∧ st.errno ≠ 0) := by simp
  simp only [masm_write_number, if_neg h2, if_neg h3, if_pos h4, h1, after_strtoq, h5,
    if_neg h6, Bool.false_eq_true, if_false]

/-! ## Order and multiplicity of register operands (C23) -/

theorem to_string_isdigit (n : Nat) : ∀ c ∈ to_string n, isdigit c = true := by
  intro c hc
  obtain ⟨d, hd, rfl⟩ := (toDigits_numeral 10 n (by omega) (by omega)).2.1 c hc
  have : ∀ d, d < 10 → isdigit (Nat.digitChar d) = true := by decide
  exact this d hd

theorem find_word_occurs (h n : Str) : find_word h n = true ↔ n <:+: h := by
  constructor
  · intro hf
    obtain ⟨pre, post, e⟩ := str_find_infix_of_isSome n h hf
    exact ⟨pre, post, e.symm⟩
  · rintro ⟨pre, post, e⟩
    rw [← e]
    exact str_find_isSome_of_infix n post pre

theorem skip_char_before (c : Char) (D : Str) (x : Char) (t : Str) (hx : x ≠ c) :
    (c :: D) <:+: (x :: t) ↔ (c :: D) <:+: t := by
  rw [List.infix_cons_iff]
  constructor
  · rintro (h | h)
    · exact absurd (List.cons_prefix_cons.mp h).1.symm hx
    · exact h
  · exact Or.inr

theorem skip_chars_before (c : Char) (D rest : Str) :
    ∀ A : Str, (∀ x ∈ A, x ≠ c) → ((c :: D) <:+: (A ++ rest) ↔ (c :: D) <:+: rest) := by
  intro A
  induction A with
  | nil => intro _; simp
  | cons x A ih =>
    intro hA
    rw [List.cons_append, skip_char_before c D x _ (hA x (by simp)),
      ih (fun y hy => hA y (by simp [hy]))]

theorem digits_stop_at (x : Char) (t : Str) :
    ∀ D A : Str, (∀ c ∈ D, c ≠ x) → (D <+: A ++ x :: t ↔ D <+: A) := by
  intro D
  induction D with
  | nil => intro A _; simp
  | cons d D ih =>
    intro A hD
    cases A with
    | nil =>
      simp only [List.nil_append, List.cons_prefix_cons, List.prefix_nil]
      constructor
      · intro h; exact absurd h.1 (hD d (by simp))
      · intro h; exact absurd h (by simp)
    | cons a A =>
      rw [List.cons_append, List.cons_prefix_cons, List.cons_prefix_cons,
        ih A (fun c hc => hD c (by simp [hc]))]

/-- A register name is found in "mv r<a>, r<b>" exactly when its digits are a prefix of
the digits of a or of b. -/
theorem find_word_mv_line (a b i : Nat) :
    find_word (mv_line a b) (kAsmRegisterPrefix ++ to_string i) =
      ((to_string i).isPrefixOf (to_string a) || (to_string i).isPrefixOf (to_string b)) := by
  have hdig : ∀ ch : Char, isdigit ch = true → ch ≠ 'r' ∧ ch ≠ ',' := by
    intro ch h
    constructor
    · intro e; subst e; revert h; decide
    · intro e; subst e; revert h; decide
  have hDc : ∀ c ∈ to_string i, c ≠ ',' := fun c hc => (hdig c (to_string_isdigit i c hc)).2
  have hAr : ∀ c ∈ to_string a, c ≠ 'r' := fun c hc => (hdig c (to_string_isdigit a c hc)).1
  have hBr : ∀ c ∈ to_string b, c ≠ 'r' := fun c hc => (hdig c (to_string_isdigit b c hc)).1
  have hshape : mv_line a b =
      'm' :: 'v' :: ' ' :: 'r' :: (to_string a ++ ',' :: ' ' :: 'r' :: to_string b) := by
    simp [mv_line]
  have hneedle : kAsmRegisterPrefix ++ to_string i = 'r' :: to_string i := rfl
  have hB0 : ¬ ('r' :: to_string i) <:+: to_string b := by
    have h := skip_chars_before 'r' (to_string i) [] (to_string b) hBr
    rw [List.append_nil] at h
    rw [h]
    simp
  have key : ('r' :: to_string i) <:+: mv_line a b ↔
      (to_string i <+: to_string a ∨ to_string i <+: to_string b) := by
    rw [hshape, skip_char_before _ _ 'm' _ (by decide), skip_char_before _ _ 'v' _ (by decide),
      skip_char_before _ _ ' ' _ (by decide), List.infix_cons_iff, List.cons_prefix_cons,
      digits_stop_at ',' _ _ _ hDc, skip_chars_before 'r' _ _ _ hAr,
      skip_char_before _ _ ',' _ (by decide), skip_char_before _ _ ' ' _ (by decide),
      List.infix_cons_iff, List.cons_prefix_cons]
    simp [hB0]
  rw [hneedle, Bool.eq_iff_iff, find_word_occurs, key]
  simp [List.isPrefixOf_iff_prefix]

/-- The registers found in "mv r<a>, r<b>", by the decimal texts of a and b. -/
theorem registers_found_mv_line (a b : Nat) :
    registers_found (mv_line a b) = registers_by_text a b := by
  unfold registers_found registers_by_text
  exact List.filter_congr fun i _ => find_word_mv_line a b i

theorem registers_by_text_comm (a b : Nat) : registers_by_text a b = registers_by_text b a := by
  unfold registers_by_text
  exact List.filter_congr fun i _ => Bool.or_comm _ _

theorem mv_line_chars (a b : Nat) :
    ∀ c ∈ mv_line a b, c ∈ "mv r,".toList ∨ isdigit c = true := by
  intro c hc
  simp only [mv_line, List.mem_append] at hc
  rcases hc with ((h | h) | h) | h
  · left; revert h; revert c; decide
  · right; exact to_string_isdigit a c h
  · left; revert h; revert c; decide
  · right; exact to_string_isdigit b c h

/-- The only mnemonic of the table found in "mv r<a>, r<b>" is mv. -/
theorem mv_line_only_mv (a b : Nat) :
    find_word (mv_line a b) "mv".toList = true ∧
    ∀ o ∈ kOpcodesStd, o.fName ≠ "mv".toList → find_word (mv_line a b) o.fName = false := by
  constructor
  · rw [find_word_occurs]
    exact ⟨[], " r".toList ++ to_string a ++ ", r".toList ++ to_string b, by simp [mv_line]⟩
  · have key : ∀ o ∈ kOpcodesStd, o.fName ≠ "mv".toList →
        ∃ c ∈ o.fName, c ∉ "mv r,".toList ∧ isdigit c = false := by decide
    intro o ho hne
    obtain ⟨c, hc, hn1, hn2⟩ := key o ho hne
    by_contra hf
    rw [Bool.not_eq_false, find_word_occurs] at hf
    rcases mv_line_chars a b c (hf.subset hc) with h | h
    · exact hn1 h
    · rw [hn2] at h; exact absurd h (by decide)

/-- The operand-count checks use the line in their messages only. -/
theorem register_checks_line (l1 l2 file name : Str) (f k : Nat) (s : State) :
    register_checks l1 file name f k s = register_checks l2 file name f k s := by
  simp only [register_checks, print_error]

/-- The turn of an entry that takes no operand text depends on the line through the
registers found in it only. -/
theorem read_instr_entry_registers (l1 l2 file : Str) (op : NCOpcode) (st : State)
    (h1 : find_word l1 op.fName = true) (h2 : find_word l2 op.fName = true)
    (hreg : registers_found l1 = registers_found l2)
    (hfive : ¬ (op.fName = "psh".toList ∨ op.fName = "jb".toList ∨ op.fName = "stw".toList ∨
        op.fName = "ldw".toList ∨ op.fName = "lda".toList))
    (hjb : op.fName ≠ "jb".toList) :
    read_instr_entry l1 file op st = read_instr_entry l2 file op st := by
  simp only [read_instr_entry, h1, h2, if_true, register_scan_eq, hreg, read_operand,
    if_neg hfive, if_neg hjb, register_checks_line l1 l2]

theorem registers_found_sorted (line : Str) :
    (registers_found line).Pairwise (· < ·) :=
  (List.pairwise_lt_range kAsmRegisterLimit).filter _

theorem registers_by_text_same :
    ∀ a < 35, registers_by_text a a = if a ≤ 9 then [a] else [a / 10, a] := by
  decide

/-- C23 fails on the code for the indices of two digits: in "mv r12, r12" the text r1 is
found as well as r12, so two register bytes (1 and 12) are appended and no error is
reported. -/
theorem same_register_two_bytes :
    mv_line 12 12 = "mv r12, r12".toList ∧
    masm_read_instr "mv r12, r12".toList "a.s".toList State.fresh =
      .ok () { State.fresh with kBytes := [0x23, 0x05, 0x01, 1, 12, 0] } := by
  decide

/-- C23 as amended: the register bytes of a line come in ascending order of index with
no index twice; the lines "mv r<a>, r<b>" and "mv r<b>, r<a>" have the same effect in
every state, for all a and b; and while the error counter is within the limit
"mv r<a>, r<a>" appends the header, one register byte and the terminator with one error
when a is at most 9, and for a from 10 to 34 two register bytes (a / 10, then a) with no
error. -/
theorem register_order_independent (a b : Nat) (file : Str) (st : State) :
    (registers_found (mv_line a b)).Pairwise (· < ·) ∧
    masm_read_instr (mv_line a b) file st = masm_read_instr (mv_line b a) file st ∧
    (a < 35 → st.kAcceptableErrors ≤ 10 →
      masm_read_instr (mv_line a a) file st =
        .ok () { st with
          kBytes := st.kBytes ++ [0x23, 0x05, 0x01] ++
            (if a ≤ 9 then [a] else [a / 10, a]) ++ [0],
          kAcceptableErrors := st.kAcceptableErrors + (if a ≤ 9 then 1 else 0) }) := by
  have hmv : (⟨"mv".toList, 0x23, 0x05, kAsmRegToReg⟩ : NCOpcode) ∈ kOpcodesStd := by decide
  have hfive : ¬ ("mv".toList = "psh".toList ∨ "mv".toList = "jb".toList ∨
      "mv".toList = "stw".toList ∨ "mv".toList = "ldw".toList ∨
      "mv".toList = "lda".toList) := by decide
  have hjb : "mv".toList ≠ "jb".toList := by decide
  refine ⟨registers_found_sorted _, ?_, ?_⟩
  · rw [read_instr_single _ file _ st hmv (mv_line_only_mv a b).1 (mv_line_only_mv a b).2,
      read_instr_single _ file _ st hmv (mv_line_only_mv b a).1 (mv_line_only_mv b a).2]
    exact read_instr_entry_registers _ _ file _ st (mv_line_only_mv a b).1
      (mv_line_only_mv b a).1
      (by rw [registers_found_mv_line, registers_found_mv_line, registers_by_text_comm])
      hfive hjb
  · intro ha herr
    rw [read_instr_single _ file _ st hmv (mv_line_only_mv a a).1 (mv_line_only_mv a a).2,
      read_instr_entry_regtoreg _ file _ st hmv rfl (mv_line_only_mv a a).1 herr,
      registers_found_mv_line, registers_by_text_same a ha]
    by_cases h9 : a ≤ 9
    · simp [h9, kAsmRegToReg]
    · simp [h9, kAsmRegToReg]

/-- The amended claim at a = 3 and b = 12, from the fresh state. -/
theorem register_order_independent_witness :
    ((3 : Nat) < 35 ∧ State.fresh.kAcceptableErrors ≤ 10) ∧
    masm_read_instr "mv r3, r12".toList "a.s".toList State.fresh =
      masm_read_instr "mv r12, r3".toList "a.s".toList State.fresh ∧
    masm_read_instr "mv r3, r3".toList "a.s".toList State.fresh =
      .ok () { State.fresh with
        kBytes := [0x23, 0x05, 0x01, 3, 0], kAcceptableErrors := 1 } :=
  ⟨⟨by decide, by decide⟩,
   (register_order_independent 3 12 "a.s".toList State.fresh).2.1,
   (register_order_independent 3 12 "a.s".toList State.fresh).2.2 (by decide) (by decide)⟩

/-! ## The mnemonic pop (C24) -/

theorem read_operand_eq (line name : Str) (st : State)
    (h : name = "psh".toList ∨ name = "jb".toList ∨ name = "stw".toList ∨
      name = "ldw".toList ∨ name = "lda".toList) :
    read_operand line name st =
      (masm_write_number 0 (operand_label line name) st).bind fun written s =>
        if !written then masm_write_label (operand_copy line name) s
        else if name = "jb".toList then masm_write_label (operand_copy line name) s
        else .ok () s := by
  simp only [read_operand, if_pos h]
  rfl

/-- The comma loop on a label that holds a comma: whatever the error counter, with fuel
for twelve turns it ends in the exit of print_error, status 3. -/
theorem comma_loop_exit (cpy : Str) (hc : ',' ∈ cpy) :
    ∀ (fuel : Nat) (st : State), 1 ≤ fuel → 12 ≤ fuel + st.kAcceptableErrors →
      comma_loop cpy fuel st =
        .exit 3 { st with kAcceptableErrors := max st.kAcceptableErrors 11 } := by
  have hf : (str_find cpy [',']).isSome = true := (str_find_char_isSome ',' cpy).2 hc
  intro fuel
  induction fuel with
  | zero => intro st h; omega
  | succ n ih =>
    intro st _ h12
    rcases Nat.lt_or_ge st.kAcceptableErrors 11 with hlt | hge
    · have hb := print_error_below "internal assembler error".toList "masm".toList st
        (by omega)
      have e1 : max (st.kAcceptableErrors + 1) 11 = 11 := by omega
      have e2 : max st.kAcceptableErrors 11 = 11 := by omega
      simp only [comma_loop, hf, if_true, hb, Res.bind]
      rw [ih { st with kAcceptableErrors := st.kAcceptableErrors + 1 } (by omega)
        (by show 12 ≤ n + (st.kAcceptableErrors + 1); omega)]
      simp only [e1, e2]
    · have ha := print_error_above "internal assembler error".toList "masm".toList st hge
      have e2 : max st.kAcceptableErrors 11 = st.kAcceptableErrors := by omega
      simp only [comma_loop, hf, if_true, ha, Res.bind, e2]

/-- The label block on a copy that keeps a comma: exit with status 3 in every state, no
byte appended. -/
theorem write_label_comma_exit (cpy : Str) (st : State) (hc : ',' ∈ stripped_label cpy) :
    masm_write_label cpy st =
      .exit 3 { st with kAcceptableErrors := max st.kAcceptableErrors 11 } := by
  have h := comma_loop_exit _ hc (kErrorLimit + 2) st (by simp [kErrorLimit])
    (by simp [kErrorLimit])
  simp only [stripped_label] at h
  simp only [masm_write_label, h, Res.bind]

theorem ErrOutcome_ok (s : State) : ErrOutcome s (.ok () s) :=
  ⟨s.kAcceptableErrors, Or.inl rfl⟩

theorem ErrOutcome_print (reason file : Str) (s : State) :
    ErrOutcome s (print_error reason file s) := by
  rcases Nat.lt_or_ge s.kAcceptableErrors 11 with hlt | hge
  · exact ⟨s.kAcceptableErrors + 1, Or.inl (print_error_below reason file s (by omega))⟩
  · exact ⟨s.kAcceptableErrors, Or.inr ⟨print_error_above reason file s hge, hge⟩⟩

theorem ErrOutcome_bind (s : State) (r : Res Unit) (f : State → Res Unit)
    (hr : ErrOutcome s r) (hf : ∀ n, ErrOutcome { s with kAcceptableErrors := n }
      (f { s with kAcceptableErrors := n })) :
    ErrOutcome s (r.bind fun _ s1 => f s1) := by
  obtain ⟨n, h | ⟨h, hn⟩⟩ := hr
  · rw [h]
    obtain ⟨m, hm | ⟨hm, h11⟩⟩ := hf n
    · exact ⟨m, Or.inl hm⟩
    · exact ⟨m, Or.inr ⟨hm, h11⟩⟩
  · rw [h]
    exact ⟨n, Or.inr ⟨rfl, hn⟩⟩

theorem register_checks_outcome (line file name : Str) (f k : Nat) (s : State) :
    ErrOutcome s (register_checks line file name f k s) := by
  unfold register_checks
  refine ErrOutcome_bind s _ _ ?_ fun n => ErrOutcome_bind _ _ _ ?_ fun m => ?_
  · split_ifs
    · exact ErrOutcome_print _ _ _
    · exact ErrOutcome_ok _
  · split_ifs
    · exact ErrOutcome_print _ _ _
    · exact ErrOutcome_ok _
  · split_ifs
    · exact ErrOutcome_print _ _ _
    · exact ErrOutcome_ok _

/-- The number parser on a text that is not empty returns, and what it appends is
nothing or the 8 bytes of a number; the error counter is left alone. -/
theorem write_number_total (lbl : Str) (s : State) (hne : lbl ≠ []) :
    ∃ b s1 num, masm_write_number 0 lbl s = .ok b s1 ∧ s1.kBytes = s.kBytes ++ num ∧
      s1.kAcceptableErrors = s.kAcceptableErrors ∧
      (num = [] ∨ ∃ v, num = number_bytes v) := by
  have hlen : ¬ (0 + 1 > lbl.length) := by
    cases lbl with
    | nil => exact absurd rfl hne
    | cons c t => simp
  have hafter : ∀ (r : Int × Bool) (t : State),
      (after_strtoq r t).kBytes = t.kBytes ∧
        (after_strtoq r t).kAcceptableErrors = t.kAcceptableErrors := by
    intro r t
    unfold after_strtoq
    split_ifs <;> exact ⟨rfl, rfl⟩
  have hfalse : ∀ r : Int × Bool, ∃ b s1 num, (Res.ok false (after_strtoq r s) : Res Bool) =
      .ok b s1 ∧ s1.kBytes = s.kBytes ++ num ∧
      s1.kAcceptableErrors = s.kAcceptableErrors ∧ (num = [] ∨ ∃ v, num = number_bytes v) :=
    fun r => ⟨false, _, [], rfl, by simp [(hafter r s).1], (hafter r s).2, Or.inl rfl⟩
  have htrue : ∀ (r q : Int × Bool), ∃ b s1 num,
      (Res.ok true { after_strtoq q (after_strtoq r s) with
        kBytes := (after_strtoq q (after_strtoq r s)).kBytes ++ number_bytes q.1 } :
          Res Bool) = .ok b s1 ∧ s1.kBytes = s.kBytes ++ num ∧
      s1.kAcceptableErrors = s.kAcceptableErrors ∧ (num = [] ∨ ∃ v, num = number_bytes v) :=
    fun r q => ⟨true, _, number_bytes q.1, rfl,
      by simp only [(hafter q _).1, (hafter r s).1],
      by simp only [(hafter q _).2, (hafter r s).2], Or.inr ⟨_, rfl⟩⟩
  by_cases hx : charAt lbl (0 + 1) = 'x'
  · by_cases h0 : (strtoq (substr lbl (0 + 2)) 2).1 = 0 ∧
        (after_strtoq (strtoq (substr lbl (0 + 2)) 2) s).errno ≠ 0
    · simp only [masm_write_number, if_neg hlen, if_pos hx, if_pos h0]
      exact hfalse _
    · simp only [masm_write_number, if_neg hlen, if_pos hx, if_neg h0]
      exact htrue _ _
  · by_cases hb : charAt lbl (0 + 1) = 'b'
    · by_cases h0 : (strtoq (substr lbl (0 + 2)) 2).1 = 0 ∧
          (after_strtoq (strtoq (substr lbl (0 + 2)) 2) s).errno ≠ 0
      · simp only [masm_write_number, if_neg hlen, if_neg hx, if_pos hb, if_pos h0]
        exact hfalse _
      · simp only [masm_write_number, if_neg hlen, if_neg hx, if_pos hb, if_neg h0]
        exact htrue _ _
    · by_cases h0 : (strtoq (substr lbl 0) 10).1 = 0
      · simp only [masm_write_number, if_neg hlen, if_neg hx, if_neg hb, if_pos h0]
        exact hfalse _
      · simp only [masm_write_number, if_neg hlen, if_neg hx, if_neg hb, if_neg h0]
        exact htrue _ _

theorem mem_str_erase (c : Char) (s : Str) (i n : Nat) (h : c ∈ str_erase s i n) : c ∈ s := by
  unfold str_erase at h
  rcases List.mem_append.1 h with h | h
  · exact List.mem_of_mem_take h
  · exact List.mem_of_mem_drop h

/-- A comma left in the stripped label was in the copy handed to the label block. -/
theorem comma_of_stripped (cpy : Str) (h : ',' ∈ stripped_label cpy) : ',' ∈ cpy := by
  unfold stripped_label at h
  simp only [erase_all_eq_filter] at h
  have h2 := List.mem_of_mem_filter h
  have h1 : ',' ∈ (match str_find cpy ['\n'] with
      | some i => str_erase cpy i 1
      | none => cpy) := by
    revert h2
    split
    · exact mem_str_erase _ _ _ _
    · exact id
  revert h1
  split
  · exact mem_str_erase _ _ _ _
  · exact id

/-- The loop that strips spaces keeps every comma. -/
theorem strip_label_loop_comma : ∀ (fuel : Nat) (s : Str), ',' ∈ s →
    ',' ∈ strip_label_loop fuel s := by
  intro fuel
  induction fuel with
  | zero => intro s h; exact h
  | succ n ih =>
    intro s h
    unfold strip_label_loop
    split
    · exact h
    · rename_i i hi
      split_ifs
      · exact h
      · apply ih
        obtain ⟨pre, post, rfl, -, rfl⟩ := str_find_char_some ' ' s i hi
        have he : str_erase (pre ++ ' ' :: post) pre.length 1 = pre ++ post := by
          simp [str_erase]
        rw [he]
        simp only [List.mem_append, List.mem_cons] at h ⊢
        rcases h with h | h | h
        · exact Or.inl h
        · exact absurd h (by decide)
        · exact Or.inr h

theorem operand_label_ne_nil (line name : Str)
    (h : ',' ∈ stripped_label (operand_copy line name)) : operand_label line name ≠ [] := by
  have hc := comma_of_stripped _ h
  have : ',' ∈ operand_label line name := by
    unfold operand_label
    split_ifs
    · exact strip_label_loop_comma _ _ hc
    · exact hc
  intro e
  rw [e] at this
  exact absurd this (by simp)

/-- The operand part of the loop body when the label block is reached and the stripped
label holds a comma: the process exits with status 3, and all that is appended is what
the number parser wrote. -/
theorem operand_phase_exit (line name : Str) (s2 : State)
    (hname : name = "psh".toList ∨ name = "jb".toList ∨ name = "stw".toList ∨
      name = "ldw".toList ∨ name = "lda".toList)
    (hreach : name = "jb".toList ∨ ∀ s : State, s.errno = s2.errno →
      masm_write_number 0 (operand_label line name) s = .ok false s)
    (hcomma : ',' ∈ stripped_label (operand_copy line name)) :
    ∃ s3 num, read_operand line name s2 = .exit 3 s3 ∧ 11 ≤ s3.kAcceptableErrors ∧
      s3.kBytes = s2.kBytes ++ num ∧
      (num = [] ∨ (name = "jb".toList ∧ ∃ v, num = number_bytes v)) := by
  rw [read_operand_eq line name s2 hname]
  rcases hreach with hjb | hrej
  · obtain ⟨b, s1, num, hw, hbytes, -, hnum⟩ :=
      write_number_total (operand_label line name) s2 (operand_label_ne_nil line name hcomma)
    refine ⟨{ s1 with kAcceptableErrors := max s1.kAcceptableErrors 11 }, num, ?_, ?_, hbytes,
      ?_⟩
    · rw [hw]
      simp only [Res.bind, if_pos hjb, ite_self]
      exact write_label_comma_exit _ s1 hcomma
    · exact le_max_right _ _
    · rcases hnum with h | h
      · exact Or.inl h
      · exact Or.inr ⟨hjb, h⟩
  · refine ⟨{ s2 with kAcceptableErrors := max s2.kAcceptableErrors 11 }, [], ?_, ?_, ?_,
      Or.inl rfl⟩
    · rw [hrej s2 rfl]
      simp only [Res.bind, Bool.not_false, if_true]
      exact write_label_comma_exit _ s2 hcomma
    · exact le_max_right _ _
    · simp

/-- The loop body after the header, once the register checks are done: with the label
block reached on a stripped label that holds a comma, the process exits with status 3
whether the exit comes from a register check or from the comma loop. -/
theorem entry_tail_exit (line name : Str) (st sA : State) (rA : Res Unit)
    (hname : name = "psh".toList ∨ name = "jb".toList ∨ name = "stw".toList ∨
      name = "ldw".toList ∨ name = "lda".toList)
    (hreach : name = "jb".toList ∨ ∀ s : State, s.errno = st.errno →
      masm_write_number 0 (operand_label line name) s = .ok false s)
    (hcomma : ',' ∈ stripped_label (operand_copy line name))
    (hA : ErrOutcome sA rA) (herrno : sA.errno = st.errno) :
    ∃ s1 num,
      (rA.bind fun _ s2 => (read_operand line name s2).bind fun _ s3 =>
        .ok () { s3 with kBytes := s3.kBytes ++ [0] }) = .exit 3 s1 ∧
      11 ≤ s1.kAcceptableErrors ∧ s1.kBytes = sA.kBytes ++ num ∧
      (num = [] ∨ (name = "jb".toList ∧ ∃ v, num = number_bytes v)) := by
  obtain ⟨n, h | ⟨h, hn⟩⟩ := hA
  · have hreach2 : name = "jb".toList ∨
        ∀ s : State, s.errno = ({ sA with kAcceptableErrors := n } : State).errno →
          masm_write_number 0 (operand_label line name) s = .ok false s := by
      rcases hreach with hj | hr
      · exact Or.inl hj
      · exact Or.inr fun s hs => hr s (hs.trans herrno)
    obtain ⟨s3, num, h3, h11, hb, hnum⟩ :=
      operand_phase_exit line name { sA with kAcceptableErrors := n } hname hreach2 hcomma
    refine ⟨s3, num, ?_, h11, hb, hnum⟩
    rw [h]
    simp only [Res.bind, h3]
  · refine ⟨{ sA with kAcceptableErrors := n }, [], ?_, hn, by simp, Or.inl rfl⟩
    rw [h]
    simp only [Res.bind]

/-- C27: a comma that survives into a label is fatal.  Take a line whose only table
mnemonic is one of psh, jb, stw, ldw, lda, on which the label block is reached (the
mnemonic is jb, or the number parser refuses the operand) and whose operand copy still
holds a comma once the newline, __import and the spaces are erased.  Then in every state,
whatever the error counter, masm_read_instr does not return: the process exits with
status 3, the counter above the limit, and the code buffer holds the header, the
register bytes and, for jb only, what the number parser wrote: no relocation token and no
terminator. -/
theorem comma_in_label_fatal (line file : Str) (op : NCOpcode) (st : State)
    (hop : op ∈ kOpcodesStd)
    (hname : op.fName = "psh".toList ∨ op.fName = "jb".toList ∨ op.fName = "stw".toList ∨
      op.fName = "ldw".toList ∨ op.fName = "lda".toList)
    (hfound : find_word line op.fName = true)
    (hother : ∀ o ∈ kOpcodesStd, o.fName ≠ op.fName → find_word line o.fName = false)
    (hreach : op.fName = "jb".toList ∨ ∀ s : State, s.errno = st.errno →
      masm_write_number 0 (operand_label line op.fName) s = .ok false s)
    (hcomma : ',' ∈ stripped_label (operand_copy line op.fName)) :
    ∃ s1 num, masm_read_instr line file st = .exit 3 s1 ∧ 11 ≤ s1.kAcceptableErrors ∧
      s1.kBytes = st.kBytes ++ [op.fOpcode, op.fFunct3, op.fFunct7] ++
        (if op.fFunct7 = kAsmRegToReg ∨ op.fFunct7 = kAsmImmediate then registers_found line
          else []) ++ num ∧
      (num = [] ∨ (op.fName = "jb".toList ∧ ∃ v, num = number_bytes v)) := by
  rw [read_instr_single line file op st hop hfound hother]
  simp only [read_instr_entry, hfound, if_true]
  by_cases hcl : op.fFunct7 = kAsmRegToReg ∨ op.fFunct7 = kAsmImmediate
  · simp only [if_pos hcl, register_scan_eq]
    exact entry_tail_exit line op.fName st _ _ hname hreach hcomma
      (register_checks_outcome line file op.fName op.fFunct7 _ _) rfl
  · simp only [if_neg hcl, List.append_nil]
    exact entry_tail_exit line op.fName st _ _ hname hreach hcomma (ErrOutcome_ok _) rfl

/-- The line "ldw r1, r2, foo": it passes masm_check_line, its operand copy is
" r2, foo", refused by the number parser, and the stripped label "r2,foo" holds a comma. -/
theorem comma_in_label_fatal_witness :
    (masm_check_line "ldw r1, r2, foo".toList = ([], "ldw r1, r2, foo".toList) ∧
      (⟨"ldw".toList, 0x03, 0x04, kAsmImmediate⟩ : NCOpcode) ∈ kOpcodesStd ∧
      find_word "ldw r1, r2, foo".toList "ldw".toList = true ∧
      (∀ o ∈ kOpcodesStd, o.fName ≠ "ldw".toList →
        find_word "ldw r1, r2, foo".toList o.fName = false) ∧
      operand_label "ldw r1, r2, foo".toList "ldw".toList = "r2, foo".toList ∧
      stripped_label (operand_copy "ldw r1, r2, foo".toList "ldw".toList) =
        "r2,foo".toList) ∧
    ∃ s1 num, masm_read_instr "ldw r1, r2, foo".toList "a.s".toList State.fresh =
        .exit 3 s1 ∧ 11 ≤ s1.kAcceptableErrors ∧
      s1.kBytes = State.fresh.kBytes ++ [0x03, 0x04, kAsmImmediate] ++
        (if kAsmImmediate = kAsmRegToReg ∨ kAsmImmediate = kAsmImmediate then
          registers_found "ldw r1, r2, foo".toList else []) ++ num ∧
      (num = [] ∨ ("ldw".toList = "jb".toList ∧ ∃ v, num = number_bytes v)) :=
  ⟨⟨by decide, by decide, by decide, by decide, by decide, by decide⟩,
   comma_in_label_fatal "ldw r1, r2, foo".toList "a.s".toList
     ⟨"ldw".toList, 0x03, 0x04, kAsmImmediate⟩ State.fresh (by decide) (by decide) (by decide)
     (by decide)
     (Or.inr fun s _ =>
       write_number_label_refused 'r' "2, foo".toList s (by decide) (by decide) (by decide))
     (by decide)⟩

/-- The line "ldw r1, r2, foo" in every state: exit with status 3 after the header and
the two register bytes, the error counter raised to 11 when it was below. -/
theorem comma_line_every_state (file : Str) (st : State) :
    masm_read_instr "ldw r1, r2, foo".toList file st =
      .exit 3 { st with
        kBytes := st.kBytes ++ [0x03, 0x04, 0x00, 1, 2],
        kAcceptableErrors := max st.kAcceptableErrors 11 } := by
  have hop : (⟨"ldw".toList, 0x03, 0x04, kAsmImmediate⟩ : NCOpcode) ∈ kOpcodesStd := by
    decide
  have hreg : registers_found "ldw r1, r2, foo".toList = [1, 2] := by decide
  have hcl : kAsmImmediate = kAsmRegToReg ∨ kAsmImmediate = kAsmImmediate := Or.inr rfl
  have c1 : ¬ (kAsmImmediate ≠ kAsmImmediate ∧ [1, 2].length = 1) := by decide
  have c2 : ¬ ([1, 2].length < 1 ∧ "ldw".toList ≠ "psh".toList) := by decide
  have c3 : ¬ ([1, 2].length > 0 ∧ "ldw".toList = "pop".toList) := by decide
  have hlbl : operand_label "ldw r1, r2, foo".toList "ldw".toList = 'r' :: "2, foo".toList := by
    decide
  have hcomma : ',' ∈ stripped_label (operand_copy "ldw r1, r2, foo".toList "ldw".toList) := by
    decide
  rw [read_instr_single _ file ⟨"ldw".toList, 0x03, 0x04, kAsmImmediate⟩ st hop (by decide)
    (by decide)]
  simp only [read_instr_entry, if_pos hcl, register_scan_eq, hreg, register_checks, if_neg c1,
    if_neg c2, if_neg c3, Res.bind, or_true, if_true]
  rw [if_pos (by decide), read_operand_eq _ _ _ (by decide), hlbl,
    write_number_label_refused 'r' "2, foo".toList _ (by decide) (by decide) (by decide)]
  simp only [Res.bind, Bool.not_false, if_true]
  rw [write_label_comma_exit _ _ hcomma]
  simp [kAsmImmediate]

/-! ## The effect of a line on the records and on the code buffer (C25, C26) -/

/-- The opcode loop only appends to the code buffer. -/
theorem read_instr_loop_bytes (line file : Str) :
    ∀ (ops : List NCOpcode) (s s1 : State), read_instr_loop line file ops s = .ok () s1 →
      s.kBytes <+: s1.kBytes := by
  intro ops
  induction ops with
  | nil => intro s s1 h; cases h; exact List.prefix_refl _
  | cons op ops ih =>
    intro s s1 h
    simp only [read_instr_loop] at h
    cases he : read_instr_entry line file op s with
    | ok u a =>
      rw [he] at h
      simp only [Res.bind] at h
      refine List.IsPrefix.trans ?_ (ih _ _ h)
      cases hf : find_word line op.fName with
      | true =>
        obtain ⟨mid, hm⟩ := read_instr_entry_bytes line file op s a hf he
        rw [hm, List.append_assoc, List.append_assoc]
        exact List.prefix_append _ _
      | false =>
        rw [read_instr_entry_skip line file op s hf] at he
        cases he
        exact List.prefix_refl _
    | exit c a => rw [he] at h; simp [Res.bind] at h
    | undef => rw [he] at h; simp [Res.bind] at h
    | stuck => rw [he] at h; simp [Res.bind] at h

/-- The directive handler leaves the code buffer and the undefined-symbol list alone; it
leaves the state as it is on a line with no directive, and on a line with one it
back-fills the size of the last record and pushes one record. -/
theorem check_export_effect (line : Str) (s s1 : State)
    (h : masm_check_export line s = .ok () s1) :
    s1.kBytes = s.kBytes ∧ s1.kUndefinedSymbols = s.kUndefinedSymbols ∧
    (((find_word line "__import".toList || find_word line "__export".toList) = false ∧
        s1.kRecords = s.kRecords) ∨
      ((find_word line "__import".toList || find_word line "__export".toList) = true ∧
        ∃ cur, s1.kRecords = (if s.kRecords.isEmpty then s.kRecords
          else set_last_size s.kRecords s.kBytes.length) ++ [cur])) := by
  have hpush : ∀ kind stored, push_record kind stored s = .ok () s1 →
      s1.kBytes = s.kBytes ∧ s1.kUndefinedSymbols = s.kUndefinedSymbols ∧
      ∃ cur, s1.kRecords = (if s.kRecords.isEmpty then s.kRecords
          else set_last_size s.kRecords s.kBytes.length) ++ [cur] := by
    intro kind stored hp
    unfold push_record at hp
    cases hc : copy_name stored with
    | none => rw [hc] at hp; simp at hp
    | some nm =>
      rw [hc] at hp
      simp only [Res.ok.injEq, true_and] at hp
      subst hp
      exact ⟨rfl, rfl, _, rfl⟩
  unfold masm_check_export at h
  by_cases hi : find_word line "__import".toList = true
  · rw [if_pos hi] at h
    obtain ⟨h1, h2, h3⟩ := hpush _ _ h
    exact ⟨h1, h2, Or.inr ⟨by rw [hi]; rfl, h3⟩⟩
  · rw [if_neg hi] at h
    by_cases he : find_word line "__export".toList = true
    · rw [if_pos he] at h
      obtain ⟨h1, h2, h3⟩ := hpush _ _ h
      exact ⟨h1, h2, Or.inr ⟨by rw [he]; exact Bool.or_true _, h3⟩⟩
    · rw [if_neg he] at h
      cases h
      exact ⟨rfl, rfl, Or.inl ⟨by rw [Bool.eq_false_iff.2 hi, Bool.eq_false_iff.2 he]; rfl, rfl⟩⟩

theorem read_labels_effect (line : Str) (s s1 : State)
    (h : masm_read_labels line s = .ok () s1) :
    s1.kBytes = s.kBytes ∧ s1.kRecords = s.kRecords ∧
      s1.kUndefinedSymbols = s.kUndefinedSymbols := by
  simp only [masm_read_labels] at h
  split_ifs at h
  · cases h; exact ⟨rfl, rfl, rfl⟩
  · cases hl : s.kLabelLevel with
    | nil => rw [hl] at h; simp at h
    | cons a l => rw [hl] at h; simp only at h; cases h; exact ⟨rfl, rfl, rfl⟩
  · cases h; exact ⟨rfl, rfl, rfl⟩

/-- A directive line passes the line check, cut at its comment mark. -/
theorem check_line_directive (line0 : Str) (h : directive_line line0 = true) :
    masm_check_line line0 = ([], (erase_all '\t' line0).takeWhile fun c => c != '#') := by
  apply check_line_passthrough
  have hup : ∀ kw : Str,
      find_word ((erase_all '\t' line0).takeWhile fun c => c != '#') kw = true →
      find_word (erase_all '\t' line0) kw = true := by
    intro kw hk
    rw [find_word_occurs] at hk ⊢
    exact hk.trans (List.takeWhile_prefix _).isInfix
  simp only [directive_line, Bool.or_eq_true] at h
  simp only [is_passthrough, Bool.or_eq_true]
  rcases h with h | h
  · exact Or.inl (Or.inl (Or.inl (Or.inl (Or.inl (Or.inr (hup _ h))))))
  · exact Or.inl (Or.inl (Or.inl (Or.inl (Or.inr (hup _ h)))))

/-- On a line that is no directive line the text left by the line check holds no
directive. -/
theorem check_line_not_directive (line0 : Str) (h : directive_line line0 = false) :
    (find_word (masm_check_line line0).2 "__import".toList ||
      find_word (masm_check_line line0).2 "__export".toList) = false := by
  cases hp : is_passthrough (erase_all '\t' line0) with
  | true =>
    rw [check_line_passthrough line0 hp]
    exact h
  | false =>
    rw [check_line_other line0 hp]
    simp only [is_passthrough, Bool.or_eq_false_iff] at hp
    rw [hp.1.1.1.1.1.2, hp.1.1.1.1.2]
    rfl

/-- The effect of one source line on the code buffer, on the undefined-symbol list and
on the record list: the buffer is extended, the list of undefined symbols is left alone,
and a record is pushed (after the back-fill of the size of the last one) exactly on a
directive line. -/
theorem compile_line_effect (line0 file : Str) (s s1 : State)
    (h : compile_line line0 file s = .ok () s1) :
    s.kBytes <+: s1.kBytes ∧ s1.kUndefinedSymbols = s.kUndefinedSymbols ∧
    (if directive_line line0 = true then
      ∃ cur, s1.kRecords = (if s.kRecords.isEmpty then s.kRecords
        else set_last_size s.kRecords s.kBytes.length) ++ [cur]
     else s1.kRecords = s.kRecords) := by
  simp only [compile_line] at h
  split_ifs at h with hd hc
  · have hnd : ¬ directive_line line0 = true := by
      intro hdir
      rw [check_line_directive line0 hdir] at hd
      simp at hd
    have hf := print_error_frame _ _ _ _ h
    have hb := print_error_bytes _ _ _ _ h
    rw [if_neg hnd, hb]
    exact ⟨List.prefix_refl _, congrArg (fun p => p.2.2.2.2.2) hf,
      congrArg (fun p => p.2.2.2.2.1) hf⟩
  · have hnd : ¬ directive_line line0 = true := by
      intro hdir
      rw [check_line_directive line0 hdir] at hc
      have hm := (str_find_char_isSome '#' _).1 hc
      have := List.mem_takeWhile_imp hm
      simp at this
    cases h
    rw [if_neg hnd]
    exact ⟨List.prefix_refl _, rfl, rfl⟩
  · cases h1 : masm_check_export (masm_check_line line0).2 s with
    | ok u a =>
      rw [h1] at h
      simp only [Res.bind] at h
      obtain ⟨ea1, ea2, ea3⟩ := check_export_effect _ _ _ h1
      cases h2 : masm_read_labels (masm_check_line line0).2 a with
      | ok u2 b =>
        rw [h2] at h
        simp only at h
        obtain ⟨eb1, eb2, eb3⟩ := read_labels_effect _ _ _ h2
        have hf := masm_read_instr_frame _ _ _ _ h
        have hr : s1.kRecords = b.kRecords := congrArg (fun p => p.2.2.2.2.1) hf
        have hu : s1.kUndefinedSymbols = b.kUndefinedSymbols :=
          congrArg (fun p => p.2.2.2.2.2) hf
        have hp : s.kBytes <+: s1.kBytes := by
          have := read_instr_loop_bytes _ _ kOpcodesStd b s1 h
          rw [eb1, ea1] at this
          exact this
        refine ⟨hp, by rw [hu, eb3, ea2], ?_⟩
        by_cases hdir : directive_line line0 = true
        · rw [if_pos hdir, hr, eb2]
          rcases ea3 with ⟨hno, -⟩ | ⟨-, hcur⟩
          · rw [check_line_directive line0 hdir] at hno
            have hd2 : (find_word ((erase_all '\t' line0).takeWhile fun c => c != '#')
                "__import".toList ||
              find_word ((erase_all '\t' line0).takeWhile fun c => c != '#')
                "__export".toList) = true := hdir
            rw [hd2] at hno
            cases hno
          · exact hcur
        · rw [if_neg hdir, hr, eb2]
          rcases ea3 with ⟨-, hsame⟩ | ⟨hyes, -⟩
          · exact hsame
          · rw [check_line_not_directive line0 (Bool.eq_false_iff.2 hdir)] at hyes
            cases hyes
      | exit c b => rw [h2] at h; simp at h
      | undef => rw [h2] at h; simp at h
      | stuck => rw [h2] at h; simp at h
    | exit c a => rw [h1] at h; simp [Res.bind] at h
    | undef => rw [h1] at h; simp [Res.bind] at h
    | stuck => rw [h1] at h; simp [Res.bind] at h

/-- The compilation loop only appends to the code buffer and leaves the undefined-symbol
list alone; it pushes one record per directive line. -/
theorem compile_lines_effect (file : Str) :
    ∀ (lines : List Str) (s s1 : State), compile_lines file lines s = .ok () s1 →
      s.kBytes <+: s1.kBytes ∧ s1.kUndefinedSymbols = s.kUndefinedSymbols ∧
      s1.kRecords.length = s.kRecords.length + lines.countP directive_line := by
  intro lines
  induction lines with
  | nil => intro s s1 h; cases h; exact ⟨List.prefix_refl _, rfl, rfl⟩
  | cons l ls ih =>
    intro s s1 h
    simp only [compile_lines] at h
    cases h1 : compile_line l file s with
    | ok u a =>
      rw [h1] at h
      simp only [Res.bind] at h
      obtain ⟨p1, u1, r1⟩ := compile_line_effect _ _ _ _ h1
      obtain ⟨p2, u2, r2⟩ := ih a s1 h
      refine ⟨p1.trans p2, u2.trans u1, ?_⟩
      rw [r2, List.countP_cons]
      by_cases hdir : directive_line l = true
      · rw [if_pos hdir] at r1
        obtain ⟨cur, hcur⟩ := r1
        have hl : a.kRecords.length = s.kRecords.length + 1 := by
          rw [hcur, List.length_append, List.length_singleton]
          split_ifs
          · rfl
          · rw [set_last_size_length]
        rw [hl, if_pos hdir]
        omega
      · rw [if_neg hdir] at r1
        rw [r1, if_neg hdir]
        omega
    | exit c a => rw [h1] at h; simp [Res.bind] at h
    | undef => rw [h1] at h; simp [Res.bind] at h
    | stuck => rw [h1] at h; simp [Res.bind] at h

theorem SizesInv_fresh : SizesInv State.fresh := by
  constructor
  · exact List.Pairwise.nil
  · intro r hr; cases hr

theorem SizesInv_compile_line (line0 file : Str) (s s1 : State) (hinv : SizesInv s)
    (h : compile_line line0 file s = .ok () s1) : SizesInv s1 := by
  obtain ⟨hp, -, hr⟩ := compile_line_effect _ _ _ _ h
  have hlen : s.kBytes.length ≤ s1.kBytes.length := hp.length_le
  by_cases hdir : directive_line line0 = true
  · rw [if_pos hdir] at hr
    obtain ⟨cur, hcur⟩ := hr
    unfold SizesInv
    rw [hcur, List.dropLast_concat]
    by_cases hne : s.kRecords = []
    · rw [hne]
      exact ⟨List.Pairwise.nil, fun r hr => by cases hr⟩
    · have hemp : s.kRecords.isEmpty = false := by
        cases hk : s.kRecords with
        | nil => exact absurd hk hne
        | cons a l => rfl
      simp only [hemp, Bool.false_eq_true, if_false]
      rw [set_last_size_eq _ _ hne]
      constructor
      · rw [List.map_append, List.pairwise_append]
        refine ⟨hinv.1, List.pairwise_singleton _ _, ?_⟩
        intro a ha b hb
        obtain ⟨r, hr, rfl⟩ := List.mem_map.1 ha
        simp only [List.map_cons, List.map_nil, List.mem_singleton] at hb
        rw [hb]
        exact hinv.2 r hr
      · intro r hr
        rcases List.mem_append.1 hr with hr | hr
        · exact (hinv.2 r hr).trans hlen
        · simp only [List.mem_singleton] at hr
          rw [hr]
          exact hlen
  · rw [if_neg hdir] at hr
    unfold SizesInv
    rw [hr]
    exact ⟨hinv.1, fun r hr => (hinv.2 r hr).trans hlen⟩

theorem SizesInv_compile_lines (file : Str) :
    ∀ (lines : List Str) (s s1 : State), SizesInv s →
      compile_lines file lines s = .ok () s1 → SizesInv s1 := by
  intro lines
  induction lines with
  | nil => intro s s1 hinv h; cases h; exact hinv
  | cons l ls ih =>
    intro s s1 hinv h
    simp only [compile_lines] at h
    cases h1 : compile_line l file s with
    | ok u a =>
      rw [h1] at h
      simp only [Res.bind] at h
      exact ih a s1 (SizesInv_compile_line _ _ _ _ hinv h1) h
    | exit c a => rw [h1] at h; simp [Res.bind] at h
    | undef => rw [h1] at h; simp [Res.bind] at h
    | stuck => rw [h1] at h; simp [Res.bind] at h

theorem finish_records_sizes :
    ∀ (recs : List AERecordHeader) (k : Nat),
      (finish_records recs k).map (fun r => r.fSize) = recs.map fun r => r.fSize := by
  intro recs
  induction recs with
  | nil => intro k; rfl
  | cons r rs ih => intro k; simp only [finish_records, List.map_cons, ih]

/-- The object writer in a state the compilation loop reaches with a record in the list:
no undefined symbol is listed, so the table written is the record list, sizes back-filled
and flags set. -/
theorem write_object_reached (sh sr : Nat) (file : Str) (lines : List Str) (st : State)
    (hrun : compile_lines file lines State.fresh = .ok () st) (hne : st.kRecords ≠ []) :
    write_object sh sr st =
      .ok (some
        { header := patched_header sh sr st,
          table := finish_records (set_last_size st.kRecords st.kBytes.length) 0,
          code := st.kBytes })
        { st with
          kRecords := finish_records (set_last_size st.kRecords st.kBytes.length) 0 } := by
  have hinv := RecordsInv_compile_lines file lines _ _ RecordsInv_fresh hrun
  have hu : undefined_records st.kUndefinedSymbols (st.kRecords.length + 1) = some [] := by
    rw [hinv.2.2.2]; rfl
  have hul : ([] : List AERecordHeader).length = st.kUndefinedSymbols.length := by
    rw [hinv.2.2.2]; rfl
  rw [write_object_eq sh sr st [] hne hu hul]
  simp only [List.append_nil, List.length_nil, Nat.add_zero]

/-- The sizes of the table written: the sizes of all records but the last as the run
left them, then the length of the code buffer. -/
theorem final_sizes (recs : List AERecordHeader) (n : Nat) (hne : recs ≠ []) :
    (finish_records (set_last_size recs n) 0).map (fun r => r.fSize) =
      (recs.dropLast.map fun r => r.fSize) ++ [n] := by
  rw [finish_records_sizes, set_last_size_eq n recs hne, List.map_append]
  rfl

/-- C25: record sizes are monotone.  Every run of the compilation loop only appends to
the code buffer (the buffer before is a prefix of the buffer after).  When the loop, run
from the fresh state, returns with a record in the list, the object writer returns an
object, and in the table it writes (which is the record list of the final state) the
size fields are in non-decreasing order, none is above the length of the final code
buffer, and the last equals it. -/
theorem record_sizes_monotone (sh sr : Nat) (file : Str) (lines : List Str) (st : State)
    (hrun : compile_lines file lines State.fresh = .ok () st) (hne : st.kRecords ≠ []) :
    (∀ (ls : List Str) (a b : State), compile_lines file ls a = .ok () b →
      a.kBytes <+: b.kBytes) ∧
    ∃ (obj : ObjectFile) (s1 : State),
      write_object sh sr st = .ok (some obj) s1 ∧ s1.kRecords = obj.table ∧
      s1.kBytes = st.kBytes ∧ obj.code = st.kBytes ∧
      obj.header.fCodeSize = st.kBytes.length ∧
      (obj.table.map fun r => r.fSize).Pairwise (· ≤ ·) ∧
      (∀ r ∈ obj.table, r.fSize ≤ st.kBytes.length) ∧
      (obj.table.map fun r => r.fSize).getLast? = some st.kBytes.length := by
  have hs := SizesInv_compile_lines file lines _ _ SizesInv_fresh hrun
  have hsz := final_sizes st.kRecords st.kBytes.length hne
  refine ⟨fun ls a b h => (compile_lines_effect file ls a b h).1, _, _,
    write_object_reached sh sr file lines st hrun hne, rfl, rfl, rfl, rfl, ?_, ?_, ?_⟩
  · show ((finish_records (set_last_size st.kRecords st.kBytes.length) 0).map
      fun r => r.fSize).Pairwise (· ≤ ·)
    rw [hsz, List.pairwise_append]
    refine ⟨hs.1, List.pairwise_singleton _ _, ?_⟩
    intro a ha b hb
    obtain ⟨r, hr, rfl⟩ := List.mem_map.1 ha
    simp only [List.mem_singleton] at hb
    rw [hb]
    exact hs.2 r hr
  · intro r hr
    have hm : r.fSize ∈ (finish_records (set_last_size st.kRecords st.kBytes.length) 0).map
        (fun r => r.fSize) := List.mem_map.2 ⟨r, hr, rfl⟩
    rw [hsz] at hm
    rcases List.mem_append.1 hm with hm | hm
    · obtain ⟨q, hq, he⟩ := List.mem_map.1 hm
      rw [← he]
      exact hs.2 q hq
    · simp only [List.mem_singleton] at hm
      rw [hm]
  · show ((finish_records (set_last_size st.kRecords st.kBytes.length) 0).map
      fun r => r.fSize).getLast? = some st.kBytes.length
    rw [hsz]
    simp

/-- The source "__export .text a", "mv r1, r2", "__export .data b", "scall": two records,
with sizes 6 and 10 in the table written. -/
theorem record_sizes_monotone_witness :
    ∃ st : State,
      compile_lines "a.s".toList
        ["__export .text a".toList, "mv r1, r2".toList, "__export .data b".toList,
          "scall".toList] State.fresh = .ok () st ∧
      st.kRecords ≠ [] ∧
      ∃ (obj : ObjectFile) (s1 : State),
        write_object 36 104 st = .ok (some obj) s1 ∧ s1.kRecords = obj.table ∧
        s1.kBytes = st.kBytes ∧ obj.code = st.kBytes ∧
        obj.header.fCodeSize = st.kBytes.length ∧
        (obj.table.map fun r => r.fSize).Pairwise (· ≤ ·) ∧
        (∀ r ∈ obj.table, r.fSize ≤ st.kBytes.length) ∧
        (obj.table.map fun r => r.fSize).getLast? = some st.kBytes.length :=
  ⟨_, rfl, by decide,
   (record_sizes_monotone 36 104 "a.s".toList
      ["__export .text a".toList, "mv r1, r2".toList, "__export .data b".toList,
        "scall".toList] _ rfl (by decide)).2⟩

/-- The sizes in the table written for the source of the witness above. -/
theorem record_sizes_example :
    (match assemble 36 104 "a.s".toList
        ["__export .text a".toList, "mv r1, r2".toList, "__export .data b".toList,
          "scall".toList] State.fresh with
      | .ok (some obj) _ => (obj.table.map fun r => r.fSize, obj.code.length)
      | _ => ([], 0)) = ([6, 10], 10) := by
  decide

/-! ## The undefined-symbol list, on every way out -/

theorem keeps_ok {α : Type} (s s1 : State) (a : α)
    (h : s1.kUndefinedSymbols = s.kUndefinedSymbols) : KeepsUndefined s (Res.ok a s1) := by
  intro s2 h2
  simp only [Res.last, Option.some.injEq] at h2
  rw [← h2]; exact h

theorem keeps_exit {α : Type} (s s1 : State) (c : Nat)
    (h : s1.kUndefinedSymbols = s.kUndefinedSymbols) :
    KeepsUndefined s (Res.exit c s1 : Res α) := by
  intro s2 h2
  simp only [Res.last, Option.some.injEq] at h2
  rw [← h2]; exact h

theorem keeps_bind {α β : Type} (s : State) (r : Res α) (f : α → State → Res β)
    (hr : KeepsUndefined s r)
    (hf : ∀ a s1, s1.kUndefinedSymbols = s.kUndefinedSymbols → KeepsUndefined s1 (f a s1)) :
    KeepsUndefined s (r.bind f) := by
  cases r with
  | ok a s1 =>
    intro s2 h2
    have h1 := hr s1 rfl
    exact (hf a s1 h1 s2 h2).trans h1
  | exit c s1 =>
    intro s2 h2
    exact hr s2 h2
  | undef => intro s2 h2; cases h2
  | stuck => intro s2 h2; cases h2

theorem keeps_print_error (reason file : Str) (s : State) :
    KeepsUndefined s (print_error reason file s) := by
  unfold print_error
  split_ifs
  · exact keeps_exit _ _ _ rfl
  · exact keeps_ok _ _ _ rfl

theorem keeps_register_checks (line file name : Str) (f k : Nat) (s : State) :
    KeepsUndefined s (register_checks line file name f k s) := by
  unfold register_checks
  refine keeps_bind _ _ _ ?_ fun _ s1 _ => keeps_bind _ _ _ ?_ fun _ s2 _ => ?_
  · split_ifs
    · exact keeps_print_error _ _ _
    · exact keeps_ok _ _ _ rfl
  · split_ifs
    · exact keeps_print_error _ _ _
    · exact keeps_ok _ _ _ rfl
  · split_ifs
    · exact keeps_print_error _ _ _
    · exact keeps_ok _ _ _ rfl

theorem keeps_write_number (pos : Nat) (lbl : Str) (s : State) :
    KeepsUndefined s (masm_write_number pos lbl s) := by
  intro s1 h
  cases hr : masm_write_number pos lbl s with
  | ok b s2 =>
    rw [hr] at h
    simp only [Res.last, Option.some.injEq] at h
    rw [← h]
    exact congrArg (fun p => p.2.2.2.2.2) (write_number_frame pos lbl s s2 b hr)
  | exit c s2 =>
    exfalso
    revert hr
    simp only [masm_write_number]
    split_ifs <;> simp
  | undef => rw [hr] at h; cases h
  | stuck => rw [hr] at h; cases h

theorem keeps_comma_loop (cpy : Str) :
    ∀ (fuel : Nat) (s : State), KeepsUndefined s (comma_loop cpy fuel s) := by
  intro fuel
  induction fuel with
  | zero => intro s s1 h; cases h
  | succ n ih =>
    intro s
    unfold comma_loop
    split_ifs
    · exact keeps_bind _ _ _ (keeps_print_error _ _ _) fun _ s1 _ => ih s1
    · exact keeps_ok _ _ _ rfl

theorem keeps_write_label (cpy : Str) (s : State) :
    KeepsUndefined s (masm_write_label cpy s) := by
  unfold masm_write_label
  exact keeps_bind _ _ _ (keeps_comma_loop _ _ _) fun _ s1 _ => keeps_ok _ _ _ rfl

theorem keeps_read_operand (line name : Str) (s : State) :
    KeepsUndefined s (read_operand line name s) := by
  by_cases h5 : name = "psh".toList ∨ name = "jb".toList ∨ name = "stw".toList ∨
      name = "ldw".toList ∨ name = "lda".toList
  · rw [read_operand_eq line name s h5]
    refine keeps_bind _ _ _ (keeps_write_number _ _ _) fun written s1 _ => ?_
    by_cases hw : (!written) = true
    · rw [if_pos hw]
      exact keeps_write_label _ _
    · rw [if_neg hw]
      by_cases hj : name = "jb".toList
      · rw [if_pos hj]
        exact keeps_write_label _ _
      · rw [if_neg hj]
        exact keeps_ok _ _ _ rfl
  · unfold read_operand
    rw [if_neg h5]
    by_cases hj : name = "jb".toList
    · rw [if_pos hj]
      exact keeps_write_label _ _
    · rw [if_neg hj]
      exact keeps_ok _ _ _ rfl

theorem keeps_read_instr_entry (line file : Str) (op : NCOpcode) (s : State) :
    KeepsUndefined s (read_instr_entry line file op s) := by
  unfold read_instr_entry
  by_cases hf : find_word line op.fName = true
  · rw [if_pos hf]
    dsimp only
    refine keeps_bind _ _ _ ?_ fun _ s2 _ =>
      keeps_bind _ _ _ (keeps_read_operand _ _ _) fun _ s3 _ => keeps_ok _ _ _ rfl
    by_cases hcl : op.fFunct7 = kAsmRegToReg ∨ op.fFunct7 = kAsmImmediate
    · rw [if_pos hcl, register_scan_eq]
      intro s1 h1
      have h2 := keeps_register_checks _ _ _ _ _ _ s1 h1
      exact h2
    · rw [if_neg hcl]
      exact keeps_ok _ _ _ rfl
  · rw [if_neg hf]
    exact keeps_ok _ _ _ rfl

theorem keeps_read_instr_loop (line file : Str) :
    ∀ (ops : List NCOpcode) (s : State), KeepsUndefined s (read_instr_loop line file ops s) := by
  intro ops
  induction ops with
  | nil => intro s; exact keeps_ok _ _ _ rfl
  | cons op ops ih =>
    intro s
    unfold read_instr_loop
    exact keeps_bind _ _ _ (keeps_read_instr_entry _ _ _ _) fun _ s1 _ => ih s1

theorem keeps_check_export (line : Str) (s : State) :
    KeepsUndefined s (masm_check_export line s) := by
  have hpush : ∀ kind stored, KeepsUndefined s (push_record kind stored s) := by
    intro kind stored
    unfold push_record
    cases copy_name stored with
    | none => intro s1 h; cases h
    | some nm => exact keeps_ok _ _ _ rfl
  unfold masm_check_export
  split_ifs
  · exact hpush _ _
  · exact hpush _ _
  · exact keeps_ok _ _ _ rfl

theorem keeps_read_labels (line : Str) (s : State) :
    KeepsUndefined s (masm_read_labels line s) := by
  unfold masm_read_labels
  split_ifs
  · exact keeps_ok _ _ _ rfl
  · cases s.kLabelLevel with
    | nil => intro s1 h; cases h
    | cons a l => exact keeps_ok _ _ _ rfl
  · exact keeps_ok _ _ _ rfl

theorem keeps_compile_line (line0 file : Str) (s : State) :
    KeepsUndefined s (compile_line line0 file s) := by
  unfold compile_line
  dsimp only
  split_ifs
  · exact keeps_print_error _ _ _
  · exact keeps_ok _ _ _ rfl
  · exact keeps_bind _ _ _ (keeps_check_export _ _) fun _ s1 _ =>
      keeps_bind _ _ _ (keeps_read_labels _ _) fun _ s2 _ => keeps_read_instr_loop _ _ _ _

/-- The compilation loop leaves the list of undefined symbols as it was, on every way
out: normal return, or exit of the process. -/
theorem keeps_compile_lines (file : Str) :
    ∀ (lines : List Str) (s : State), KeepsUndefined s (compile_lines file lines s) := by
  intro lines
  induction lines with
  | nil => intro s; exact keeps_ok _ _ _ rfl
  | cons l ls ih =>
    intro s
    unfold compile_lines
    exact keeps_bind _ _ _ (keeps_compile_line _ _ _) fun _ s1 _ => ih s1

/-! ## The undefined-symbol list (C26) -/

/-- C26: the undefined-symbol list is never populated.  Whatever the lines, the
compilation loop run from the fresh state leaves kUndefinedSymbols empty on every way out
(normal return or exit of the process).  In every state st it returns in, the record list
has one record per directive line (a line that holds __import or __export once tabs and
the comment are removed).  The object writer then serializes no record of an undefined
symbol: with no record it writes no object, and otherwise the table is the record list,
the record count of the header is the number of directive lines, and no record of the
table has the kind (kAEInvalidOpcode) of an unresolved symbol. -/
theorem undefined_symbols_never_listed (sh sr : Nat) (file : Str) (lines : List Str)
    (st : State) (hrun : compile_lines file lines State.fresh = .ok () st) :
    (∀ (ls : List Str) (s1 : State),
      (compile_lines file ls State.fresh).last = some s1 → s1.kUndefinedSymbols = []) ∧
    st.kUndefinedSymbols = [] ∧
    st.kRecords.length = lines.countP directive_line ∧
    (st.kRecords = [] → write_object sh sr st = .ok none st) ∧
    (st.kRecords ≠ [] →
      ∃ (obj : ObjectFile) (s1 : State),
        write_object sh sr st = .ok (some obj) s1 ∧
        obj.table = finish_records (set_last_size st.kRecords st.kBytes.length) 0 ∧
        obj.header.fCount = lines.countP directive_line ∧
        obj.table.length = lines.countP directive_line ∧
        ∀ r ∈ obj.table, r.fKind ≠ kAEInvalidOpcode) := by
  have hinv := RecordsInv_compile_lines file lines _ _ RecordsInv_fresh hrun
  have hcount : st.kRecords.length = lines.countP directive_line := by
    have := (compile_lines_effect file lines _ _ hrun).2.2
    simpa [State.fresh] using this
  refine ⟨fun ls s1 h => keeps_compile_lines file ls State.fresh s1 h, hinv.2.2.2, hcount,
    ?_, ?_⟩
  · intro he
    simp [write_object, he]
  · intro hne
    refine ⟨_, _, write_object_reached sh sr file lines st hrun hne, rfl, ?_, ?_, ?_⟩
    · show st.kRecords.length + st.kUndefinedSymbols.length = _
      rw [hinv.2.2.2, hcount]
      rfl
    · show (finish_records (set_last_size st.kRecords st.kBytes.length) 0).length = _
      rw [finish_records_length, set_last_size_length, hcount]
    · intro r hr
      obtain ⟨r1, hr1, -, -, hk1, -⟩ := finish_records_mem _ _ r hr
      obtain ⟨r0, hr0, -, hk0, -⟩ := set_last_size_mem _ _ r1 hr1
      rw [hk1, hk0]
      rcases (hinv.1 r0 hr0).2.2.2 with h | h | h <;> rw [h] <;> decide

/-- The source "__import foo", "__export .text bar", "scall": two directive lines, two
records, no undefined symbol. -/
theorem undefined_symbols_never_listed_witness :
    ∃ st : State,
      compile_lines "a.s".toList
        ["__import foo".toList, "__export .text bar".toList, "scall".toList] State.fresh =
          .ok () st ∧
      st.kUndefinedSymbols = [] ∧
      st.kRecords.length =
        ["__import foo".toList, "__export .text bar".toList, "scall".toList].countP
          directive_line ∧
      st.kRecords.length = 2 :=
  ⟨_, rfl,
   (undefined_symbols_never_listed 36 104 "a.s".toList
      ["__import foo".toList, "__export .text bar".toList, "scall".toList] _ rfl).2.1,
   (undefined_symbols_never_listed 36 104 "a.s".toList
      ["__import foo".toList, "__export .text bar".toList, "scall".toList] _ rfl).2.2.1,
   by decide⟩

end Masm
